import Mathlib

/-!
# CREST constraint-solving backend: value/type model and Yices query construction

A shallow embedding of `src/base/basic_types.cc` and `src/base/yices_solver.cc`.

Conventions of the embedding.

* `value_t` is the floating carrier of the sources (`snprintf(.., "%lf", val)`,
  `double val; ... soln->insert(make_pair(i->first, val))`): a finite IEEE-754
  binary64 number, held as the exact rational it denotes.
* A conversion whose result the C++ language leaves undefined (a floating value
  whose truncation does not fit the destination integer type, a floating value
  outside the range of `float`) yields `none`.
* Enumerations are their integer codes where the code computes with the code
  (`op ^ 1`, `i % 2`, table indexing).
-/

namespace crest

/-! ## Comparison operators -/

/-- Modelled from the spec: the enumeration `compare_op_t` of the absent header
`base/basic_types.h`, held as its integer code.  The six operators are listed
in the order `EQ, NEQ, GT, LE, LT, GE` and are paired so that flipping the
lowest bit of the code negates the operator, which fixes the codes 0..5. -/
abbrev compare_op_t := Nat

namespace ops

def EQ : compare_op_t := 0
def NEQ : compare_op_t := 1
def GT : compare_op_t := 2
def LE : compare_op_t := 3
def LT : compare_op_t := 4
def GE : compare_op_t := 5

/-- The six enumerators of `compare_op_t`. -/
def all : List compare_op_t := [EQ, NEQ, GT, LE, LT, GE]

end ops

/-- `NegateCompareOp`: `static_cast<compare_op_t>(op ^ 1)`. -/
def NegateCompareOp (op : compare_op_t) : compare_op_t := op ^^^ 1

/-- The kind of comparison-with-zero atom Yices is asked to build
(`yices_arith_eq0_atom`, `yices_arith_neq0_atom`, `yices_arith_gt0_atom`,
`yices_arith_leq0_atom`, `yices_arith_lt0_atom`, `yices_arith_geq0_atom`). -/
inductive Cmp0
  | eq0 | neq0 | gt0 | leq0 | lt0 | geq0
  deriving DecidableEq, Repr

/-- Meaning of a comparison-with-zero atom at the value `e` of its term. -/
def Cmp0.holds {K : Type} [LinearOrderedField K] : Cmp0 → K → Prop
  | .eq0, e => e = 0
  | .neq0, e => e ≠ 0
  | .gt0, e => 0 < e
  | .leq0, e => e ≤ 0
  | .lt0, e => e < 0
  | .geq0, e => 0 ≤ e

instance {K : Type} [LinearOrderedField K] (c : Cmp0) (e : K) : Decidable (c.holds e) := by
  cases c <;> unfold Cmp0.holds <;> infer_instance

/-- The `switch ((*i)->op())` of `YicesSolver::Solve`: which atom is built for
an operator code; `none` is the `default:` branch (`exit(1)`). -/
def predCmp (op : compare_op_t) : Option Cmp0 :=
  if op = ops.EQ then some .eq0
  else if op = ops.NEQ then some .neq0
  else if op = ops.GT then some .gt0
  else if op = ops.LE then some .leq0
  else if op = ops.LT then some .lt0
  else if op = ops.GE then some .geq0
  else none

/-! ## The value carrier and its conversions -/

/-- Modelled from the spec: `value_t` of the absent header, the uniform numeric
carrier.  The sources format it with `%lf` and fill it from a `double`, so it
is IEEE-754 binary64; a finite value is held as the rational it denotes. -/
abbrev value_t := ℚ

/-- Nearest integer, ties to the even one (the IEEE-754 default rounding). -/
def roundHalfEven (x : ℚ) : ℤ :=
  if x - ⌊x⌋ < 1 / 2 then ⌊x⌋
  else if 1 / 2 < x - ⌊x⌋ then ⌊x⌋ + 1
  else if ⌊x⌋ % 2 = 0 then ⌊x⌋ else ⌊x⌋ + 1

/-- Exponent of the unit in the last place of `v` in a binary format with `p`
significant bits whose smallest positive number is `2 ^ emin`. -/
def ulpExp (p : ℕ) (emin : ℤ) (v : ℚ) : ℤ := max (Int.log 2 |v| - (p - 1)) emin

/-- Rounding of `v` to the binary format `(p, emin)`, to nearest, ties to even;
the exponent range is unbounded above (callers check the range). -/
def roundNE (p : ℕ) (emin : ℤ) (v : ℚ) : ℚ :=
  roundHalfEven (v / 2 ^ ulpExp p emin v) * 2 ^ ulpExp p emin v

/-- Largest finite `float`: `numeric_limits<float>::max()`. -/
def FLT_MAX : ℚ := (2 ^ 24 - 1) * 2 ^ 104
/-- Smallest positive normal `float`: `numeric_limits<float>::min()`. -/
def FLT_MIN : ℚ := 1 / 2 ^ 126
/-- Largest finite `double`: `numeric_limits<double>::max()`. -/
def DBL_MAX : ℚ := (2 ^ 53 - 1) * 2 ^ 971
/-- Smallest positive normal `double`: `numeric_limits<double>::min()`. -/
def DBL_MIN : ℚ := 1 / 2 ^ 1022

/-- Rounding to binary32 (24 significant bits, smallest subnormal `2 ^ -149`). -/
def roundFloat (v : ℚ) : ℚ := roundNE 24 (-149) v
/-- Rounding to binary64 (53 significant bits, smallest subnormal `2 ^ -1074`). -/
def roundDouble (v : ℚ) : ℚ := roundNE 53 (-1074) v

/-- The rational `v` is a finite `float`. -/
def isFloat (v : ℚ) : Prop := roundFloat v = v ∧ |v| ≤ FLT_MAX
/-- The rational `v` is a finite `double`, that is, a value of `value_t`. -/
def isDouble (v : ℚ) : Prop := roundDouble v = v ∧ |v| ≤ DBL_MAX

instance (v : ℚ) : Decidable (isFloat v) := by unfold isFloat; infer_instance
instance (v : ℚ) : Decidable (isDouble v) := by unfold isDouble; infer_instance

/-- Truncation toward zero. -/
def trunc (v : ℚ) : ℤ := if 0 ≤ v then ⌊v⌋ else ⌈v⌉

/-- `numeric_limits<T>::min()` of an integer type of the given signedness and width. -/
def intMin (signed : Bool) (bits : ℕ) : ℤ := if signed then -2 ^ (bits - 1) else 0
/-- `numeric_limits<T>::max()` of an integer type of the given signedness and width. -/
def intMax (signed : Bool) (bits : ℕ) : ℤ := if signed then 2 ^ (bits - 1) - 1 else 2 ^ bits - 1

/-- Floating-integral conversion to an integer type `T` as far as the language
defines it: the fractional part is discarded; the behaviour is undefined
(`none`) when the truncated value cannot be represented in `T`.  The argument
of `yices_int64` is converted so; for the casts of `CastTo` see
`convertIntegral`. -/
def toIntegral (signed : Bool) (bits : ℕ) (val : value_t) : Option ℤ :=
  if intMin signed bits ≤ trunc val ∧ trunc val ≤ intMax signed bits then some (trunc val)
  else none

/-- Integral-floating conversion of an integer to `value_t`. -/
def ofIntegral (n : ℤ) : value_t := roundDouble n

/-- Floating conversion `static_cast<float>(val)`, read back as `value_t`
(exact): rounds inside the range of `float`, undefined (`none`) outside. -/
def toFloat (val : value_t) : Option value_t :=
  if |val| ≤ FLT_MAX then some (roundFloat val) else none

/-! ## Value types -/

/-- Modelled from the spec: the enumeration `type_t` of the absent header, the
twelve variants in their fixed order. -/
inductive type_t
  | U_CHAR | CHAR | U_SHORT | SHORT | U_INT | INT | U_LONG | LONG
  | U_LONG_LONG | LONG_LONG | FLOAT | DOUBLE
  deriving DecidableEq, Repr

/-- The integer code of a variant (its index into the bound tables). -/
def type_t.toNat : type_t → ℕ
  | .U_CHAR => 0 | .CHAR => 1 | .U_SHORT => 2 | .SHORT => 3 | .U_INT => 4 | .INT => 5
  | .U_LONG => 6 | .LONG => 7 | .U_LONG_LONG => 8 | .LONG_LONG => 9 | .FLOAT => 10
  | .DOUBLE => 11

/-- The ten integer variants, `U_CHAR` through `LONG_LONG`. -/
def type_t.isInteger (t : type_t) : Bool := t.toNat < 10

/-- The conversion instruction of the compiled code (`cvttsd2si` on x86-64) to
a signed integer register of `bits` bits: the truncated value when it fits,
else the "integer indefinite" value `-2 ^ (bits - 1)`. -/
def cvttsd2si (bits : ℕ) (val : value_t) : ℤ :=
  if intMin true bits ≤ trunc val ∧ trunc val ≤ intMax true bits then trunc val
  else intMin true bits

/-- The low `bits` bits of an integer register, read as a value of the integer
type of that width and signedness. -/
def lowBits (signed : Bool) (bits : ℕ) (n : ℤ) : ℤ :=
  if signed = true ∧ 2 ^ (bits - 1) ≤ n % 2 ^ bits then n % 2 ^ bits - 2 ^ bits
  else n % 2 ^ bits

/-- The value of `static_cast<T>(val)` for an integer type `T` of the given
signedness and width.  When the truncated value fits `T` it is that value, as
the language defines.  When it does not fit the language leaves the conversion
undefined, and the definition gives what the compiled conversion returns on
x86-64: `char`, `short` and `int` types keep the low bits of a conversion to a
32-bit register, `unsigned int` and 64-bit `long` keep the low bits of a
conversion to a 64-bit register, and a 64-bit `unsigned long` converts values
from `2 ^ 63` on after subtracting `2 ^ 63` and then flips bit 63 (the sequence
gcc emits). -/
def convertIntegral (signed : Bool) (bits : ℕ) (val : value_t) : ℤ :=
  if signed = false ∧ bits = 64 then
    if val < 2 ^ 63 then lowBits false 64 (cvttsd2si 64 val)
    else lowBits false 64 (cvttsd2si 64 (val - 2 ^ 63) + 2 ^ 63)
  else if bits < 32 ∨ (signed = true ∧ bits = 32) then lowBits signed bits (cvttsd2si 32 val)
  else lowBits signed bits (cvttsd2si 64 val)

/-- `return static_cast<T>(val);` for an integer type `T`: conversion to `T`,
then back to the carrier for the return value. -/
def castIntegral (signed : Bool) (bits : ℕ) (val : value_t) : Option value_t :=
  some (ofIntegral (convertIntegral signed bits val))

/-- `CastTo`.  `longBits` is the width of `long` on the platform (32 or 64);
`char`, `short`, `int` are 8, 16, 32 bits wide and `char` is signed.  The cases
`U_LONG_LONG` and `LONG_LONG` have no statement of their own and fall through
to `return static_cast<float>(val);`; the final `return val;` is unreachable. -/
def CastTo (longBits : ℕ) (val : value_t) : type_t → Option value_t
  | .U_CHAR => castIntegral false 8 val
  | .CHAR => castIntegral true 8 val
  | .U_SHORT => castIntegral false 16 val
  | .SHORT => castIntegral true 16 val
  | .U_INT => castIntegral false 32 val
  | .INT => castIntegral true 32 val
  | .U_LONG => castIntegral false longBits val
  | .LONG => castIntegral true longBits val
  | .U_LONG_LONG => toFloat val
  | .LONG_LONG => toFloat val
  | .FLOAT => toFloat val
  | .DOUBLE => some val

/-- Signedness and width of the eight integer types that `CastTo` converts with
an integer `static_cast`. -/
def nativeInt (longBits : ℕ) : type_t → Option (Bool × ℕ)
  | .U_CHAR => some (false, 8)
  | .CHAR => some (true, 8)
  | .U_SHORT => some (false, 16)
  | .SHORT => some (true, 16)
  | .U_INT => some (false, 32)
  | .INT => some (true, 32)
  | .U_LONG => some (false, longBits)
  | .LONG => some (true, longBits)
  | _ => none

/-- Native modular truncation as the specification words it: the unique value
congruent to `n` modulo `2 ^ bits` in the range of the type. -/
def wrapInt (signed : Bool) (bits : ℕ) (n : ℤ) : ℤ :=
  if signed then (n + 2 ^ (bits - 1)) % 2 ^ bits - 2 ^ (bits - 1) else n % 2 ^ bits

/-! ## Bound tables -/

/-- `kMinValueStr`: the textual lower bounds, in table order. -/
def kMinValueStr : List String :=
  ["0",
   "-128",
   "0",
   "-32768",
   "0",
   "-2147483648",
   "0",
   "-2147483648",
   "0",
   "-9223372036854775808",
   "-3.402823466e+38",
   "-1.7976931348623158e+308"]

/-- `kMaxValueStr`: the textual upper bounds, in table order. -/
def kMaxValueStr : List String :=
  ["255",
   "127",
   "65535",
   "32767",
   "4294967295",
   "2147483647",
   "4294967295",
   "2147483647",
   "18446744073709551615",
   "9223372036854775807",
   "3.402823466e+38",
   "1.7976931348623158e+308"]

/-- `kMinValue`: `numeric_limits<T>::min()` of each type, converted to the
carrier by the initialisation of a `value_t` array. -/
def kMinValue (longBits : ℕ) : List value_t :=
  [ofIntegral (intMin false 8),
   ofIntegral (intMin true 8),
   ofIntegral (intMin false 16),
   ofIntegral (intMin true 16),
   ofIntegral (intMin false 32),
   ofIntegral (intMin true 32),
   ofIntegral (intMin false longBits),
   ofIntegral (intMin true longBits),
   ofIntegral (intMin false 64),
   ofIntegral (intMin true 64),
   FLT_MIN,
   DBL_MIN]

/-- `kMaxValue`: `numeric_limits<T>::max()` of each type, converted to the
carrier by the initialisation of a `value_t` array. -/
def kMaxValue (longBits : ℕ) : List value_t :=
  [ofIntegral (intMax false 8),
   ofIntegral (intMax true 8),
   ofIntegral (intMax false 16),
   ofIntegral (intMax true 16),
   ofIntegral (intMax false 32),
   ofIntegral (intMax true 32),
   ofIntegral (intMax false longBits),
   ofIntegral (intMax true longBits),
   ofIntegral (intMax false 64),
   ofIntegral (intMax true 64),
   FLT_MAX,
   DBL_MAX]

/-! ## Decimal text -/

/-- Value of a decimal digit character. -/
def digitVal (c : Char) : Option ℕ :=
  if 48 ≤ c.toNat ∧ c.toNat ≤ 57 then some (c.toNat - 48) else none

/-- Reads a run of decimal digits: the number read so far, the count of digits
read, and the rest of the text. -/
def readDigits : List Char → ℕ → ℕ → ℕ × ℕ × List Char
  | [], acc, k => (acc, k, [])
  | c :: cs, acc, k =>
    match digitVal c with
    | some d => readDigits cs (10 * acc + d) (k + 1)
    | none => (acc, k, c :: cs)

/-- Reads an optional sign; `true` for a minus sign. -/
def readSign : List Char → Bool × List Char
  | '-' :: cs => (true, cs)
  | '+' :: cs => (false, cs)
  | cs => (false, cs)

/-- A parsed decimal: sign, integer part, fractional digits (as a number and a
count of digits), and exponent of ten. -/
structure Decimal where
  neg : Bool
  ip : ℕ
  fp : ℕ
  nf : ℕ
  ex : ℤ
  deriving DecidableEq, Repr

/-- Reads an optional fractional part `.ddd`. -/
def readFrac : List Char → ℕ × ℕ × List Char
  | '.' :: t => readDigits t 0 0
  | s => (0, 0, s)

/-- Reads an optional exponent part up to the end of the text. -/
def readExp : List Char → Option ℤ
  | [] => some 0
  | c :: t =>
    if c = 'e' ∨ c = 'E' then
      match readDigits (readSign t).2 0 0 with
      | (ev, ne, []) =>
        if ne = 0 then none else some (if (readSign t).1 then -(ev : ℤ) else ev)
      | _ => none
    else none

/-- Parses `<sign>? <digits> (. <digits>)? ((e|E) <sign>? <digits>)?`. -/
def parseDecimal (s : List Char) : Option Decimal :=
  match readDigits (readSign s).2 0 0 with
  | (ip, ni, s2) =>
    if ni = 0 then none
    else
      match readFrac s2 with
      | (fp, nf, s3) =>
        match readExp s3 with
        | some ex => some ⟨(readSign s).1, ip, fp, nf, ex⟩
        | none => none

/-- The rational a parsed decimal denotes. -/
def Decimal.toRat (d : Decimal) : ℚ :=
  (if d.neg then -1 else 1) * ((d.ip : ℚ) + (d.fp : ℚ) / 10 ^ d.nf) * 10 ^ d.ex

/-- The exact rational a decimal text denotes; this is what
`yices_parse_float` turns its argument into (`none`: not a number). -/
def yices_parse_float (s : String) : Option ℚ :=
  (parseDecimal s.toList).map Decimal.toRat

/-- `kMinValue[type]`. -/
def minValue (longBits : ℕ) (t : type_t) : value_t := (kMinValue longBits).getD t.toNat 0
/-- `kMaxValue[type]`. -/
def maxValue (longBits : ℕ) (t : type_t) : value_t := (kMaxValue longBits).getD t.toNat 0
/-- The number denoted by `kMinValueStr[type]`. -/
def minValueStr (t : type_t) : Option ℚ := yices_parse_float (kMinValueStr.getD t.toNat "")
/-- The number denoted by `kMaxValueStr[type]`. -/
def maxValueStr (t : type_t) : Option ℚ := yices_parse_float (kMaxValueStr.getD t.toNat "")

/-- The numbers the textual lower bounds denote (`minValueStr_eq`). -/
def minText : List ℚ :=
  [0, -128, 0, -32768, 0, -2147483648, 0, -2147483648, 0, -9223372036854775808, -(3402823466 * 10 ^ 29), -(17976931348623158 * 10 ^ 292)]

/-- The numbers the textual upper bounds denote (`maxValueStr_eq`). -/
def maxText : List ℚ :=
  [255, 127, 65535, 32767, 4294967295, 2147483647, 4294967295, 2147483647, 18446744073709551615, 9223372036854775807, 3402823466 * 10 ^ 29, 17976931348623158 * 10 ^ 292]

/-! ## Rendering a value as text -/

/-- The character of a decimal digit. -/
def digitChar (d : ℕ) : Char := Char.ofNat (48 + d)

/-- Decimal digits of a natural number, most significant first. -/
def natToDigits (n : ℕ) : List Char :=
  if n = 0 then ['0'] else (Nat.digits 10 n).reverse.map digitChar

/-- Six decimal digits of a number below `10 ^ 6`, zero padded. -/
def frac6 (f : ℕ) : List Char :=
  [f / 100000 % 10, f / 10000 % 10, f / 1000 % 10, f / 100 % 10, f / 10 % 10, f % 10].map
    digitChar

/-- The text `printf` produces for `"%lf"`: fixed notation with six digits
after the point, the exact value rounded to nearest, ties to even. -/
def fmt_lf (val : value_t) : List Char :=
  (if val < 0 then ['-'] else []) ++
    natToDigits ((roundHalfEven (|val| * 10 ^ 6)).toNat / 10 ^ 6) ++ ['.'] ++
    frac6 ((roundHalfEven (|val| * 10 ^ 6)).toNat % 10 ^ 6)

/-- The contents of a buffer of `size` bytes after `snprintf`: at most
`size - 1` characters of the text are kept. -/
def snprintf (size : ℕ) (text : List Char) : String := String.mk (text.take (size - 1))

/-! ## Symbolic expressions and predicates -/

/-- Modelled from the spec: the variable identifier `var_t` of the absent header. -/
abbrev var_t := ℕ

/-- Modelled from the spec: class `SymbolicExpr` of the absent
`base/symbolic_expression.h`: a constant offset plus a map from variable to
coefficient, denoting `const + Σ coeff_i * var_i`. -/
structure SymbolicExpr where
  const_term : value_t
  terms : List (var_t × value_t)

/-- Modelled from the spec: class `SymbolicPred` of the absent
`base/symbolic_predicate.h`: a comparison operator applied to a symbolic linear
expression, asserting `expr <op> 0`. -/
structure SymbolicPred where
  op : compare_op_t
  expr : SymbolicExpr

/-- Modelled from the spec: the value of `const + Σ coeff_i * var_i` under an
assignment of the variables. -/
def SymbolicExpr.eval (σ : var_t → ℚ) (e : SymbolicExpr) : ℚ :=
  e.const_term + (e.terms.map fun xa => xa.2 * σ xa.1).sum

/-- Modelled from the spec: the meaning of `e <op> 0` for the six operators
(an operator outside the six asserts nothing true). -/
def compareHolds (op : compare_op_t) (e : ℚ) : Prop :=
  if op = ops.EQ then e = 0
  else if op = ops.NEQ then e ≠ 0
  else if op = ops.GT then 0 < e
  else if op = ops.LE then e ≤ 0
  else if op = ops.LT then e < 0
  else if op = ops.GE then 0 ≤ e
  else False

instance (op : compare_op_t) (e : ℚ) : Decidable (compareHolds op e) := by
  unfold compareHolds; infer_instance

/-- Modelled from the spec: the predicate `expr <op> 0` evaluates to true under
an assignment of the variables. -/
def SymbolicPred.holds (σ : var_t → ℚ) (p : SymbolicPred) : Prop :=
  compareHolds p.op (p.expr.eval σ)

/-- Modelled from the spec: `SymbolicPred::AppendVars`, the variables a
predicate mentions. -/
def SymbolicPred.vars (p : SymbolicPred) : List var_t := p.expr.terms.map Prod.fst

/-! ## Yices terms -/

/-- Arithmetic terms as `Solve` builds them. -/
inductive Term
  | num (q : ℚ)
  | var (x : var_t)
  | mul (a b : Term)
  | add (a b : Term)
  deriving DecidableEq, Repr

/-- Atoms as `Solve` builds them: `yices_arith_geq_atom`,
`yices_arith_leq_atom` and the comparisons with zero. -/
inductive Atom
  | geq (a b : Term)
  | leq (a b : Term)
  | cmp0 (c : Cmp0) (e : Term)
  deriving DecidableEq, Repr

/-- Value of a term in a model. -/
def Term.eval (m : var_t → ℚ) : Term → ℚ
  | .num q => q
  | .var x => m x
  | .mul a b => a.eval m * b.eval m
  | .add a b => a.eval m + b.eval m

/-- Truth of an atom in a model. -/
def Atom.holds (m : var_t → ℚ) : Atom → Prop
  | .geq a b => b.eval m ≤ a.eval m
  | .leq a b => a.eval m ≤ b.eval m
  | .cmp0 c e => c.holds (e.eval m)

/-- Truth in a model of `yices_and(n, terms)`. -/
def formulaHolds (m : var_t → ℚ) (f : List Atom) : Prop := ∀ a ∈ f, a.holds m

/-- `yices_sum(n, t)`: the sum of the terms. -/
def yices_sum (ts : List Term) : Term := ts.foldr Term.add (Term.num 0)

/-- `yices_int64(val)` called with a `value_t`: the argument is converted to
`int64_t` first. -/
def yices_int64 (val : value_t) : Option Term :=
  (toIntegral true 64 val).map fun n => Term.num n

/-- `makeYicesNum`: the value is printed with `"%lf"` into a buffer of 32
bytes and the buffer is parsed by Yices. -/
@[irreducible]
def makeYicesNum (val : value_t) : Option Term :=
  (yices_parse_float (snprintf 32 (fmt_lf val))).map Term.num

/-- The external decision procedure: `yices_check_formula` answers
`STATUS_SAT` with a model (`some`) or anything else (`none`);
`yices_get_double_value` converts a model value to a `double`. -/
structure Yices where
  check_formula : List Atom → Option (var_t → ℚ)
  get_double_value : ℚ → value_t

/-- A `STATUS_SAT` answer on `f` comes with a model of `f`. -/
def Yices.soundOn (Y : Yices) (f : List Atom) : Prop :=
  ∀ m, Y.check_formula f = some m → formulaHolds m f

/-- A formula `f` that has a model is answered `STATUS_SAT`. -/
def Yices.completeOn (Y : Yices) (f : List Atom) : Prop :=
  (∃ m, formulaHolds m f) → (Y.check_formula f).isSome = true

/-! ## Solutions -/

/-- A `std::map<var_t, T>`: entries in ascending key order. -/
abbrev VarMap (α : Type) := List (var_t × α)

/-- `map::find`. -/
def mapFind {α : Type} (k : var_t) : VarMap α → Option α
  | [] => none
  | (k1, v) :: rest => if k = k1 then some v else mapFind k rest

/-- `map::insert`: keeps an existing entry, else adds the pair at its place in
key order. -/
def mapInsert {α : Type} (k : var_t) (v : α) : VarMap α → VarMap α
  | [] => [(k, v)]
  | (k1, v1) :: rest =>
    if k < k1 then (k, v) :: (k1, v1) :: rest
    else if k = k1 then (k1, v1) :: rest
    else (k1, v1) :: mapInsert k v rest

/-! ## `YicesSolver::Solve` -/

/-- `min_expr[i]` of the type-limits loop: parsed from the text for `FLOAT`
and `DOUBLE`, `yices_int64(kMinValue[i])` otherwise (both branches of the
`if (i%2)` are the same call).  An undefined conversion leaves the entry
without a determinate term (`none`). -/
def min_expr (longBits : ℕ) (t : type_t) : Option Term :=
  if t = type_t.FLOAT ∨ t = type_t.DOUBLE then (minValueStr t).map Term.num
  else if t.toNat % 2 = 1 then yices_int64 (minValue longBits t)
  else yices_int64 (minValue longBits t)

/-- `max_expr[i]` of the type-limits loop. -/
def max_expr (longBits : ℕ) (t : type_t) : Option Term :=
  if t = type_t.FLOAT ∨ t = type_t.DOUBLE then (maxValueStr t).map Term.num
  else if t.toNat % 2 = 1 then yices_int64 (maxValue longBits t)
  else yices_int64 (maxValue longBits t)

/-- The variable-declaration loop: for each variable of `vars`, in order, the
atoms `x ≥ min_expr[type]` and `x ≤ max_expr[type]`; the term declared for the
variable `x` is `Term.var x`. -/
def declAtoms (longBits : ℕ) : VarMap type_t → Option (List Atom)
  | [] => some []
  | (x, t) :: rest =>
    match min_expr longBits t, max_expr longBits t, declAtoms longBits rest with
    | some lo, some hi, some more =>
      some (Atom.geq (Term.var x) lo :: Atom.leq (Term.var x) hi :: more)
    | _, _, _ => none

/-- `x_decl[x]` in the constraint loop: the term declared for `x`.  For a
variable that was not declared `operator[]` yields a default handle that no
declaration produced; it stands for no term (`none`). -/
def x_decl (vars : VarMap type_t) (x : var_t) : Option Term :=
  if x ∈ vars.map Prod.fst then some (Term.var x) else none

/-- The products `yices_mul(x_decl[j->first], makeYicesNum(j->second))` for the
terms of an expression, in order. -/
def mulTerms (vars : VarMap type_t) : List (var_t × value_t) → Option (List Term)
  | [] => some []
  | (x, a) :: rest =>
    match x_decl vars x, makeYicesNum a, mulTerms vars rest with
    | some tx, some ta, some more => some (Term.mul tx ta :: more)
    | _, _, _ => none

/-- The body of the constraint loop: the atom built for one predicate;
`none` when a number or variable has no term or the operator is unknown. -/
def predAtom (vars : VarMap type_t) (p : SymbolicPred) : Option Atom :=
  match makeYicesNum p.expr.const_term, mulTerms vars p.expr.terms, predCmp p.op with
  | some c, some ts, some k => some (Atom.cmp0 k (yices_sum (c :: ts)))
  | _, _, _ => none

/-- The constraint loop. -/
def predAtoms (vars : VarMap type_t) : List SymbolicPred → Option (List Atom)
  | [] => some []
  | p :: rest =>
    match predAtom vars p, predAtoms vars rest with
    | some a, some more => some (a :: more)
    | _, _ => none

/-- The conjuncts of the formula `f` passed to `yices_check_formula`: the bound
atoms, then the predicate atoms. -/
def buildFormula (longBits : ℕ) (vars : VarMap type_t) (constraints : List SymbolicPred) :
    Option (List Atom) :=
  match declAtoms longBits vars, predAtoms vars constraints with
  | some b, some ps => some (b ++ ps)
  | _, _ => none

/-- The read-back loop: one `soln->insert` per variable of `vars`. -/
def readModel (Y : Yices) (model : var_t → ℚ) : VarMap type_t → VarMap value_t → VarMap value_t
  | [], soln => soln
  | (x, _) :: rest, soln =>
    readModel Y model rest (mapInsert x (Y.get_double_value (model x)) soln)

/-- `YicesSolver::Solve`: the returned flag and the contents of `*soln` on
return (`soln` is its contents on entry); `none` when the construction of the
formula has no defined outcome. -/
def Solve (Y : Yices) (longBits : ℕ) (vars : VarMap type_t) (constraints : List SymbolicPred)
    (soln : VarMap value_t) : Option (Bool × VarMap value_t) :=
  match buildFormula longBits vars constraints with
  | none => none
  | some f =>
    match Y.check_formula f with
    | some model => some (true, readModel Y model vars [])
    | none => some (false, soln)


/-! ## `YicesSolver::IncrementalSolve` -/

/-- A `std::set<var_t>`: its elements in ascending order, each once. -/
abbrev VarSet := List var_t

/-- `set::insert` of one element: nothing changes when the element is there,
else it is put at its place in ascending order. -/
def setInsert (x : var_t) (s : VarSet) : VarSet :=
  if x ∈ s then s else s.orderedInsert (fun a b => a ≤ b) x

/-- `set::insert(first, last)`: the elements of a range, one by one. -/
def setInsertAll (xs : List var_t) (s : VarSet) : VarSet :=
  xs.foldl (fun acc x => setInsert x acc) s

/-- Modelled from the spec: `SymbolicPred::AppendVars(&tmp)` adds the variables
the predicate mentions to the set `tmp`. -/
def SymbolicPred.AppendVars (p : SymbolicPred) (tmp : VarSet) : VarSet :=
  setInsertAll p.vars tmp

/-- Modelled from the spec: `SymbolicPred::DependsOn(vars)` holds when every
variable the predicate mentions is a key of `vars`. -/
def SymbolicPred.DependsOn (p : SymbolicPred) (vars : VarMap type_t) : Bool :=
  p.vars.all fun x => (mapFind x vars).isSome

/-- The keys of a `std::map`, in order. -/
def keys {α : Type} (m : VarMap α) : List var_t := m.map Prod.fst

/-- The loop `for j in tmp: depends[*j].insert(tmp.begin(), tmp.end())` over
the remaining elements `js`; an index outside `depends` has no defined
outcome (`none`). -/
def linkAll (tmp : VarSet) : List var_t → List VarSet → Option (List VarSet)
  | [], depends => some depends
  | j :: js, depends =>
    match depends[j]? with
    | some s => linkAll tmp js (depends.set j (setInsertAll tmp s))
    | none => none

/-- The loop that builds the dependence graph: for each predicate, `tmp` is
cleared, filled with the variables of the predicate, and every one of them is
linked to all of them. -/
def buildDepends : List SymbolicPred → List VarSet → Option (List VarSet)
  | [], depends => some depends
  | p :: rest, depends =>
    match linkAll (p.AppendVars []) (p.AppendVars []) depends with
    | some d => buildDepends rest d
    | none => none

/-- The state of the search: the map `dependent_vars`, the queue `Q` (front
first), and, for the statements about the queue only, the list of all
variables ever passed to `Q.push`, in order. -/
structure BfsState where
  dependent_vars : VarMap type_t
  Q : List var_t
  pushed : List var_t
  deriving DecidableEq

/-- The loop that seeds the search with the variables `js` of the last
predicate: `dependent_vars.insert(*vars.find(*j)); Q.push(*j)`.  A variable
that `vars.find` does not find has no defined outcome (`none`). -/
def seed (vars : VarMap type_t) : List var_t → BfsState → Option BfsState
  | [], s => some s
  | j :: js, s =>
    match mapFind j vars with
    | some t => seed vars js ⟨mapInsert j t s.dependent_vars, s.Q ++ [j], s.pushed ++ [j]⟩
    | none => none

/-- The inner loop of the search over the elements `js` of `depends[i]`: a
variable that is not yet a key of `dependent_vars` is pushed and inserted
with its entry of `vars`. -/
def visit (vars : VarMap type_t) : List var_t → BfsState → Option BfsState
  | [], s => some s
  | j :: js, s =>
    if (mapFind j s.dependent_vars).isNone then
      match mapFind j vars with
      | some t => visit vars js ⟨mapInsert j t s.dependent_vars, s.Q ++ [j], s.pushed ++ [j]⟩
      | none => none
    else visit vars js s

/-- The loop `while (!Q.empty())`, run for at most `fuel` executions of its
body: the state on exit, `none` when the body would have to run once more or
when an access has no defined outcome. -/
def bfs (vars : VarMap type_t) (depends : List VarSet) : ℕ → BfsState → Option BfsState
  | _, ⟨dv, [], pushed⟩ => some ⟨dv, [], pushed⟩
  | 0, ⟨_, _ :: _, _⟩ => none
  | fuel + 1, ⟨dv, i :: Q, pushed⟩ =>
    match depends[i]? with
    | some js =>
      match visit vars js ⟨dv, Q, pushed⟩ with
      | some s => bfs vars depends fuel s
      | none => none
    | none => none

/-- The first half of `IncrementalSolve`: the graph, the seeding from
`constraints.back()` and the search, the loop body being given `vars.size()`
executions, which suffice whenever the loop ends (`bfs_fuel_enough`).  The
result is the state when the loop exits. -/
def searchState (vars : VarMap type_t) (constraints : List SymbolicPred) : Option BfsState :=
  match buildDepends constraints (List.replicate vars.length []) with
  | none => none
  | some depends =>
    match constraints.getLast? with
    | none => none
    | some last =>
      match seed vars (last.AppendVars []) ⟨[], [], []⟩ with
      | none => none
      | some s => bfs vars depends vars.length s

/-- The list `dependent_constraints`: the predicates of `constraints`, in
order, for which `DependsOn(dependent_vars)` holds. -/
def dependent_constraints (dependent_vars : VarMap type_t) (constraints : List SymbolicPred) :
    List SymbolicPred :=
  constraints.filter fun p => p.DependsOn dependent_vars

/-- The set `tmp` at the merge: it still holds the variables of the last
predicate, and every predicate appends its variables. -/
def mergeVars (constraints : List SymbolicPred) : VarSet :=
  constraints.foldl (fun tmp p => p.AppendVars tmp)
    (match constraints.getLast? with
     | some last => last.AppendVars []
     | none => [])

/-- The merge loop over the elements `is` of `tmp`: a variable without an
entry in `*soln` gets `old_soln[*i]`; an index outside `old_soln` has no
defined outcome (`none`). -/
def mergeOld (old_soln : List value_t) : List var_t → VarMap value_t → Option (VarMap value_t)
  | [], soln => some soln
  | i :: is, soln =>
    if (mapFind i soln).isNone then
      match old_soln[i]? with
      | some v => mergeOld old_soln is (mapInsert i v soln)
      | none => none
    else mergeOld old_soln is soln

/-- `YicesSolver::IncrementalSolve`: the returned flag and the contents of
`*soln` on return (`soln` is its contents on entry, which `soln->clear()`
discards); `none` when a step has no defined outcome. -/
def IncrementalSolve (Y : Yices) (longBits : ℕ) (old_soln : List value_t)
    (vars : VarMap type_t) (constraints : List SymbolicPred) (_soln : VarMap value_t) :
    Option (Bool × VarMap value_t) :=
  match searchState vars constraints with
  | none => none
  | some s =>
    match Solve Y longBits s.dependent_vars
        (dependent_constraints s.dependent_vars constraints) [] with
    | none => none
    | some (true, solved) =>
      (mergeOld old_soln (mergeVars constraints) solved).map fun merged => (true, merged)
    | some (false, solved) => some (false, solved)

/-- The variable `y` is an element of the set `depends[x]`. -/
def inDepends (depends : List VarSet) (x y : var_t) : Prop :=
  ∃ s, depends[x]? = some s ∧ y ∈ s

/-- Two variables occur together in a predicate of `constraints`. -/
def coOccur (constraints : List SymbolicPred) (x y : var_t) : Prop :=
  ∃ p ∈ constraints, x ∈ p.vars ∧ y ∈ p.vars

/-- The variable `x` is reached from a variable of the last predicate by zero
or more co-occurrence edges. -/
def connected (constraints : List SymbolicPred) (x : var_t) : Prop :=
  ∃ last, constraints.getLast? = some last ∧
    ∃ s ∈ last.vars, Relation.ReflTransGen (coOccur constraints) s x

/-- The variable `x` is mentioned by a predicate of `constraints`. -/
def referenced (constraints : List SymbolicPred) (x : var_t) : Prop :=
  ∃ p ∈ constraints, x ∈ p.vars

/-- The assignment a solution map stands for (variables without an entry
read as `0`). -/
def assignmentOf (soln : VarMap value_t) (x : var_t) : ℚ := (mapFind x soln).getD 0

/-- The assignment the vector `old_soln` stands for. -/
def oldAssignment (old_soln : List value_t) (x : var_t) : ℚ := (old_soln[x]?).getD 0


/-- The invariant of the search loop, for the graph `depends` and the seeding
variables `seeds`: the pushed variables are distinct and are the keys of
`dependent_vars`, the queue is the part of them not yet taken out, every entry
is an entry of `vars`, every pushed variable is reached from a seed, and a
pushed variable no longer in the queue has all its neighbours pushed. -/
structure BfsInv (vars : VarMap type_t) (depends : List VarSet) (seeds : List var_t)
    (s : BfsState) : Prop where
  nodup : s.pushed.Nodup
  keys_pushed : ∀ x, x ∈ keys s.dependent_vars ↔ x ∈ s.pushed
  queue : ∃ popped, s.pushed = popped ++ s.Q
  typed : ∀ x t, mapFind x s.dependent_vars = some t → mapFind x vars = some t
  reached : ∀ x ∈ s.pushed, ∃ r ∈ seeds, Relation.ReflTransGen (inDepends depends) r x
  closed : ∀ x ∈ s.pushed, x ∈ s.Q ∨ ∀ y, inDepends depends x y → y ∈ s.pushed
  seeded : ∀ r ∈ seeds, r ∈ s.pushed


/-! ## A scenario for `IncrementalSolve`

Two `int` variables `x` (variable 0) and `y` (variable 1), the previous
solution `x = 3`, `y = 7`, the earlier predicate `x - 3 == 0` and the new last
predicate `y - 100 > 0`. -/

/-- The previous solution `x = 3`, `y = 7`. -/
def frameOld : List value_t := [3, 7]

/-- The variables `x` and `y`, both `int`. -/
def frameVars : VarMap type_t := [(0, type_t.INT), (1, type_t.INT)]

/-- The predicates `x - 3 == 0` and, last, `y - 100 > 0`. -/
def frameConstraints : List SymbolicPred :=
  [⟨ops.EQ, ⟨-3, [(0, 1)]⟩⟩, ⟨ops.GT, ⟨-100, [(1, 1)]⟩⟩]

/-- A decision procedure that answers every formula with the model in which
each variable is `101`, and reads values back unchanged. -/
def frameYices : Yices := ⟨fun _ => some fun _ => 101, id⟩

/-- A decision procedure that finds no formula satisfiable. -/
def unsatYices : Yices := ⟨fun _ => none, id⟩

/-! ## Theorems -/

/-- C1: for each of the six comparison operators, negating twice gives the
operator back, negating once gives a different operator, and the negation is
again one of the six. -/
theorem NegateCompareOp_involution (op : compare_op_t) (h : op ∈ ops.all) :
    NegateCompareOp (NegateCompareOp op) = op ∧ NegateCompareOp op ≠ op ∧
      NegateCompareOp op ∈ ops.all := by
  simp only [ops.all, List.mem_cons, List.mem_singleton, List.not_mem_nil, or_false] at h
  rcases h with h | h | h | h | h | h <;> subst h <;> decide

theorem NegateCompareOp_involution_witness :
    ops.GT ∈ ops.all ∧ NegateCompareOp (NegateCompareOp ops.GT) = ops.GT ∧
      NegateCompareOp ops.GT ≠ ops.GT ∧ NegateCompareOp ops.GT ∈ ops.all :=
  ⟨by decide, NegateCompareOp_involution ops.GT (by decide)⟩

/-- C2: for each of the six operators the atom `Solve` builds for the negated
operator holds of a real number exactly when the atom built for the operator
itself does not. -/
theorem NegateCompareOp_logical_negation (op : compare_op_t) (h : op ∈ ops.all) :
    ∃ a b : Cmp0, predCmp op = some a ∧ predCmp (NegateCompareOp op) = some b ∧
      ∀ e : ℝ, b.holds e ↔ ¬ a.holds e := by
  simp only [ops.all, List.mem_cons, List.mem_singleton, List.not_mem_nil, or_false] at h
  rcases h with h | h | h | h | h | h <;> subst h
  · exact ⟨.eq0, .neq0, by decide, by decide, fun e => Iff.rfl⟩
  · exact ⟨.neq0, .eq0, by decide, by decide, fun e => by simp [Cmp0.holds]⟩
  · exact ⟨.gt0, .leq0, by decide, by decide, fun e => by simp [Cmp0.holds]⟩
  · exact ⟨.leq0, .gt0, by decide, by decide, fun e => by simp [Cmp0.holds]⟩
  · exact ⟨.lt0, .geq0, by decide, by decide, fun e => by simp [Cmp0.holds]⟩
  · exact ⟨.geq0, .lt0, by decide, by decide, fun e => by simp [Cmp0.holds]⟩

theorem NegateCompareOp_logical_negation_witness :
    ops.LT ∈ ops.all ∧ ∃ a b : Cmp0, predCmp ops.LT = some a ∧
      predCmp (NegateCompareOp ops.LT) = some b ∧ ∀ e : ℝ, b.holds e ↔ ¬ a.holds e :=
  ⟨by decide, NegateCompareOp_logical_negation ops.LT (by decide)⟩


/-! ### Rounding: supporting lemmas -/

theorem roundHalfEven_intCast (n : ℤ) : roundHalfEven (n : ℚ) = n := by
  simp [roundHalfEven]

theorem roundNE_of_int_mul (p : ℕ) (emin : ℤ) (v : ℚ) (k : ℤ)
    (h : v = k * 2 ^ ulpExp p emin v) : roundNE p emin v = v := by
  have h2 : (2 : ℚ) ^ ulpExp p emin v ≠ 0 := zpow_ne_zero _ (by norm_num)
  have : v / 2 ^ ulpExp p emin v = (k : ℚ) := by
    rw [div_eq_iff h2]; exact h
  unfold roundNE
  rw [this, roundHalfEven_intCast]
  exact h.symm

theorem ulpExp_le_of_abs_lt (p : ℕ) (emin : ℤ) (v : ℚ) (q : ℤ) (hq : emin ≤ q) (hv : v ≠ 0)
    (h : |v| < 2 ^ (p + q)) : ulpExp p emin v ≤ q := by
  unfold ulpExp
  apply max_le _ hq
  have hpos : 0 < |v| := abs_pos.mpr hv
  have := (Int.lt_zpow_iff_log_lt (b := 2) (by norm_num) hpos).mp (by exact_mod_cast h)
  omega

theorem roundNE_zero (p : ℕ) (emin : ℤ) : roundNE p emin 0 = 0 := by
  simp [roundNE, roundHalfEven]

/-- A number on the grid `n * 2 ^ q` with at most `p` significant bits and
`emin ≤ q` is a fixed point of rounding. -/
theorem roundNE_grid (p : ℕ) (hp : 1 ≤ p) (emin : ℤ) (n q : ℤ) (hn : |n| ≤ 2 ^ p)
    (hq : emin ≤ q) : roundNE p emin (n * 2 ^ q) = n * 2 ^ q := by
  rcases eq_or_ne n 0 with rfl | hn0
  · simp [roundNE_zero]
  have h2 : (0 : ℚ) < 2 := by norm_num
  have hv : (n : ℚ) * 2 ^ q ≠ 0 := mul_ne_zero (by exact_mod_cast hn0) (zpow_ne_zero _ (by norm_num))
  have habs : |(n : ℚ) * 2 ^ q| = |(n : ℚ)| * 2 ^ q := by
    rw [abs_mul, abs_of_pos (zpow_pos h2 q)]
  rcases lt_or_eq_of_le hn with hlt | heq
  · -- fewer than p + 1 bits: the unit in the last place is at most 2 ^ q
    have hlt' : |(n : ℚ)| < 2 ^ p := by exact_mod_cast hlt
    have hu : ulpExp p emin (n * 2 ^ q) ≤ q := by
      apply ulpExp_le_of_abs_lt p emin _ q hq hv
      rw [habs, zpow_add₀ (by norm_num : (2 : ℚ) ≠ 0)]
      exact mul_lt_mul_of_pos_right (by simpa using hlt') (zpow_pos h2 q)
    obtain ⟨d, hd⟩ : ∃ d : ℕ, q = ulpExp p emin (n * 2 ^ q) + d :=
      ⟨(q - ulpExp p emin (n * 2 ^ q)).toNat, by omega⟩
    apply roundNE_of_int_mul p emin _ (n * 2 ^ d)
    conv_lhs => rw [hd]
    rw [zpow_add₀ (by norm_num : (2 : ℚ) ≠ 0)]
    push_cast
    rw [zpow_natCast]
    ring
  · -- exactly 2 ^ p: one binade up, the unit in the last place is 2 ^ (q + 1)
    have heq' : |(n : ℚ)| = 2 ^ p := by exact_mod_cast heq
    have hlog : Int.log 2 |(n : ℚ) * 2 ^ q| = p + q := by
      rw [habs, heq', ← zpow_natCast, ← zpow_add₀ (by norm_num : (2 : ℚ) ≠ 0)]
      exact_mod_cast Int.log_zpow (R := ℚ) (b := 2) (by norm_num) (p + q)
    have hu : ulpExp p emin (n * 2 ^ q) = q + 1 := by
      unfold ulpExp
      rw [hlog]
      have : (p : ℤ) + q - (p - 1) = q + 1 := by ring
      rw [this]
      exact max_eq_left (by omega)
    have hdvd : (2 : ℤ) ∣ n := by
      have : (2 : ℤ) ∣ |n| := by
        rw [heq]; exact dvd_pow_self 2 (by omega)
      exact (dvd_abs 2 n).mp this
    obtain ⟨m, hm⟩ := hdvd
    apply roundNE_of_int_mul p emin _ m
    rw [hu, hm, zpow_add₀ (by norm_num : (2 : ℚ) ≠ 0)]
    push_cast
    ring

theorem log_eq_of_bounds (v : ℚ) (e : ℤ) (h1 : 2 ^ e ≤ |v|) (h2 : |v| < 2 ^ (e + 1)) :
    Int.log 2 |v| = e := by
  have hpos : 0 < |v| := lt_of_lt_of_le (zpow_pos (by norm_num) e) h1
  have a := (Int.zpow_le_iff_le_log (b := 2) (by norm_num) hpos).mp (by exact_mod_cast h1)
  have b := (Int.lt_zpow_iff_log_lt (b := 2) (by norm_num) hpos).mp (by exact_mod_cast h2)
  omega

theorem roundNE_eval (p : ℕ) (emin : ℤ) (v : ℚ) (e u : ℤ) (h1 : 2 ^ e ≤ |v|)
    (h2 : |v| < 2 ^ (e + 1)) (hu : max (e - (p - 1)) emin = u) :
    roundNE p emin v = roundHalfEven (v / 2 ^ u) * 2 ^ u := by
  unfold roundNE ulpExp
  rw [log_eq_of_bounds v e h1 h2, hu]

theorem roundHalfEven_eval (x : ℚ) (f : ℤ) (hf : ⌊x⌋ = f) :
    roundHalfEven x = if x - f < 1 / 2 then f else if 1 / 2 < x - f then f + 1
      else if f % 2 = 0 then f else f + 1 := by
  unfold roundHalfEven; rw [hf]


theorem trunc_intCast (n : ℤ) : trunc (n : ℚ) = n := by
  unfold trunc; split_ifs <;> simp

theorem roundDouble_intCast (n : ℤ) (h : |n| ≤ 2 ^ 53) : roundDouble (n : ℚ) = n := by
  have := roundNE_grid 53 (by norm_num) (-1074) n 0 h (by norm_num)
  simpa [roundDouble] using this

theorem isDouble_intCast (n : ℤ) (h : |n| ≤ 2 ^ 53) : isDouble (n : ℚ) := by
  refine ⟨roundDouble_intCast n h, ?_⟩
  have h1 : |(n : ℚ)| ≤ 2 ^ 53 := by exact_mod_cast h
  refine h1.trans ?_
  unfold DBL_MAX
  norm_num

/-- Every number with a 24-bit significand and an exponent in the range of
`float` is a `float`. -/
theorem isFloat_of_grid (n q : ℤ) (hn : |n| < 2 ^ 24) (hq : -149 ≤ q)
    (hmax : |(n : ℚ) * 2 ^ q| ≤ FLT_MAX) : isFloat ((n : ℚ) * 2 ^ q) :=
  ⟨roundNE_grid 24 (by norm_num) (-149) n q hn.le hq, hmax⟩

theorem roundFloat_16777217 : roundFloat 16777217 = 16777216 := by
  unfold roundFloat
  rw [roundNE_eval 24 (-149) 16777217 24 1 (by norm_num [abs_of_pos])
    (by norm_num [abs_of_pos]) (by norm_num)]
  rw [roundHalfEven_eval _ 8388608 (by rw [Int.floor_eq_iff]; norm_num)]
  norm_num

/-! ### Claims on `CastTo` -/

/-- C3 (counterexample): the `double` 16777217 = 2^24 + 1 is changed by the
cast to `FLOAT`, and, through the fall-through of their `case` labels, by the
casts to `U_LONG_LONG` and `LONG_LONG`: each gives 16777216. -/
theorem CastTo_identity_counterexample :
    isDouble 16777217 ∧ CastTo 32 16777217 type_t.FLOAT = some 16777216 ∧
      CastTo 32 16777217 type_t.U_LONG_LONG = some 16777216 ∧
      CastTo 32 16777217 type_t.LONG_LONG = some 16777216 ∧
      CastTo 32 16777217 type_t.FLOAT ≠ some 16777217 := by
  have hd : isDouble 16777217 := by
    have := isDouble_intCast 16777217 (by norm_num)
    simpa using this
  have hc : toFloat 16777217 = some 16777216 := by
    unfold toFloat
    rw [if_pos (by unfold FLT_MAX; norm_num [abs_of_pos]), roundFloat_16777217]
  refine ⟨hd, hc, hc, hc, ?_⟩
  show toFloat 16777217 ≠ some 16777217
  rw [hc]
  norm_num

/-- C3 (amended): the cast to `DOUBLE` returns every value unchanged, and the
cast to `FLOAT` returns unchanged every value that is a single-precision
number: a 24-bit significand times a power of two not below `2 ^ -149`, of
magnitude at most `FLT_MAX`. -/
theorem CastTo_identity_amended (longBits : ℕ) (v : value_t) :
    CastTo longBits v type_t.DOUBLE = some v ∧
      ∀ n q : ℤ, |n| < 2 ^ 24 → -149 ≤ q → v = (n : ℚ) * 2 ^ q → |v| ≤ FLT_MAX →
        CastTo longBits v type_t.FLOAT = some v := by
  refine ⟨rfl, ?_⟩
  intro n q hn hq hv hmax
  subst hv
  have := isFloat_of_grid n q hn hq hmax
  show toFloat _ = some _
  unfold toFloat
  rw [if_pos hmax, this.1]

theorem CastTo_identity_amended_witness :
    CastTo 32 (3 / 2) type_t.DOUBLE = some (3 / 2) ∧
      CastTo 32 (3 / 2) type_t.FLOAT = some (3 / 2) :=
  ⟨(CastTo_identity_amended 32 (3 / 2)).1,
    (CastTo_identity_amended 32 (3 / 2)).2 3 (-1) (by norm_num) (by norm_num) (by norm_num)
      (by unfold FLT_MAX; norm_num [abs_of_pos])⟩

theorem CastTo_nativeInt (longBits : ℕ) (t : type_t) (sg : Bool) (bits : ℕ)
    (ht : nativeInt longBits t = some (sg, bits)) (v : value_t) :
    CastTo longBits v t = castIntegral sg bits v := by
  cases t <;> simp [nativeInt] at ht <;> obtain ⟨rfl, rfl⟩ := ht <;> rfl

/-! ### Integers in the carrier -/

theorem ofIntegral_small (n : ℤ) (h : |n| ≤ 2 ^ 53) : ofIntegral n = n :=
  roundDouble_intCast n h

theorem ofIntegral_pow63 : ofIntegral (-2 ^ 63) = -2 ^ 63 := by
  have := roundNE_grid 53 (by norm_num) (-1074) (-1) 63 (by norm_num) (by norm_num)
  unfold ofIntegral roundDouble
  norm_num at this ⊢
  exact this

theorem ofIntegral_max64 : ofIntegral (2 ^ 64 - 1) = 2 ^ 64 := by
  unfold ofIntegral roundDouble
  push_cast
  rw [roundNE_eval 53 (-1074) _ 63 11 (by norm_num [abs_of_pos]) (by norm_num [abs_of_pos])
    (by norm_num)]
  rw [roundHalfEven_eval _ (2 ^ 53 - 1) (by rw [Int.floor_eq_iff]; norm_num)]
  norm_num

theorem ofIntegral_max63 : ofIntegral (2 ^ 63 - 1) = 2 ^ 63 := by
  unfold ofIntegral roundDouble
  push_cast
  rw [roundNE_eval 53 (-1074) _ 62 10 (by norm_num [abs_of_pos]) (by norm_num [abs_of_pos])
    (by norm_num)]
  rw [roundHalfEven_eval _ (2 ^ 53 - 1) (by rw [Int.floor_eq_iff]; norm_num)]
  norm_num

/-! ### Claims on `CastTo`: the integer casts -/

theorem pow_bits_split (bits : ℕ) (hb : 1 ≤ bits) :
    (2 : ℤ) ^ bits = 2 * 2 ^ (bits - 1) ∧ (0 : ℤ) < 2 ^ (bits - 1) := by
  refine ⟨?_, by positivity⟩
  conv_lhs => rw [show bits = (bits - 1) + 1 by omega]
  rw [pow_succ]
  ring

/-- The low bits read as a value of the type lie in the range of the type. -/
theorem lowBits_range (sg : Bool) (bits : ℕ) (hb : 1 ≤ bits) (n : ℤ) :
    intMin sg bits ≤ lowBits sg bits n ∧ lowBits sg bits n ≤ intMax sg bits := by
  obtain ⟨hp, hpos⟩ := pow_bits_split bits hb
  have h0 : 0 ≤ n % 2 ^ bits := Int.emod_nonneg _ (by positivity)
  have h1 : n % 2 ^ bits < 2 ^ bits := Int.emod_lt_of_pos _ (by positivity)
  unfold lowBits intMin intMax
  cases sg
  · simp only [Bool.false_eq_true, false_and, if_false]
    omega
  · simp only [true_and, if_true]
    split_ifs <;> omega

theorem wrap_aux (n M : ℤ) (hM : 0 < M) :
    (n + M) % (2 * M) - M =
      if M ≤ n % (2 * M) then n % (2 * M) - 2 * M else n % (2 * M) := by
  have h0 : 0 ≤ n % (2 * M) := Int.emod_nonneg _ (by omega)
  have h1 : n % (2 * M) < 2 * M := Int.emod_lt_of_pos _ (by omega)
  have key : (n + M) % (2 * M) = (n % (2 * M) + M) % (2 * M) :=
    (Int.emod_add_emod n (2 * M) M).symm
  rw [key]
  generalize n % (2 * M) = r at h0 h1
  split_ifs with h
  · have e : (r + M) % (2 * M) = r + M - 2 * M :=
      calc (r + M) % (2 * M) = ((r + M - 2 * M) + 1 * (2 * M)) % (2 * M) := by
            congr 1
            ring
        _ = (r + M - 2 * M) % (2 * M) := Int.add_mul_emod_self
        _ = r + M - 2 * M := Int.emod_eq_of_lt (by linarith) (by linarith)
    rw [e]
    ring
  · have e : (r + M) % (2 * M) = r + M := Int.emod_eq_of_lt (by linarith) (by linarith)
    rw [e]
    ring

/-- Keeping the low bits is the modular truncation of the specification. -/
theorem lowBits_eq_wrapInt (sg : Bool) (bits : ℕ) (hb : 1 ≤ bits) (n : ℤ) :
    lowBits sg bits n = wrapInt sg bits n := by
  obtain ⟨hp, hpos⟩ := pow_bits_split bits hb
  unfold lowBits wrapInt
  cases sg
  · simp
  · simp only [true_and, if_true]
    rw [hp, wrap_aux n _ hpos]

theorem cvttsd2si_of_range (bits : ℕ) (v : value_t) (h1 : intMin true bits ≤ trunc v)
    (h2 : trunc v ≤ intMax true bits) : cvttsd2si bits v = trunc v := by
  unfold cvttsd2si
  rw [if_pos ⟨h1, h2⟩]

theorem convertIntegral_intCast_32 (sg : Bool) (bits : ℕ) (hb : 1 ≤ bits)
    (hcond : bits < 32 ∨ (sg = true ∧ bits = 32)) (n : ℤ) (h1 : -2 ^ 31 ≤ n)
    (h2 : n ≤ 2 ^ 31 - 1) : convertIntegral sg bits (n : ℚ) = wrapInt sg bits n := by
  unfold convertIntegral
  rw [if_neg (by omega), if_pos hcond,
    cvttsd2si_of_range 32 _ (by rw [trunc_intCast]; simpa [intMin] using h1)
      (by rw [trunc_intCast]; simpa [intMax] using h2), trunc_intCast,
    lowBits_eq_wrapInt sg bits hb]

theorem wrapInt_abs_le (sg : Bool) (bits : ℕ) (hb : 1 ≤ bits) (hb2 : bits ≤ 32) (n : ℤ) :
    |wrapInt sg bits n| ≤ 2 ^ 53 := by
  obtain ⟨g1, g2⟩ := lowBits_range sg bits hb n
  rw [lowBits_eq_wrapInt sg bits hb] at g1 g2
  have hpow : (2 : ℤ) ^ bits ≤ 2 ^ 32 := pow_le_pow_right₀ (by norm_num) hb2
  have hpow1 : (2 : ℤ) ^ (bits - 1) ≤ 2 ^ 32 := pow_le_pow_right₀ (by norm_num) (by omega)
  have hpos : (0 : ℤ) < 2 ^ (bits - 1) := by positivity
  rw [abs_le]
  unfold intMin at g1
  unfold intMax at g2
  cases sg <;> simp at g1 g2 <;> constructor <;> omega

/-- Within the range of `int`, the casts to `char`, `short` and `int` types are
the modular truncation. -/
theorem CastTo_modular_int_range (longBits : ℕ) (t : type_t) (sg : Bool) (bits : ℕ)
    (ht : nativeInt longBits t = some (sg, bits)) (hb : 1 ≤ bits)
    (hcond : bits < 32 ∨ (sg = true ∧ bits = 32)) (n : ℤ) (h1 : -2 ^ 31 ≤ n)
    (h2 : n ≤ 2 ^ 31 - 1) :
    CastTo longBits (n : ℚ) t = some ((wrapInt sg bits n : ℤ) : ℚ) := by
  rw [CastTo_nativeInt longBits t sg bits ht]
  unfold castIntegral
  rw [convertIntegral_intCast_32 sg bits hb hcond n h1 h2,
    ofIntegral_small _ (wrapInt_abs_le sg bits hb (by omega) n)]

/-- C4: the integer-valued `double` 4294967297 = 2^32 + 1 has modular
truncation 1 in `unsigned char`, but `CastTo` returns 0: the value does not fit
the 32-bit register of the conversion, which is left with the indefinite value,
whose low byte is 0.  The examples of the claim hold (256 gives 0 in
`unsigned char`, 128 gives -128 in `char`), -1 gives 4294967295 in
`unsigned int`, and within the range of `int` the casts to the `char`, `short`
and `int` types are the modular truncation. -/
theorem CastTo_modular_failure (longBits : ℕ) :
    isDouble 4294967297 ∧ wrapInt false 8 4294967297 = 1 ∧
      CastTo longBits 4294967297 type_t.U_CHAR = some 0 ∧
      CastTo longBits 256 type_t.U_CHAR = some 0 ∧
      CastTo longBits 128 type_t.CHAR = some (-128) ∧
      CastTo longBits (-1) type_t.U_INT = some 4294967295 ∧
      ∀ n : ℤ, -2 ^ 31 ≤ n → n ≤ 2 ^ 31 - 1 → ∀ t sg bits,
        nativeInt longBits t = some (sg, bits) → 1 ≤ bits →
        bits < 32 ∨ (sg = true ∧ bits = 32) →
        CastTo longBits (n : ℚ) t = some ((wrapInt sg bits n : ℤ) : ℚ) := by
  have hd : isDouble 4294967297 := by
    have := isDouble_intCast 4294967297 (by norm_num)
    simpa using this
  have t1 : trunc (4294967297 : ℚ) = 4294967297 := by
    have := trunc_intCast 4294967297
    simpa using this
  have t2 : trunc (-1 : ℚ) = -1 := by
    have := trunc_intCast (-1)
    simpa using this
  have z0 : ofIntegral 0 = 0 := by
    have := ofIntegral_small 0 (by norm_num)
    simpa using this
  have z1 : ofIntegral 4294967295 = 4294967295 := by
    have := ofIntegral_small 4294967295 (by norm_num)
    simpa using this
  have e256 := CastTo_modular_int_range longBits type_t.U_CHAR false 8 rfl (by norm_num)
    (by norm_num) 256 (by norm_num) (by norm_num)
  have e128 := CastTo_modular_int_range longBits type_t.CHAR true 8 rfl (by norm_num)
    (by norm_num) 128 (by norm_num) (by norm_num)
  refine ⟨hd, by decide, ?_, ?_, ?_, ?_, ?_⟩
  · have e : convertIntegral false 8 (4294967297 : ℚ) = 0 := by
      unfold convertIntegral cvttsd2si
      rw [if_neg (by norm_num), if_pos (by norm_num), t1, if_neg (by norm_num [intMax])]
      decide
    show castIntegral false 8 _ = _
    unfold castIntegral
    rw [e, z0]
  · have w : wrapInt false 8 256 = 0 := by decide
    rw [w] at e256
    simpa using e256
  · have w : wrapInt true 8 128 = -128 := by decide
    rw [w] at e128
    simpa using e128
  · have e : convertIntegral false 32 (-1 : ℚ) = 4294967295 := by
      unfold convertIntegral cvttsd2si
      rw [if_neg (by norm_num), if_neg (by norm_num), t2,
        if_pos (by norm_num [intMin, intMax])]
      decide
    show castIntegral false 32 _ = _
    unfold castIntegral
    rw [e, z1]
  · intro n h1 h2 t sg bits ht hb hcond
    exact CastTo_modular_int_range longBits t sg bits ht hb hcond n h1 h2

/-- The numeric lower bounds, evaluated, where `long` is 32 bits wide. -/
theorem kMinValue_32 : kMinValue 32 =
    [0, -128, 0, -32768, 0, -2147483648, 0, -2147483648, 0, -9223372036854775808,
      1 / 2 ^ 126, 1 / 2 ^ 1022] := by
  have e63 := ofIntegral_pow63
  unfold kMinValue intMin FLT_MIN DBL_MIN
  simp only [Bool.false_eq_true, if_false, if_true]
  rw [ofIntegral_small 0 (by norm_num), ofIntegral_small (-2 ^ (8 - 1)) (by norm_num),
    ofIntegral_small (-2 ^ (16 - 1)) (by norm_num),
    ofIntegral_small (-2 ^ (32 - 1)) (by norm_num)]
  norm_num at e63 ⊢
  exact e63

/-- The numeric lower bounds, evaluated, where `long` is 64 bits wide. -/
theorem kMinValue_64 : kMinValue 64 =
    [0, -128, 0, -32768, 0, -2147483648, 0, -9223372036854775808, 0, -9223372036854775808,
      1 / 2 ^ 126, 1 / 2 ^ 1022] := by
  have e63 := ofIntegral_pow63
  unfold kMinValue intMin FLT_MIN DBL_MIN
  simp only [Bool.false_eq_true, if_false, if_true]
  rw [ofIntegral_small 0 (by norm_num), ofIntegral_small (-2 ^ (8 - 1)) (by norm_num),
    ofIntegral_small (-2 ^ (16 - 1)) (by norm_num),
    ofIntegral_small (-2 ^ (32 - 1)) (by norm_num)]
  norm_num at e63 ⊢
  exact e63

/-- The numeric upper bounds, evaluated, where `long` is 32 bits wide: the
entries of `U_LONG_LONG` and `LONG_LONG` are `2 ^ 64` and `2 ^ 63`. -/
theorem kMaxValue_32 : kMaxValue 32 =
    [255, 127, 65535, 32767, 4294967295, 2147483647, 4294967295, 2147483647,
      18446744073709551616, 9223372036854775808, FLT_MAX, DBL_MAX] := by
  have e64 := ofIntegral_max64
  have e63 := ofIntegral_max63
  unfold kMaxValue intMax
  simp only [Bool.false_eq_true, if_false, if_true]
  rw [ofIntegral_small (2 ^ 8 - 1) (by norm_num), ofIntegral_small (2 ^ (8 - 1) - 1) (by norm_num),
    ofIntegral_small (2 ^ 16 - 1) (by norm_num), ofIntegral_small (2 ^ (16 - 1) - 1) (by norm_num),
    ofIntegral_small (2 ^ 32 - 1) (by norm_num), ofIntegral_small (2 ^ (32 - 1) - 1) (by norm_num)]
  norm_num at e64 e63 ⊢
  exact ⟨e64, e63⟩

/-- The numeric upper bounds, evaluated, where `long` is 64 bits wide. -/
theorem kMaxValue_64 : kMaxValue 64 =
    [255, 127, 65535, 32767, 4294967295, 2147483647, 18446744073709551616,
      9223372036854775808, 18446744073709551616, 9223372036854775808, FLT_MAX, DBL_MAX] := by
  have e64 := ofIntegral_max64
  have e63 := ofIntegral_max63
  unfold kMaxValue intMax
  simp only [Bool.false_eq_true, if_false, if_true]
  rw [ofIntegral_small (2 ^ 8 - 1) (by norm_num), ofIntegral_small (2 ^ (8 - 1) - 1) (by norm_num),
    ofIntegral_small (2 ^ 16 - 1) (by norm_num), ofIntegral_small (2 ^ (16 - 1) - 1) (by norm_num),
    ofIntegral_small (2 ^ 32 - 1) (by norm_num), ofIntegral_small (2 ^ (32 - 1) - 1) (by norm_num)]
  norm_num at e64 e63 ⊢
  exact ⟨e64, e63, e64, e63⟩


/-! ### Text tables: evaluation -/

theorem parse_eval (s : String) (d : Decimal) (q : ℚ) (h : parseDecimal s.toList = some d)
    (hq : d.toRat = q) : yices_parse_float s = some q := by
  unfold yices_parse_float
  rw [h, Option.map_some', hq]

theorem minValueStr_eq (t : type_t) : minValueStr t = some (minText.getD t.toNat 0) := by
  cases t with
  | U_CHAR =>
    exact parse_eval _ ⟨false, 0, 0, 0, 0⟩ _ (by decide)
      (by norm_num [Decimal.toRat, minText, maxText, type_t.toNat])
  | CHAR =>
    exact parse_eval _ ⟨true, 128, 0, 0, 0⟩ _ (by decide)
      (by norm_num [Decimal.toRat, minText, maxText, type_t.toNat])
  | U_SHORT =>
    exact parse_eval _ ⟨false, 0, 0, 0, 0⟩ _ (by decide)
      (by norm_num [Decimal.toRat, minText, maxText, type_t.toNat])
  | SHORT =>
    exact parse_eval _ ⟨true, 32768, 0, 0, 0⟩ _ (by decide)
      (by norm_num [Decimal.toRat, minText, maxText, type_t.toNat])
  | U_INT =>
    exact parse_eval _ ⟨false, 0, 0, 0, 0⟩ _ (by decide)
      (by norm_num [Decimal.toRat, minText, maxText, type_t.toNat])
  | INT =>
    exact parse_eval _ ⟨true, 2147483648, 0, 0, 0⟩ _ (by decide)
      (by norm_num [Decimal.toRat, minText, maxText, type_t.toNat])
  | U_LONG =>
    exact parse_eval _ ⟨false, 0, 0, 0, 0⟩ _ (by decide)
      (by norm_num [Decimal.toRat, minText, maxText, type_t.toNat])
  | LONG =>
    exact parse_eval _ ⟨true, 2147483648, 0, 0, 0⟩ _ (by decide)
      (by norm_num [Decimal.toRat, minText, maxText, type_t.toNat])
  | U_LONG_LONG =>
    exact parse_eval _ ⟨false, 0, 0, 0, 0⟩ _ (by decide)
      (by norm_num [Decimal.toRat, minText, maxText, type_t.toNat])
  | LONG_LONG =>
    exact parse_eval _ ⟨true, 9223372036854775808, 0, 0, 0⟩ _ (by decide)
      (by norm_num [Decimal.toRat, minText, maxText, type_t.toNat])
  | FLOAT =>
    exact parse_eval _ ⟨true, 3, 402823466, 9, 38⟩ _ (by decide)
      (by norm_num [Decimal.toRat, minText, maxText, type_t.toNat])
  | DOUBLE =>
    exact parse_eval _ ⟨true, 1, 7976931348623158, 16, 308⟩ _ (by decide)
      (by norm_num [Decimal.toRat, minText, maxText, type_t.toNat])

theorem maxValueStr_eq (t : type_t) : maxValueStr t = some (maxText.getD t.toNat 0) := by
  cases t with
  | U_CHAR =>
    exact parse_eval _ ⟨false, 255, 0, 0, 0⟩ _ (by decide)
      (by norm_num [Decimal.toRat, minText, maxText, type_t.toNat])
  | CHAR =>
    exact parse_eval _ ⟨false, 127, 0, 0, 0⟩ _ (by decide)
      (by norm_num [Decimal.toRat, minText, maxText, type_t.toNat])
  | U_SHORT =>
    exact parse_eval _ ⟨false, 65535, 0, 0, 0⟩ _ (by decide)
      (by norm_num [Decimal.toRat, minText, maxText, type_t.toNat])
  | SHORT =>
    exact parse_eval _ ⟨false, 32767, 0, 0, 0⟩ _ (by decide)
      (by norm_num [Decimal.toRat, minText, maxText, type_t.toNat])
  | U_INT =>
    exact parse_eval _ ⟨false, 4294967295, 0, 0, 0⟩ _ (by decide)
      (by norm_num [Decimal.toRat, minText, maxText, type_t.toNat])
  | INT =>
    exact parse_eval _ ⟨false, 2147483647, 0, 0, 0⟩ _ (by decide)
      (by norm_num [Decimal.toRat, minText, maxText, type_t.toNat])
  | U_LONG =>
    exact parse_eval _ ⟨false, 4294967295, 0, 0, 0⟩ _ (by decide)
      (by norm_num [Decimal.toRat, minText, maxText, type_t.toNat])
  | LONG =>
    exact parse_eval _ ⟨false, 2147483647, 0, 0, 0⟩ _ (by decide)
      (by norm_num [Decimal.toRat, minText, maxText, type_t.toNat])
  | U_LONG_LONG =>
    exact parse_eval _ ⟨false, 18446744073709551615, 0, 0, 0⟩ _ (by decide)
      (by norm_num [Decimal.toRat, minText, maxText, type_t.toNat])
  | LONG_LONG =>
    exact parse_eval _ ⟨false, 9223372036854775807, 0, 0, 0⟩ _ (by decide)
      (by norm_num [Decimal.toRat, minText, maxText, type_t.toNat])
  | FLOAT =>
    exact parse_eval _ ⟨false, 3, 402823466, 9, 38⟩ _ (by decide)
      (by norm_num [Decimal.toRat, minText, maxText, type_t.toNat])
  | DOUBLE =>
    exact parse_eval _ ⟨false, 1, 7976931348623158, 16, 308⟩ _ (by decide)
      (by norm_num [Decimal.toRat, minText, maxText, type_t.toNat])


theorem roundFloat_maxText : roundFloat (3402823466 * 10 ^ 29) = FLT_MAX := by
  unfold roundFloat FLT_MAX
  rw [roundNE_eval 24 (-149) _ 127 104 (by norm_num [abs_of_pos]) (by norm_num [abs_of_pos])
    (by norm_num)]
  rw [roundHalfEven_eval _ (2 ^ 24 - 2) (by rw [Int.floor_eq_iff]; norm_num)]
  norm_num

theorem roundDouble_maxText : roundDouble (17976931348623158 * 10 ^ 292) = DBL_MAX := by
  unfold roundDouble DBL_MAX
  rw [roundNE_eval 53 (-1074) _ 1023 971 (by norm_num [abs_of_pos]) (by norm_num [abs_of_pos])
    (by norm_num)]
  rw [roundHalfEven_eval _ (2 ^ 53 - 1) (by rw [Int.floor_eq_iff]; norm_num)]
  norm_num

/-! ### Claims on the bound tables -/

/-- C6 (counterexample): for `U_LONG_LONG` the upper-bound text denotes
18446744073709551615 while the numeric upper bound, held in the floating
carrier, is 18446744073709551616. -/
theorem bounds_text_numeric_counterexample :
    maxValueStr type_t.U_LONG_LONG = some 18446744073709551615 ∧
      maxValue 32 type_t.U_LONG_LONG = 18446744073709551616 ∧
      maxValue 64 type_t.U_LONG_LONG = 18446744073709551616 := by
  refine ⟨?_, ?_, ?_⟩
  · rw [maxValueStr_eq]; norm_num [maxText, type_t.toNat]
  · unfold maxValue; rw [kMaxValue_32]; norm_num [type_t.toNat]
  · unfold maxValue; rw [kMaxValue_64]; norm_num [type_t.toNat]

/-- C6 (amended): the four tables have twelve entries each.  Text and number
agree for both bounds of the types of at most 32 bits (`U_LONG` and `LONG` among
them where `long` is 32 bits wide) and for the lower bounds of `U_LONG_LONG` and
`LONG_LONG`.  The numeric upper bounds of `U_LONG_LONG` and `LONG_LONG` are the
text rounded to the carrier, one more than the text.  The upper-bound texts of
`FLOAT` and `DOUBLE` are decimal approximations whose nearest `float`,
respectively `double`, is the numeric upper bound. -/
theorem bounds_text_numeric_amended (longBits : ℕ) (hL : longBits = 32 ∨ longBits = 64) :
    (kMinValueStr.length = 12 ∧ kMaxValueStr.length = 12 ∧
      (kMinValue longBits).length = 12 ∧ (kMaxValue longBits).length = 12) ∧
    (∀ t ∈ [type_t.U_CHAR, type_t.CHAR, type_t.U_SHORT, type_t.SHORT, type_t.U_INT, type_t.INT],
      minValueStr t = some (minValue longBits t) ∧ maxValueStr t = some (maxValue longBits t)) ∧
    (longBits = 32 → ∀ t ∈ [type_t.U_LONG, type_t.LONG],
      minValueStr t = some (minValue longBits t) ∧ maxValueStr t = some (maxValue longBits t)) ∧
    (∀ t ∈ [type_t.U_LONG_LONG, type_t.LONG_LONG],
      minValueStr t = some (minValue longBits t) ∧
      ∃ x, maxValueStr t = some x ∧ maxValue longBits t = roundDouble x ∧
        maxValue longBits t = x + 1) ∧
    (∃ x, maxValueStr type_t.FLOAT = some x ∧ roundFloat x = maxValue longBits type_t.FLOAT) ∧
    (∃ x, maxValueStr type_t.DOUBLE = some x ∧
      roundDouble x = maxValue longBits type_t.DOUBLE) := by
  have e64 := ofIntegral_max64
  have e63 := ofIntegral_max63
  unfold ofIntegral at e64 e63
  push_cast at e64 e63
  have hmin : ∀ t, minValue longBits t =
      (if longBits = 32 then kMinValue 32 else kMinValue 64).getD t.toNat 0 := by
    intro t
    rcases hL with rfl | rfl <;> rfl
  have hmax : ∀ t, maxValue longBits t =
      (if longBits = 32 then kMaxValue 32 else kMaxValue 64).getD t.toNat 0 := by
    intro t
    rcases hL with rfl | rfl <;> rfl
  refine ⟨⟨rfl, rfl, rfl, rfl⟩, ?_, ?_, ?_, ?_, ?_⟩
  · intro t ht
    simp only [List.mem_cons, List.mem_singleton, List.not_mem_nil, or_false] at ht
    rw [minValueStr_eq, maxValueStr_eq, hmin, hmax, kMinValue_32, kMinValue_64, kMaxValue_32,
      kMaxValue_64]
    rcases ht with rfl | rfl | rfl | rfl | rfl | rfl <;>
      rcases hL with rfl | rfl <;> norm_num [minText, maxText, type_t.toNat]
  · intro h32 t ht
    subst h32
    simp only [List.mem_cons, List.mem_singleton, List.not_mem_nil, or_false] at ht
    rw [minValueStr_eq, maxValueStr_eq, hmin, hmax, kMinValue_32, kMaxValue_32]
    rcases ht with rfl | rfl <;> norm_num [minText, maxText, type_t.toNat]
  · intro t ht
    simp only [List.mem_cons, List.mem_singleton, List.not_mem_nil, or_false] at ht
    rw [minValueStr_eq, maxValueStr_eq, hmin, hmax, kMinValue_32, kMinValue_64, kMaxValue_32,
      kMaxValue_64]
    rcases ht with rfl | rfl <;> rcases hL with rfl | rfl <;>
      norm_num [minText, maxText, type_t.toNat, e64, e63]
  · refine ⟨_, maxValueStr_eq _, ?_⟩
    rw [hmax, kMaxValue_32, kMaxValue_64]
    have hf := roundFloat_maxText
    norm_num at hf
    rcases hL with rfl | rfl <;> norm_num [maxText, type_t.toNat] <;> exact hf
  · refine ⟨_, maxValueStr_eq _, ?_⟩
    rw [hmax, kMaxValue_32, kMaxValue_64]
    have hd := roundDouble_maxText
    norm_num at hd
    rcases hL with rfl | rfl <;> norm_num [maxText, type_t.toNat] <;> exact hd

theorem bounds_text_numeric_amended_witness :
    minValueStr type_t.INT = some (minValue 32 type_t.INT) ∧
      maxValueStr type_t.INT = some (maxValue 32 type_t.INT) :=
  (bounds_text_numeric_amended 32 (Or.inl rfl)).2.1 type_t.INT (by simp)

/-- C7: for each of the twelve types the lower bound is at most the upper
bound, in the numeric tables and in the values of the textual tables. -/
theorem bounds_min_le_max (longBits : ℕ) (hL : longBits = 32 ∨ longBits = 64) (t : type_t) :
    minValue longBits t ≤ maxValue longBits t ∧
      ∃ a b, minValueStr t = some a ∧ maxValueStr t = some b ∧ a ≤ b := by
  constructor
  · unfold minValue maxValue
    rcases hL with rfl | rfl
    · rw [kMinValue_32, kMaxValue_32]
      cases t <;> norm_num [type_t.toNat, FLT_MAX, DBL_MAX]
    · rw [kMinValue_64, kMaxValue_64]
      cases t <;> norm_num [type_t.toNat, FLT_MAX, DBL_MAX]
  · refine ⟨_, _, minValueStr_eq t, maxValueStr_eq t, ?_⟩
    cases t <;> norm_num [minText, maxText, type_t.toNat]

theorem bounds_min_le_max_witness :
    minValue 64 type_t.FLOAT ≤ maxValue 64 type_t.FLOAT ∧
      ∃ a b, minValueStr type_t.FLOAT = some a ∧ maxValueStr type_t.FLOAT = some b ∧ a ≤ b :=
  bounds_min_le_max 64 (Or.inr rfl) type_t.FLOAT

/-! ### Text rendering and parsing: supporting lemmas -/

theorem digitVal_digitChar (d : ℕ) (h : d < 10) : digitVal (digitChar d) = some d := by
  interval_cases d <;> rfl

theorem readSign_digitChar (d : ℕ) (h : d < 10) (cs : List Char) :
    readSign (digitChar d :: cs) = (false, digitChar d :: cs) := by
  interval_cases d <;> rfl

theorem readDigits_append (ds : List ℕ) (hds : ∀ d ∈ ds, d < 10) (rest : List Char)
    (hrest : ∀ c cs, rest = c :: cs → digitVal c = none) (acc k : ℕ) :
    readDigits (ds.map digitChar ++ rest) acc k =
      (ds.foldl (fun a d => 10 * a + d) acc, k + ds.length, rest) := by
  induction ds generalizing acc k with
  | nil =>
    cases rest with
    | nil => rfl
    | cons c cs =>
      simp [readDigits, hrest c cs rfl]
  | cons d ds ih =>
    have hd : d < 10 := hds d (by simp)
    have step : readDigits ((d :: ds).map digitChar ++ rest) acc k =
        readDigits (ds.map digitChar ++ rest) (10 * acc + d) (k + 1) := by
      simp only [List.map_cons, List.cons_append, readDigits, digitVal_digitChar d hd]
      rfl
    rw [step, ih (fun x hx => hds x (by simp [hx]))]
    simp [Nat.add_assoc, Nat.add_comm 1]

theorem foldl_digits (n : ℕ) :
    (Nat.digits 10 n).reverse.foldl (fun a d => 10 * a + d) 0 = n := by
  rw [List.foldl_reverse]
  have := Nat.ofDigits_digits 10 n
  rw [Nat.ofDigits_eq_foldr] at this
  simpa [Nat.add_comm] using this

theorem natToDigits_eq (n : ℕ) :
    ∃ ds : List ℕ, natToDigits n = ds.map digitChar ∧ (∀ d ∈ ds, d < 10) ∧ ds ≠ [] ∧
      ds.foldl (fun a d => 10 * a + d) 0 = n ∧ ∀ k, n < 10 ^ k → 1 ≤ k → ds.length ≤ k := by
  unfold natToDigits
  split_ifs with h
  · subst h
    exact ⟨[0], rfl, by simp, by simp, by simp, by intro k _ hk; simpa using hk⟩
  · refine ⟨(Nat.digits 10 n).reverse, rfl, ?_, ?_, foldl_digits n, ?_⟩
    · intro d hd
      exact Nat.digits_lt_base (by norm_num) (List.mem_reverse.mp hd)
    · simpa [Nat.digits_eq_nil_iff_eq_zero] using h
    · intro k hk _
      rw [List.length_reverse]
      have h1 := Nat.base_pow_length_digits_le 10 n (by norm_num) h
      have h2 : 10 ^ (Nat.digits 10 n).length < 10 ^ (k + 1) := by
        rw [pow_succ]
        omega
      have := (Nat.pow_lt_pow_iff_right (by norm_num : 1 < 10)).mp h2
      omega

theorem frac6_zero : frac6 0 = ['0', '0', '0', '0', '0', '0'] := by rfl

theorem parse_int_text (neg : Bool) (ds : List ℕ) (hds : ∀ d ∈ ds, d < 10) (hne : ds ≠ []) :
    parseDecimal ((if neg then ['-'] else []) ++ ds.map digitChar ++ ['.'] ++
      ['0', '0', '0', '0', '0', '0']) =
      some ⟨neg, ds.foldl (fun a d => 10 * a + d) 0, 0, 6, 0⟩ := by
  obtain ⟨d, ds1, rfl⟩ := List.exists_cons_of_ne_nil hne
  have hd : d < 10 := hds d (by simp)
  have hsign : readSign ((if neg then ['-'] else []) ++ (d :: ds1).map digitChar ++ ['.'] ++
      ['0', '0', '0', '0', '0', '0']) =
      (neg, (d :: ds1).map digitChar ++ ('.' :: ['0', '0', '0', '0', '0', '0'])) := by
    cases neg
    · simp only [Bool.false_eq_true, if_false, List.nil_append, List.map_cons, List.cons_append,
        List.append_assoc, List.singleton_append]
      exact readSign_digitChar d hd _
    · simp [readSign]
  have hdig := readDigits_append (d :: ds1) hds ('.' :: ['0', '0', '0', '0', '0', '0'])
    (by intro c cs h; obtain ⟨rfl, -⟩ := List.cons.inj h; rfl) 0 0
  unfold parseDecimal
  rw [hsign]
  simp only at hdig ⊢
  rw [hdig]
  simp [readFrac, readDigits, digitVal, readExp]

theorem fmt_lf_intCast (n : ℤ) :
    fmt_lf (n : ℚ) = (if decide (n < 0) then ['-'] else []) ++ natToDigits n.natAbs ++ ['.'] ++
      ['0', '0', '0', '0', '0', '0'] := by
  have hr : roundHalfEven (|(n : ℚ)| * 10 ^ 6) = ((n.natAbs * 10 ^ 6 : ℕ) : ℤ) := by
    have : |(n : ℚ)| * 10 ^ 6 = (((n.natAbs * 10 ^ 6 : ℕ) : ℤ) : ℚ) := by
      push_cast
      norm_num
    rw [this, roundHalfEven_intCast]
  unfold fmt_lf
  rw [hr, Int.toNat_natCast, Nat.mul_div_cancel _ (by norm_num), Nat.mul_mod_left, frac6_zero]
  have : ((n : ℚ) < 0) = (n < 0) := by simp
  simp only [this, decide_eq_true_eq]

/-- An integer of at most 23 digits is passed to Yices exactly. -/
theorem makeYicesNum_intCast (n : ℤ) (h : |n| < 10 ^ 23) :
    makeYicesNum (n : ℚ) = some (Term.num (n : ℚ)) := by
  obtain ⟨ds, hds, hlt, hne, hval, hlen⟩ := natToDigits_eq n.natAbs
  have hnat : n.natAbs < 10 ^ 23 := by
    have : ((n.natAbs : ℕ) : ℤ) < 10 ^ 23 := by rw [Int.natCast_natAbs]; exact h
    exact_mod_cast this
  have hl := hlen 23 hnat (by norm_num)
  unfold makeYicesNum yices_parse_float snprintf
  rw [fmt_lf_intCast, hds]
  have htake : List.take (32 - 1) ((if decide (n < 0) then ['-'] else []) ++
      ds.map digitChar ++ ['.'] ++ ['0', '0', '0', '0', '0', '0']) =
      (if decide (n < 0) then ['-'] else []) ++ ds.map digitChar ++ ['.'] ++
        ['0', '0', '0', '0', '0', '0'] := by
    apply List.take_of_length_le
    by_cases hn : n < 0 <;> simp [hn] <;> omega
  show Option.map Term.num (Option.map Decimal.toRat (parseDecimal (List.take (32 - 1) _))) = _
  rw [htake, parse_int_text _ ds hlt hne, hval]
  simp only [Option.map_some', Decimal.toRat, Option.some.injEq, Term.num.injEq]
  by_cases hn : n < 0
  · simp only [hn, decide_True, if_true]
    have : ((n.natAbs : ℕ) : ℚ) = -(n : ℚ) := by
      rw [Nat.cast_natAbs, abs_of_neg hn]; push_cast; rfl
    rw [this]; norm_num
  · simp only [hn, decide_False, Bool.false_eq_true, if_false]
    have : ((n.natAbs : ℕ) : ℚ) = (n : ℚ) := by
      rw [Nat.cast_natAbs, abs_of_nonneg (not_lt.mp hn)]
    rw [this]; norm_num


/-! ### `Solve`: supporting lemmas -/

theorem toIntegral_intCast (sg : Bool) (bits : ℕ) (n : ℤ) (h1 : intMin sg bits ≤ n)
    (h2 : n ≤ intMax sg bits) : toIntegral sg bits (n : ℚ) = some n := by
  unfold toIntegral
  rw [trunc_intCast, if_pos ⟨h1, h2⟩]

theorem yices_int64_intCast (n : ℤ) (h1 : -2 ^ 63 ≤ n) (h2 : n ≤ 2 ^ 63 - 1) :
    yices_int64 (n : ℚ) = some (Term.num n) := by
  unfold yices_int64
  rw [toIntegral_intCast true 64 n (by simpa [intMin] using h1) (by simpa [intMax] using h2)]
  rfl

theorem minValue_INT (longBits : ℕ) (hL : longBits = 32 ∨ longBits = 64) :
    minValue longBits type_t.INT = -2147483648 := by
  unfold minValue
  rcases hL with rfl | rfl
  · rw [kMinValue_32]; norm_num [type_t.toNat]
  · rw [kMinValue_64]; norm_num [type_t.toNat]

theorem maxValue_INT (longBits : ℕ) (hL : longBits = 32 ∨ longBits = 64) :
    maxValue longBits type_t.INT = 2147483647 := by
  unfold maxValue
  rcases hL with rfl | rfl
  · rw [kMaxValue_32]; norm_num [type_t.toNat]
  · rw [kMaxValue_64]; norm_num [type_t.toNat]

theorem min_expr_INT (longBits : ℕ) (hL : longBits = 32 ∨ longBits = 64) :
    min_expr longBits type_t.INT = some (Term.num (-2147483648)) := by
  have h := yices_int64_intCast (-2147483648) (by norm_num) (by norm_num)
  push_cast at h
  simp [min_expr, type_t.toNat, minValue_INT longBits hL, h]

theorem max_expr_INT (longBits : ℕ) (hL : longBits = 32 ∨ longBits = 64) :
    max_expr longBits type_t.INT = some (Term.num 2147483647) := by
  have h := yices_int64_intCast 2147483647 (by norm_num) (by norm_num)
  push_cast at h
  simp [max_expr, type_t.toNat, maxValue_INT longBits hL, h]

theorem min_expr_DOUBLE (longBits : ℕ) :
    min_expr longBits type_t.DOUBLE = some (Term.num (-(17976931348623158 * 10 ^ 292))) := by
  simp [min_expr, minValueStr_eq, minText, type_t.toNat]

theorem max_expr_DOUBLE (longBits : ℕ) :
    max_expr longBits type_t.DOUBLE = some (Term.num (17976931348623158 * 10 ^ 292)) := by
  simp [max_expr, maxValueStr_eq, maxText, type_t.toNat]



/-! ### `Solve`: unfolding lemmas -/

theorem declAtoms_cons (L : ℕ) (x : var_t) (t : type_t) (rest : VarMap type_t) (lo hi : Term)
    (more : List Atom) (h1 : min_expr L t = some lo) (h2 : max_expr L t = some hi)
    (h3 : declAtoms L rest = some more) :
    declAtoms L ((x, t) :: rest) =
      some (Atom.geq (Term.var x) lo :: Atom.leq (Term.var x) hi :: more) := by
  rw [declAtoms, h1, h2, h3]

theorem mulTerms_cons (vars : VarMap type_t) (x : var_t) (a : value_t)
    (rest : List (var_t × value_t)) (ta : Term) (more : List Term)
    (h1 : x ∈ vars.map Prod.fst) (h2 : makeYicesNum a = some ta)
    (h3 : mulTerms vars rest = some more) :
    mulTerms vars ((x, a) :: rest) = some (Term.mul (Term.var x) ta :: more) := by
  have hx : x_decl vars x = some (Term.var x) := by
    unfold x_decl; rw [if_pos h1]
  rw [mulTerms, hx, h2, h3]

theorem predAtom_eq (vars : VarMap type_t) (p : SymbolicPred) (c : Term) (ts : List Term)
    (k : Cmp0) (h1 : makeYicesNum p.expr.const_term = some c)
    (h2 : mulTerms vars p.expr.terms = some ts) (h3 : predCmp p.op = some k) :
    predAtom vars p = some (Atom.cmp0 k (yices_sum (c :: ts))) := by
  rw [predAtom, h1, h2, h3]

theorem predAtoms_cons (vars : VarMap type_t) (p : SymbolicPred) (rest : List SymbolicPred)
    (a : Atom) (more : List Atom) (h1 : predAtom vars p = some a)
    (h2 : predAtoms vars rest = some more) :
    predAtoms vars (p :: rest) = some (a :: more) := by
  rw [predAtoms, h1, h2]

theorem buildFormula_eq (L : ℕ) (vars : VarMap type_t) (cs : List SymbolicPred)
    (b ps : List Atom) (h1 : declAtoms L vars = some b) (h2 : predAtoms vars cs = some ps) :
    buildFormula L vars cs = some (b ++ ps) := by
  rw [buildFormula, h1, h2]

theorem declAtoms_nil (L : ℕ) : declAtoms L [] = some [] := by
  rw [declAtoms]

theorem mulTerms_nil (vars : VarMap type_t) : mulTerms vars [] = some [] := by
  rw [mulTerms]

theorem predAtoms_nil (vars : VarMap type_t) : predAtoms vars [] = some [] := by
  rw [predAtoms]

theorem makeYicesNum_neg5 : makeYicesNum (-5) = some (Term.num (-5)) := by
  have h := makeYicesNum_intCast (-5) (by norm_num)
  push_cast at h
  exact h

theorem makeYicesNum_zero : makeYicesNum 0 = some (Term.num 0) := by
  have h := makeYicesNum_intCast 0 (by norm_num)
  push_cast at h
  exact h

theorem makeYicesNum_one : makeYicesNum 1 = some (Term.num 1) := by
  have h := makeYicesNum_intCast 1 (by norm_num)
  push_cast at h
  exact h



/-! ### Soundness of `Solve`: supporting lemmas -/

theorem min_expr_num (L : ℕ) (t : type_t) (tm : Term) (h : min_expr L t = some tm) :
    ∃ lo : ℚ, tm = Term.num lo := by
  unfold min_expr yices_int64 at h
  split_ifs at h <;>
    · simp only [Option.map_eq_some'] at h
      obtain ⟨a, -, rfl⟩ := h
      exact ⟨_, rfl⟩

theorem max_expr_num (L : ℕ) (t : type_t) (tm : Term) (h : max_expr L t = some tm) :
    ∃ hi : ℚ, tm = Term.num hi := by
  unfold max_expr yices_int64 at h
  split_ifs at h <;>
    · simp only [Option.map_eq_some'] at h
      obtain ⟨a, -, rfl⟩ := h
      exact ⟨_, rfl⟩

/-- The numeric bounds of the integer types are whole numbers. -/
theorem minValue_int (L : ℕ) (hL : L = 32 ∨ L = 64) (t : type_t) (ht : t.isInteger = true) :
    ∃ k : ℤ, minValue L t = k := by
  unfold minValue
  rcases hL with rfl | rfl
  · rw [kMinValue_32]
    cases t <;> simp [type_t.isInteger, type_t.toNat] at ht ⊢
    · exact ⟨0, by norm_num⟩
    · exact ⟨-128, by norm_num⟩
    · exact ⟨0, by norm_num⟩
    · exact ⟨-32768, by norm_num⟩
    · exact ⟨0, by norm_num⟩
    · exact ⟨-2147483648, by norm_num⟩
    · exact ⟨0, by norm_num⟩
    · exact ⟨-2147483648, by norm_num⟩
    · exact ⟨0, by norm_num⟩
    · exact ⟨-9223372036854775808, by norm_num⟩
  · rw [kMinValue_64]
    cases t <;> simp [type_t.isInteger, type_t.toNat] at ht ⊢
    · exact ⟨0, by norm_num⟩
    · exact ⟨-128, by norm_num⟩
    · exact ⟨0, by norm_num⟩
    · exact ⟨-32768, by norm_num⟩
    · exact ⟨0, by norm_num⟩
    · exact ⟨-2147483648, by norm_num⟩
    · exact ⟨0, by norm_num⟩
    · exact ⟨-9223372036854775808, by norm_num⟩
    · exact ⟨0, by norm_num⟩
    · exact ⟨-9223372036854775808, by norm_num⟩

theorem maxValue_int (L : ℕ) (hL : L = 32 ∨ L = 64) (t : type_t) (ht : t.isInteger = true) :
    ∃ k : ℤ, maxValue L t = k := by
  unfold maxValue
  rcases hL with rfl | rfl
  · rw [kMaxValue_32]
    cases t <;> simp [type_t.isInteger, type_t.toNat] at ht ⊢
    · exact ⟨255, by norm_num⟩
    · exact ⟨127, by norm_num⟩
    · exact ⟨65535, by norm_num⟩
    · exact ⟨32767, by norm_num⟩
    · exact ⟨4294967295, by norm_num⟩
    · exact ⟨2147483647, by norm_num⟩
    · exact ⟨4294967295, by norm_num⟩
    · exact ⟨2147483647, by norm_num⟩
    · exact ⟨18446744073709551616, by norm_num⟩
    · exact ⟨9223372036854775808, by norm_num⟩
  · rw [kMaxValue_64]
    cases t <;> simp [type_t.isInteger, type_t.toNat] at ht ⊢
    · exact ⟨255, by norm_num⟩
    · exact ⟨127, by norm_num⟩
    · exact ⟨65535, by norm_num⟩
    · exact ⟨32767, by norm_num⟩
    · exact ⟨4294967295, by norm_num⟩
    · exact ⟨2147483647, by norm_num⟩
    · exact ⟨18446744073709551616, by norm_num⟩
    · exact ⟨9223372036854775808, by norm_num⟩
    · exact ⟨18446744073709551616, by norm_num⟩
    · exact ⟨9223372036854775808, by norm_num⟩

theorem yices_int64_of_int (v : ℚ) (k : ℤ) (hv : v = k) (tm : Term)
    (h : yices_int64 v = some tm) : tm = Term.num v := by
  subst hv
  unfold yices_int64 toIntegral at h
  rw [trunc_intCast] at h
  split_ifs at h
  · exact (Option.some.inj h).symm
  · exact absurd h (by simp)

/-- What the bound terms of a type are, when they are defined: the text bounds
for `FLOAT` and `DOUBLE`, the numeric table entries for the integer types. -/
theorem min_expr_spec (L : ℕ) (hL : L = 32 ∨ L = 64) (t : type_t) (lo : ℚ)
    (h : min_expr L t = some (Term.num lo)) :
    if t = type_t.FLOAT ∨ t = type_t.DOUBLE then minValueStr t = some lo
    else lo = minValue L t := by
  unfold min_expr at h
  by_cases hf : t = type_t.FLOAT ∨ t = type_t.DOUBLE
  · rw [if_pos hf] at h ⊢
    simp only [Option.map_eq_some', Term.num.injEq] at h
    obtain ⟨a, ha, rfl⟩ := h
    exact ha
  · rw [if_neg hf] at h ⊢
    have hint : t.isInteger = true := by
      cases t <;> simp [type_t.isInteger, type_t.toNat] at hf ⊢
    obtain ⟨k, hk⟩ := minValue_int L hL t hint
    have h1 : yices_int64 (minValue L t) = some (Term.num lo) := by
      split_ifs at h <;> exact h
    have := yices_int64_of_int _ k hk _ h1
    exact Term.num.inj this

theorem max_expr_spec (L : ℕ) (hL : L = 32 ∨ L = 64) (t : type_t) (hi : ℚ)
    (h : max_expr L t = some (Term.num hi)) :
    if t = type_t.FLOAT ∨ t = type_t.DOUBLE then maxValueStr t = some hi
    else hi = maxValue L t := by
  unfold max_expr at h
  by_cases hf : t = type_t.FLOAT ∨ t = type_t.DOUBLE
  · rw [if_pos hf] at h ⊢
    simp only [Option.map_eq_some', Term.num.injEq] at h
    obtain ⟨a, ha, rfl⟩ := h
    exact ha
  · rw [if_neg hf] at h ⊢
    have hint : t.isInteger = true := by
      cases t <;> simp [type_t.isInteger, type_t.toNat] at hf ⊢
    obtain ⟨k, hk⟩ := maxValue_int L hL t hint
    have h1 : yices_int64 (maxValue L t) = some (Term.num hi) := by
      split_ifs at h <;> exact h
    have := yices_int64_of_int _ k hk _ h1
    exact Term.num.inj this

/-- Every declared variable contributes its two bound atoms. -/
theorem declAtoms_mem (L : ℕ) (vars : VarMap type_t) (b : List Atom)
    (h : declAtoms L vars = some b) (x : var_t) (t : type_t) (hx : (x, t) ∈ vars) :
    ∃ lo hi : ℚ, min_expr L t = some (Term.num lo) ∧ max_expr L t = some (Term.num hi) ∧
      Atom.geq (Term.var x) (Term.num lo) ∈ b ∧ Atom.leq (Term.var x) (Term.num hi) ∈ b := by
  induction vars generalizing b with
  | nil => simp at hx
  | cons xt rest ih =>
    obtain ⟨x1, t1⟩ := xt
    rw [declAtoms] at h
    cases h1 : min_expr L t1 with
    | none => simp [h1] at h
    | some lo1 =>
      cases h2 : max_expr L t1 with
      | none => simp [h1, h2] at h
      | some hi1 =>
        cases h3 : declAtoms L rest with
        | none => simp [h1, h2, h3] at h
        | some more =>
          simp only [h1, h2, h3, Option.some.injEq] at h
          subst h
          rcases List.mem_cons.mp hx with heq | hmem
          · obtain ⟨rfl, rfl⟩ := Prod.mk.inj heq
            obtain ⟨lo, rfl⟩ := min_expr_num L _ _ h1
            obtain ⟨hi, rfl⟩ := max_expr_num L _ _ h2
            exact ⟨lo, hi, h1, h2, by simp, by simp⟩
          · obtain ⟨lo, hi, a, b1, c, d⟩ := ih more h3 hmem
            exact ⟨lo, hi, a, b1, by simp [c], by simp [d]⟩


theorem yices_sum_eval (m : var_t → ℚ) (ts : List Term) :
    (yices_sum ts).eval m = (ts.map (Term.eval m)).sum := by
  induction ts with
  | nil => simp [yices_sum, Term.eval]
  | cons t rest ih =>
    have : yices_sum (t :: rest) = Term.add t (yices_sum rest) := rfl
    rw [this, Term.eval, ih, List.map_cons, List.sum_cons]

/-- The products built for the terms of an expression evaluate to the products
of coefficient and variable, when each coefficient is passed exactly. -/
theorem mulTerms_eval (vars : VarMap type_t) (terms : List (var_t × value_t)) (ts : List Term)
    (h : mulTerms vars terms = some ts)
    (hexact : ∀ xa ∈ terms, makeYicesNum xa.2 = some (Term.num xa.2)) (m : var_t → ℚ) :
    (ts.map (Term.eval m)).sum = (terms.map fun xa => xa.2 * m xa.1).sum := by
  induction terms generalizing ts with
  | nil =>
    rw [mulTerms] at h
    obtain rfl := Option.some.inj h
    simp
  | cons xa rest ih =>
    obtain ⟨x, a⟩ := xa
    rw [mulTerms] at h
    have ha : makeYicesNum a = some (Term.num a) := hexact (x, a) (by simp)
    cases hx : x_decl vars x with
    | none => simp [hx] at h
    | some tx =>
      cases hr : mulTerms vars rest with
      | none => simp [hx, ha, hr] at h
      | some more =>
        simp only [hx, ha, hr, Option.some.injEq] at h
        subst h
        have htx : tx = Term.var x := by
          unfold x_decl at hx
          split_ifs at hx
          exact (Option.some.inj hx).symm
        subst htx
        have := ih more hr (fun y hy => hexact y (List.mem_cons_of_mem _ hy))
        simp only [List.map_cons, List.sum_cons, Term.eval, this]
        ring

/-- The atom kind the switch of `Solve` picks for an operator means what the
operator means. -/
theorem predCmp_holds (op : compare_op_t) (k : Cmp0) (h : predCmp op = some k) (e : ℚ) :
    k.holds e ↔ compareHolds op e := by
  unfold predCmp at h
  unfold compareHolds
  split_ifs at h ⊢ <;> obtain rfl := Option.some.inj h <;> rfl

theorem compareHolds_GT (e : ℚ) : compareHolds ops.GT e ↔ 0 < e := by
  simp [compareHolds, ops.GT, ops.EQ, ops.NEQ]

/-- The atom built for a predicate whose numbers are passed exactly holds in a
model exactly when the predicate evaluates to true under the model. -/
theorem predAtom_holds (vars : VarMap type_t) (p : SymbolicPred) (a : Atom)
    (h : predAtom vars p = some a)
    (hc : makeYicesNum p.expr.const_term = some (Term.num p.expr.const_term))
    (hexact : ∀ xa ∈ p.expr.terms, makeYicesNum xa.2 = some (Term.num xa.2))
    (m : var_t → ℚ) : a.holds m ↔ p.holds m := by
  rw [predAtom] at h
  cases hts : mulTerms vars p.expr.terms with
  | none => simp [hc, hts] at h
  | some ts =>
    cases hk : predCmp p.op with
    | none => simp [hc, hts, hk] at h
    | some k =>
      simp only [hc, hts, hk, Option.some.injEq] at h
      subst h
      have hsum := mulTerms_eval vars _ ts hts hexact m
      unfold SymbolicPred.holds
      rw [← predCmp_holds p.op k hk]
      have hev : (yices_sum (Term.num p.expr.const_term :: ts)).eval m = p.expr.eval m := by
        rw [yices_sum_eval, List.map_cons, List.sum_cons, hsum]
        rfl
      show k.holds ((yices_sum (Term.num p.expr.const_term :: ts)).eval m) ↔ _
      rw [hev]

theorem predAtoms_mem (vars : VarMap type_t) (cs : List SymbolicPred) (ps : List Atom)
    (h : predAtoms vars cs = some ps) (p : SymbolicPred) (hp : p ∈ cs) :
    ∃ a ∈ ps, predAtom vars p = some a := by
  induction cs generalizing ps with
  | nil => simp at hp
  | cons q rest ih =>
    rw [predAtoms] at h
    cases hq : predAtom vars q with
    | none => simp [hq] at h
    | some a =>
      cases hr : predAtoms vars rest with
      | none => simp [hq, hr] at h
      | some more =>
        simp only [hq, hr, Option.some.injEq] at h
        subst h
        rcases List.mem_cons.mp hp with rfl | hmem
        · exact ⟨a, by simp, hq⟩
        · obtain ⟨b, hb, hb2⟩ := ih more hr hmem
          exact ⟨b, by simp [hb], hb2⟩

/-! ### The solution map -/

theorem mapFind_cons {α : Type} (x k1 : var_t) (v1 : α) (rest : VarMap α) :
    mapFind x ((k1, v1) :: rest) = if x = k1 then some v1 else mapFind x rest := rfl

theorem mapFind_mapInsert_some {α : Type} (k x : var_t) (v w : α) (s : VarMap α)
    (h : mapFind x (mapInsert k v s) = some w) : (x = k ∧ w = v) ∨ mapFind x s = some w := by
  induction s with
  | nil =>
    simp only [mapInsert, mapFind] at h
    split_ifs at h with hx
    exact Or.inl ⟨hx, (Option.some.inj h).symm⟩
  | cons e rest ih =>
    obtain ⟨k1, v1⟩ := e
    simp only [mapInsert] at h
    split_ifs at h with h1 h2
    · rw [mapFind_cons] at h
      split_ifs at h with hx
      · exact Or.inl ⟨hx, (Option.some.inj h).symm⟩
      · exact Or.inr h
    · exact Or.inr h
    · rw [mapFind_cons] at h ⊢
      split_ifs at h ⊢ with hx
      · exact Or.inr h
      · exact ih h

theorem mapFind_mapInsert_isSome {α : Type} (k x : var_t) (v : α) (s : VarMap α)
    (h : x = k ∨ (mapFind x s).isSome = true) : (mapFind x (mapInsert k v s)).isSome = true := by
  induction s with
  | nil =>
    rcases h with rfl | h
    · simp [mapInsert, mapFind]
    · simp [mapFind] at h
  | cons e rest ih =>
    obtain ⟨k1, v1⟩ := e
    simp only [mapInsert]
    split_ifs with h1 h2
    · rcases h with rfl | h
      · simp [mapFind]
      · simp only [mapFind] at h ⊢
        split_ifs <;> simp_all
    · rcases h with rfl | h
      · subst h2; simp [mapFind]
      · exact h
    · simp only [mapFind] at h ⊢
      split_ifs with hx
      · rfl
      · apply ih
        rcases h with rfl | h
        · exact Or.inl rfl
        · right; simpa [hx] using h

/-- After the read-back loop every declared variable has an entry, and every
entry not there before holds the value read from the model. -/
theorem readModel_spec (Y : Yices) (model : var_t → ℚ) (vars : VarMap type_t)
    (s : VarMap value_t) :
    (∀ x, (x ∈ vars.map Prod.fst ∨ (mapFind x s).isSome = true) →
      (mapFind x (readModel Y model vars s)).isSome = true) ∧
    (∀ x w, mapFind x (readModel Y model vars s) = some w →
      w = Y.get_double_value (model x) ∨ mapFind x s = some w) := by
  induction vars generalizing s with
  | nil =>
    refine ⟨fun x hx => ?_, fun x w hw => Or.inr hw⟩
    rcases hx with hx | hx
    · simp at hx
    · exact hx
  | cons e rest ih =>
    obtain ⟨k, t⟩ := e
    obtain ⟨ih1, ih2⟩ := ih (mapInsert k (Y.get_double_value (model k)) s)
    refine ⟨fun x hx => ?_, fun x w hw => ?_⟩
    · apply ih1
      rcases hx with hx | hx
      · rcases List.mem_cons.mp hx with rfl | hmem
        · exact Or.inr (mapFind_mapInsert_isSome _ _ _ _ (Or.inl rfl))
        · exact Or.inl hmem
      · exact Or.inr (mapFind_mapInsert_isSome _ _ _ _ (Or.inr hx))
    · rcases ih2 x w hw with h | h
      · exact Or.inl h
      · rcases mapFind_mapInsert_some _ _ _ _ _ h with ⟨rfl, rfl⟩ | h2
        · exact Or.inl rfl
        · exact Or.inr h2

theorem readModel_find (Y : Yices) (model : var_t → ℚ) (vars : VarMap type_t) (x : var_t)
    (hx : x ∈ vars.map Prod.fst) :
    mapFind x (readModel Y model vars []) = some (Y.get_double_value (model x)) := by
  obtain ⟨h1, h2⟩ := readModel_spec Y model vars []
  obtain ⟨w, hw⟩ := Option.isSome_iff_exists.mp (h1 x (Or.inl hx))
  rcases h2 x w hw with rfl | h
  · exact hw
  · simp [mapFind] at h


theorem SymbolicPred.holds_congr (p : SymbolicPred) (σ m : var_t → ℚ)
    (h : ∀ x ∈ p.vars, σ x = m x) : p.holds σ ↔ p.holds m := by
  have hev : p.expr.eval σ = p.expr.eval m := by
    unfold SymbolicExpr.eval
    congr 2
    apply List.map_congr_left
    intro xa hxa
    rw [h xa.1 (List.mem_map.mpr ⟨xa, hxa, rfl⟩)]
  unfold SymbolicPred.holds
  rw [hev]

theorem buildFormula_some (L : ℕ) (vars : VarMap type_t) (cs : List SymbolicPred)
    (f : List Atom) (h : buildFormula L vars cs = some f) :
    ∃ b ps, declAtoms L vars = some b ∧ predAtoms vars cs = some ps ∧ f = b ++ ps := by
  rw [buildFormula] at h
  cases hb : declAtoms L vars with
  | none => simp [hb] at h
  | some b =>
    cases hp : predAtoms vars cs with
    | none => simp [hb, hp] at h
    | some ps =>
      simp only [hb, hp, Option.some.injEq] at h
      exact ⟨b, ps, rfl, rfl, h.symm⟩

theorem Solve_true (Y : Yices) (L : ℕ) (vars : VarMap type_t) (cs : List SymbolicPred)
    (soln0 soln : VarMap value_t) (h : Solve Y L vars cs soln0 = some (true, soln)) :
    ∃ f m, buildFormula L vars cs = some f ∧ Y.check_formula f = some m ∧
      soln = readModel Y m vars [] := by
  rw [Solve] at h
  cases hf : buildFormula L vars cs with
  | none => simp [hf] at h
  | some f =>
    cases hm : Y.check_formula f with
    | none => simp [hf, hm] at h
    | some m =>
      simp only [hf, hm, Option.some.injEq, Prod.mk.injEq, true_and] at h
      exact ⟨f, m, rfl, hm, h.symm⟩


/-! ### Scenarios of `Solve`: the formulas built -/

/-- The formula built for `x : INT` and the single predicate `x == 5`. -/
theorem buildFormula_x_eq_5 (longBits : ℕ) (hL : longBits = 32 ∨ longBits = 64) :
    buildFormula longBits [(0, type_t.INT)] [⟨ops.EQ, ⟨-5, [(0, 1)]⟩⟩] =
      some [Atom.geq (Term.var 0) (Term.num (-2147483648)),
        Atom.leq (Term.var 0) (Term.num 2147483647),
        Atom.cmp0 Cmp0.eq0 (yices_sum [Term.num (-5), Term.mul (Term.var 0) (Term.num 1)])] := by
  have hm : mulTerms [(0, type_t.INT)] [(0, 1)] = some [Term.mul (Term.var 0) (Term.num 1)] :=
    mulTerms_cons _ _ _ _ _ _ (by simp) makeYicesNum_one (mulTerms_nil _)
  have hp : predAtom [(0, type_t.INT)] ⟨ops.EQ, ⟨-5, [(0, 1)]⟩⟩ = some (Atom.cmp0 Cmp0.eq0
      (yices_sum [Term.num (-5), Term.mul (Term.var 0) (Term.num 1)])) :=
    predAtom_eq _ _ _ _ _ makeYicesNum_neg5 hm (by decide)
  exact buildFormula_eq _ _ _ _ _
    (declAtoms_cons _ _ _ _ _ _ _ (min_expr_INT longBits hL) (max_expr_INT longBits hL)
      (declAtoms_nil _))
    (predAtoms_cons _ _ _ _ _ hp (predAtoms_nil _))

theorem x_eq_5_model (m : var_t → ℚ) :
    formulaHolds m [Atom.geq (Term.var 0) (Term.num (-2147483648)),
        Atom.leq (Term.var 0) (Term.num 2147483647),
        Atom.cmp0 Cmp0.eq0 (yices_sum [Term.num (-5), Term.mul (Term.var 0) (Term.num 1)])] ↔
      m 0 = 5 := by
  constructor
  · intro hm
    have := hm _ (List.mem_cons_of_mem _ (List.mem_cons_of_mem _ (List.mem_singleton_self _)))
    simp only [Atom.holds, yices_sum, List.foldr, Term.eval, Cmp0.holds] at this
    linarith
  · intro h5 a ha
    simp only [List.mem_cons, List.mem_singleton, List.not_mem_nil, or_false] at ha
    rcases ha with rfl | rfl | rfl <;>
      norm_num [Atom.holds, yices_sum, Term.eval, Cmp0.holds, h5]

/-- `Solve` on `x : INT`, `x == 5`, with a procedure that answers the model
`x = 5` and reads values back unchanged. -/
theorem Solve_x_eq_5_eval :
    Solve ⟨fun _ => some fun _ => 5, id⟩ 32 [(0, type_t.INT)] [⟨ops.EQ, ⟨-5, [(0, 1)]⟩⟩] [] =
      some (true, [(0, 5)]) := by
  rw [Solve, buildFormula_x_eq_5 32 (Or.inl rfl)]
  simp [readModel, mapInsert]

/-- The formula built for `x : INT` and the two predicates `x > 0`, `x < 0`. -/
theorem buildFormula_x_gt_lt (longBits : ℕ) (hL : longBits = 32 ∨ longBits = 64) :
    buildFormula longBits [(0, type_t.INT)]
        [⟨ops.GT, ⟨0, [(0, 1)]⟩⟩, ⟨ops.LT, ⟨0, [(0, 1)]⟩⟩] =
      some [Atom.geq (Term.var 0) (Term.num (-2147483648)),
        Atom.leq (Term.var 0) (Term.num 2147483647),
        Atom.cmp0 Cmp0.gt0 (yices_sum [Term.num 0, Term.mul (Term.var 0) (Term.num 1)]),
        Atom.cmp0 Cmp0.lt0 (yices_sum [Term.num 0, Term.mul (Term.var 0) (Term.num 1)])] := by
  have hm : mulTerms [(0, type_t.INT)] [(0, 1)] = some [Term.mul (Term.var 0) (Term.num 1)] :=
    mulTerms_cons _ _ _ _ _ _ (by simp) makeYicesNum_one (mulTerms_nil _)
  have hp1 : predAtom [(0, type_t.INT)] ⟨ops.GT, ⟨0, [(0, 1)]⟩⟩ = some (Atom.cmp0 Cmp0.gt0
      (yices_sum [Term.num 0, Term.mul (Term.var 0) (Term.num 1)])) :=
    predAtom_eq _ _ _ _ _ makeYicesNum_zero hm (by decide)
  have hp2 : predAtom [(0, type_t.INT)] ⟨ops.LT, ⟨0, [(0, 1)]⟩⟩ = some (Atom.cmp0 Cmp0.lt0
      (yices_sum [Term.num 0, Term.mul (Term.var 0) (Term.num 1)])) :=
    predAtom_eq _ _ _ _ _ makeYicesNum_zero hm (by decide)
  exact buildFormula_eq _ _ _ _ _
    (declAtoms_cons _ _ _ _ _ _ _ (min_expr_INT longBits hL) (max_expr_INT longBits hL)
      (declAtoms_nil _))
    (predAtoms_cons _ _ _ _ _ hp1 (predAtoms_cons _ _ _ _ _ hp2 (predAtoms_nil _)))

theorem roundDouble_2p53_add_one : roundDouble 9007199254740993 = 9007199254740992 := by
  unfold roundDouble
  rw [roundNE_eval 53 (-1074) _ 53 1 (by norm_num [abs_of_pos]) (by norm_num [abs_of_pos])
    (by norm_num)]
  rw [roundHalfEven_eval _ (2 ^ 52) (by rw [Int.floor_eq_iff]; norm_num)]
  norm_num

/-- The formula built for `x : DOUBLE` and the two predicates
`x - 2^53 > 0` and `(2^53 + 2) - x > 0`. -/
theorem buildFormula_between (longBits : ℕ) :
    buildFormula longBits [(0, type_t.DOUBLE)]
        [⟨ops.GT, ⟨-9007199254740992, [(0, 1)]⟩⟩, ⟨ops.GT, ⟨9007199254740994, [(0, -1)]⟩⟩] =
      some [Atom.geq (Term.var 0) (Term.num (-(17976931348623158 * 10 ^ 292))),
        Atom.leq (Term.var 0) (Term.num (17976931348623158 * 10 ^ 292)),
        Atom.cmp0 Cmp0.gt0
          (yices_sum [Term.num (-9007199254740992), Term.mul (Term.var 0) (Term.num 1)]),
        Atom.cmp0 Cmp0.gt0
          (yices_sum [Term.num 9007199254740994, Term.mul (Term.var 0) (Term.num (-1))])] := by
  have c1 : makeYicesNum (-9007199254740992) = some (Term.num (-9007199254740992)) := by
    have h := makeYicesNum_intCast (-9007199254740992) (by norm_num)
    push_cast at h
    exact h
  have c2 : makeYicesNum 9007199254740994 = some (Term.num 9007199254740994) := by
    have h := makeYicesNum_intCast 9007199254740994 (by norm_num)
    push_cast at h
    exact h
  have c3 : makeYicesNum (-1) = some (Term.num (-1)) := by
    have h := makeYicesNum_intCast (-1) (by norm_num)
    push_cast at h
    exact h
  have hm1 : mulTerms [(0, type_t.DOUBLE)] [(0, 1)] =
      some [Term.mul (Term.var 0) (Term.num 1)] :=
    mulTerms_cons _ _ _ _ _ _ (by simp) makeYicesNum_one (mulTerms_nil _)
  have hm2 : mulTerms [(0, type_t.DOUBLE)] [(0, -1)] =
      some [Term.mul (Term.var 0) (Term.num (-1))] :=
    mulTerms_cons _ _ _ _ _ _ (by simp) c3 (mulTerms_nil _)
  have hp1 : predAtom [(0, type_t.DOUBLE)] ⟨ops.GT, ⟨-9007199254740992, [(0, 1)]⟩⟩ =
      some (Atom.cmp0 Cmp0.gt0
        (yices_sum [Term.num (-9007199254740992), Term.mul (Term.var 0) (Term.num 1)])) :=
    predAtom_eq _ _ _ _ _ c1 hm1 (by decide)
  have hp2 : predAtom [(0, type_t.DOUBLE)] ⟨ops.GT, ⟨9007199254740994, [(0, -1)]⟩⟩ =
      some (Atom.cmp0 Cmp0.gt0
        (yices_sum [Term.num 9007199254740994, Term.mul (Term.var 0) (Term.num (-1))])) :=
    predAtom_eq _ _ _ _ _ c2 hm2 (by decide)
  exact buildFormula_eq _ _ _ _ _
    (declAtoms_cons _ _ _ _ _ _ _ (min_expr_DOUBLE longBits) (max_expr_DOUBLE longBits)
      (declAtoms_nil _))
    (predAtoms_cons _ _ _ _ _ hp1 (predAtoms_cons _ _ _ _ _ hp2 (predAtoms_nil _)))


/-! ### Claims on `Solve` -/

/-- C8 (counterexample): `x : DOUBLE` with the predicates `x - 2^53 > 0` and
`(2^53 + 2) - x > 0`, all numbers integers that `makeYicesNum` passes exactly.
The formula has the model `x = 2^53 + 1`; read back as a `double` the value is
`2^53`, `Solve` returns true with `{x: 2^53}`, and the first predicate is false
under the returned assignment. -/
theorem Solve_sound_counterexample :
    ∃ f, buildFormula 32 [(0, type_t.DOUBLE)]
        [⟨ops.GT, ⟨-9007199254740992, [(0, 1)]⟩⟩, ⟨ops.GT, ⟨9007199254740994, [(0, -1)]⟩⟩] =
        some f ∧
      formulaHolds (fun _ => 9007199254740993) f ∧
      Solve ⟨fun _ => some fun _ => 9007199254740993, roundDouble⟩ 32 [(0, type_t.DOUBLE)]
        [⟨ops.GT, ⟨-9007199254740992, [(0, 1)]⟩⟩, ⟨ops.GT, ⟨9007199254740994, [(0, -1)]⟩⟩] [] =
        some (true, [(0, 9007199254740992)]) ∧
      ¬ (⟨ops.GT, ⟨-9007199254740992, [(0, 1)]⟩⟩ : SymbolicPred).holds
        fun x => (mapFind x [((0 : var_t), (9007199254740992 : value_t))]).getD 0 := by
  refine ⟨_, buildFormula_between 32, ?_, ?_, ?_⟩
  · intro a ha
    simp only [List.mem_cons, List.mem_singleton, List.not_mem_nil, or_false] at ha
    rcases ha with rfl | rfl | rfl | rfl <;>
      norm_num [Atom.holds, yices_sum, Term.eval, Cmp0.holds]
  · rw [Solve, buildFormula_between 32]
    simp [readModel, mapInsert, roundDouble_2p53_add_one]
  · simp only [SymbolicPred.holds, compareHolds_GT, SymbolicExpr.eval, List.map_cons,
      List.map_nil, List.sum_cons, List.sum_nil, mapFind_cons, mapFind]
    norm_num

/-- C8 (amended): let every variable of the constraints be declared in `vars`,
let every constant and coefficient of the constraints be passed to Yices
exactly by `makeYicesNum` (as every integer of at most 23 digits is), let
`Solve` return true from a model of the formula it built, and let the values
of the model be read back unchanged.  Then every variable of `vars` has a
returned value within the bounds `Solve` asserted for its type (the text bounds
for `FLOAT` and `DOUBLE`, the numeric table entries for the integer types), and
every predicate evaluates to true under the returned assignment. -/
theorem Solve_sound_amended (Y : Yices) (longBits : ℕ) (hL : longBits = 32 ∨ longBits = 64)
    (vars : VarMap type_t) (constraints : List SymbolicPred) (soln0 soln : VarMap value_t)
    (hdecl : ∀ p ∈ constraints, ∀ x ∈ p.vars, x ∈ vars.map Prod.fst)
    (hexact : ∀ p ∈ constraints,
      makeYicesNum p.expr.const_term = some (Term.num p.expr.const_term) ∧
      ∀ xa ∈ p.expr.terms, makeYicesNum xa.2 = some (Term.num xa.2))
    (hY : ∀ f m, buildFormula longBits vars constraints = some f →
      Y.check_formula f = some m →
      formulaHolds m f ∧ ∀ xt ∈ vars, Y.get_double_value (m xt.1) = m xt.1)
    (hres : Solve Y longBits vars constraints soln0 = some (true, soln)) :
    (∀ x t, (x, t) ∈ vars → ∃ v lo hi, mapFind x soln = some v ∧ lo ≤ v ∧ v ≤ hi ∧
      if t = type_t.FLOAT ∨ t = type_t.DOUBLE then
        minValueStr t = some lo ∧ maxValueStr t = some hi
      else lo = minValue longBits t ∧ hi = maxValue longBits t) ∧
    ∀ p ∈ constraints, p.holds fun x => (mapFind x soln).getD 0 := by
  obtain ⟨f, m, hf, hm, rfl⟩ := Solve_true Y longBits vars constraints soln0 soln hres
  obtain ⟨hsat, hdbl⟩ := hY f m hf hm
  obtain ⟨b, ps, hb, hps, rfl⟩ := buildFormula_some longBits vars constraints f hf
  have hfind : ∀ x, x ∈ vars.map Prod.fst → mapFind x (readModel Y m vars []) = some (m x) := by
    intro x hx
    rw [readModel_find Y m vars x hx]
    obtain ⟨xt, hxt, rfl⟩ := List.mem_map.mp hx
    rw [hdbl xt hxt]
  constructor
  · intro x t hxt
    obtain ⟨lo, hi, hlo, hhi, hg, hl⟩ := declAtoms_mem longBits vars b hb x t hxt
    have h1 : (Atom.geq (Term.var x) (Term.num lo)).holds m :=
      hsat _ (List.mem_append_left _ hg)
    have h2 : (Atom.leq (Term.var x) (Term.num hi)).holds m :=
      hsat _ (List.mem_append_left _ hl)
    refine ⟨m x, lo, hi, hfind x (List.mem_map.mpr ⟨(x, t), hxt, rfl⟩), h1, h2, ?_⟩
    have s1 := min_expr_spec longBits hL t lo hlo
    have s2 := max_expr_spec longBits hL t hi hhi
    split_ifs at s1 s2 ⊢
    · exact ⟨s1, s2⟩
    · exact ⟨s1, s2⟩
  · intro p hp
    obtain ⟨a, ha, hpa⟩ := predAtoms_mem vars constraints ps hps p hp
    have hholds : a.holds m := hsat _ (List.mem_append_right _ ha)
    have hpm : p.holds m :=
      (predAtom_holds vars p a hpa (hexact p hp).1 (hexact p hp).2 m).mp hholds
    refine (SymbolicPred.holds_congr p _ m ?_).mpr hpm
    intro x hx
    show (mapFind x (readModel Y m vars [])).getD 0 = m x
    rw [hfind x (hdecl p hp x hx)]
    rfl

theorem Solve_sound_amended_witness :
    (∀ x t, (x, t) ∈ [((0 : var_t), type_t.INT)] → ∃ v lo hi,
      mapFind x [((0 : var_t), (5 : value_t))] = some v ∧ lo ≤ v ∧ v ≤ hi ∧
      if t = type_t.FLOAT ∨ t = type_t.DOUBLE then
        minValueStr t = some lo ∧ maxValueStr t = some hi
      else lo = minValue 32 t ∧ hi = maxValue 32 t) ∧
    ∀ p ∈ [(⟨ops.EQ, ⟨-5, [(0, 1)]⟩⟩ : SymbolicPred)],
      p.holds fun x => (mapFind x [((0 : var_t), (5 : value_t))]).getD 0 :=
  Solve_sound_amended ⟨fun _ => some fun _ => 5, id⟩ 32 (Or.inl rfl) [(0, type_t.INT)]
    [⟨ops.EQ, ⟨-5, [(0, 1)]⟩⟩] [] [(0, 5)]
    (by
      intro p hp x hx
      obtain rfl := List.mem_singleton.mp hp
      simpa [SymbolicPred.vars] using hx)
    (by
      intro p hp
      obtain rfl := List.mem_singleton.mp hp
      refine ⟨makeYicesNum_neg5, ?_⟩
      intro xa hxa
      obtain rfl := List.mem_singleton.mp hxa
      exact makeYicesNum_one)
    (by
      intro f m hf hm
      rw [buildFormula_x_eq_5 32 (Or.inl rfl)] at hf
      obtain rfl := Option.some.inj hf
      obtain rfl := Option.some.inj hm
      exact ⟨(x_eq_5_model _).mpr rfl, fun _ _ => rfl⟩)
    Solve_x_eq_5_eval

/-- C9: for `x : INT` and the single predicate `x == 5` the formula `Solve`
builds is satisfiable and every model of it gives `x` the value 5; with a
decision procedure that is sound and complete on this formula and reads the
value 5 back unchanged, `Solve` returns true with the solution `{x: 5}`. -/
theorem Solve_x_eq_5 (Y : Yices) (longBits : ℕ) (hL : longBits = 32 ∨ longBits = 64)
    (soln : VarMap value_t)
    (hY : ∀ f, buildFormula longBits [(0, type_t.INT)] [⟨ops.EQ, ⟨-5, [(0, 1)]⟩⟩] = some f →
      Y.soundOn f ∧ Y.completeOn f)
    (hd : Y.get_double_value 5 = 5) :
    (∃ f, buildFormula longBits [(0, type_t.INT)] [⟨ops.EQ, ⟨-5, [(0, 1)]⟩⟩] = some f ∧
      (∃ m, formulaHolds m f) ∧ ∀ m, formulaHolds m f → m 0 = 5) ∧
    Solve Y longBits [(0, type_t.INT)] [⟨ops.EQ, ⟨-5, [(0, 1)]⟩⟩] soln = some (true, [(0, 5)]) := by
  have hf := buildFormula_x_eq_5 longBits hL
  obtain ⟨hs, hc⟩ := hY _ hf
  have hsat : ∃ m, formulaHolds m [Atom.geq (Term.var 0) (Term.num (-2147483648)),
      Atom.leq (Term.var 0) (Term.num 2147483647),
      Atom.cmp0 Cmp0.eq0 (yices_sum [Term.num (-5), Term.mul (Term.var 0) (Term.num 1)])] :=
    ⟨fun _ => 5, (x_eq_5_model _).mpr rfl⟩
  refine ⟨⟨_, hf, hsat, fun m hm => (x_eq_5_model m).mp hm⟩, ?_⟩
  obtain ⟨m, hm⟩ := Option.isSome_iff_exists.mp (hc hsat)
  have h5 := (x_eq_5_model m).mp (hs m hm)
  rw [Solve, hf]
  simp only [hm]
  simp [readModel, mapInsert, h5, hd]

theorem Solve_x_eq_5_witness :
    Solve ⟨fun _ => some fun _ => 5, id⟩ 32 [(0, type_t.INT)] [⟨ops.EQ, ⟨-5, [(0, 1)]⟩⟩] [] =
      some (true, [(0, 5)]) :=
  (Solve_x_eq_5 ⟨fun _ => some fun _ => 5, id⟩ 32 (Or.inl rfl) []
    (by
      intro f hf
      rw [buildFormula_x_eq_5 32 (Or.inl rfl)] at hf
      obtain rfl := Option.some.inj hf
      refine ⟨?_, fun _ => rfl⟩
      intro m hm
      obtain rfl := Option.some.inj hm
      exact (x_eq_5_model _).mpr rfl)
    rfl).2

/-- C10: for `x : INT` and the two predicates `x > 0` and `x < 0` the formula
`Solve` builds has no model, so with a decision procedure that is sound on it
`Solve` returns false (and leaves the solution as it was). -/
theorem Solve_x_gt_lt_unsat (Y : Yices) (longBits : ℕ) (hL : longBits = 32 ∨ longBits = 64)
    (soln : VarMap value_t)
    (hY : ∀ f, buildFormula longBits [(0, type_t.INT)]
        [⟨ops.GT, ⟨0, [(0, 1)]⟩⟩, ⟨ops.LT, ⟨0, [(0, 1)]⟩⟩] = some f → Y.soundOn f) :
    (∃ f, buildFormula longBits [(0, type_t.INT)]
        [⟨ops.GT, ⟨0, [(0, 1)]⟩⟩, ⟨ops.LT, ⟨0, [(0, 1)]⟩⟩] = some f ∧
      ¬ ∃ m, formulaHolds m f) ∧
    Solve Y longBits [(0, type_t.INT)] [⟨ops.GT, ⟨0, [(0, 1)]⟩⟩, ⟨ops.LT, ⟨0, [(0, 1)]⟩⟩] soln =
      some (false, soln) := by
  have hf := buildFormula_x_gt_lt longBits hL
  have hs := hY _ hf
  have hunsat : ¬ ∃ m, formulaHolds m
      [Atom.geq (Term.var 0) (Term.num (-2147483648)),
        Atom.leq (Term.var 0) (Term.num 2147483647),
        Atom.cmp0 Cmp0.gt0 (yices_sum [Term.num 0, Term.mul (Term.var 0) (Term.num 1)]),
        Atom.cmp0 Cmp0.lt0 (yices_sum [Term.num 0, Term.mul (Term.var 0) (Term.num 1)])] := by
    rintro ⟨m, hm⟩
    have h1 := hm (Atom.cmp0 Cmp0.gt0
      (yices_sum [Term.num 0, Term.mul (Term.var 0) (Term.num 1)])) (by simp)
    have h2 := hm (Atom.cmp0 Cmp0.lt0
      (yices_sum [Term.num 0, Term.mul (Term.var 0) (Term.num 1)])) (by simp)
    simp only [Atom.holds, yices_sum, List.foldr, Term.eval, Cmp0.holds] at h1 h2
    linarith
  refine ⟨⟨_, hf, hunsat⟩, ?_⟩
  rw [Solve, hf]
  cases hm : Y.check_formula [Atom.geq (Term.var 0) (Term.num (-2147483648)),
        Atom.leq (Term.var 0) (Term.num 2147483647),
        Atom.cmp0 Cmp0.gt0 (yices_sum [Term.num 0, Term.mul (Term.var 0) (Term.num 1)]),
        Atom.cmp0 Cmp0.lt0 (yices_sum [Term.num 0, Term.mul (Term.var 0) (Term.num 1)])] with
  | none => simp only [hm]
  | some m => exact absurd ⟨m, hs m hm⟩ hunsat

theorem Solve_x_gt_lt_unsat_witness :
    Solve ⟨fun _ => none, id⟩ 32 [(0, type_t.INT)]
        [⟨ops.GT, ⟨0, [(0, 1)]⟩⟩, ⟨ops.LT, ⟨0, [(0, 1)]⟩⟩] [(7, 1)] = some (false, [(7, 1)]) :=
  (Solve_x_gt_lt_unsat ⟨fun _ => none, id⟩ 32 (Or.inl rfl) [(7, 1)]
    (by
      intro f _ m hm
      exact absurd hm (by simp))).2


/-! ### Sets and maps of variables -/

theorem mem_setInsert (x y : var_t) (s : VarSet) : y ∈ setInsert x s ↔ y = x ∨ y ∈ s := by
  unfold setInsert
  split_ifs with h
  · constructor
    · exact Or.inr
    · rintro (rfl | h1)
      · exact h
      · exact h1
  · rw [List.mem_orderedInsert]

theorem nodup_setInsert (x : var_t) (s : VarSet) (hs : s.Nodup) : (setInsert x s).Nodup := by
  unfold setInsert
  split_ifs with h
  · exact hs
  · exact ((List.perm_orderedInsert _ x s).nodup_iff).mpr (List.nodup_cons.mpr ⟨h, hs⟩)

theorem mem_setInsertAll (xs : List var_t) (s : VarSet) (y : var_t) :
    y ∈ setInsertAll xs s ↔ y ∈ xs ∨ y ∈ s := by
  unfold setInsertAll
  induction xs generalizing s with
  | nil => simp
  | cons x rest ih =>
    rw [List.foldl_cons, ih, mem_setInsert, List.mem_cons]
    tauto

theorem nodup_setInsertAll (xs : List var_t) (s : VarSet) (hs : s.Nodup) :
    (setInsertAll xs s).Nodup := by
  unfold setInsertAll
  induction xs generalizing s with
  | nil => exact hs
  | cons x rest ih =>
    rw [List.foldl_cons]
    exact ih _ (nodup_setInsert x s hs)

theorem mem_AppendVars (p : SymbolicPred) (tmp : VarSet) (y : var_t) :
    y ∈ p.AppendVars tmp ↔ y ∈ p.vars ∨ y ∈ tmp :=
  mem_setInsertAll p.vars tmp y

theorem mem_AppendVars_nil (p : SymbolicPred) (y : var_t) :
    y ∈ p.AppendVars [] ↔ y ∈ p.vars := by
  rw [mem_AppendVars]
  simp

theorem nodup_AppendVars_nil (p : SymbolicPred) : (p.AppendVars []).Nodup :=
  nodup_setInsertAll p.vars [] List.nodup_nil

theorem mapFind_isSome_iff {α : Type} (x : var_t) (m : VarMap α) :
    (mapFind x m).isSome = true ↔ x ∈ keys m := by
  induction m with
  | nil => simp [mapFind, keys]
  | cons e rest ih =>
    obtain ⟨k, v⟩ := e
    rw [mapFind_cons]
    unfold keys at ih ⊢
    rw [List.map_cons, List.mem_cons]
    split_ifs with h
    · simp [h]
    · rw [ih]
      simp [h]

theorem mapFind_eq_none_iff {α : Type} (x : var_t) (m : VarMap α) :
    mapFind x m = none ↔ x ∉ keys m := by
  rw [← mapFind_isSome_iff]
  cases mapFind x m <;> simp

theorem mapFind_mapInsert_of_none {α : Type} (k x : var_t) (v : α) (s : VarMap α)
    (hk : mapFind k s = none) :
    mapFind x (mapInsert k v s) = if x = k then some v else mapFind x s := by
  induction s with
  | nil => simp [mapInsert, mapFind]
  | cons e rest ih =>
    obtain ⟨k1, v1⟩ := e
    rw [mapFind_cons] at hk
    split_ifs at hk with hk1
    by_cases h1 : k < k1
    · have e1 : mapInsert k v ((k1, v1) :: rest) = (k, v) :: (k1, v1) :: rest := by
        simp [mapInsert, h1]
      rw [e1, mapFind_cons]
    · have e1 : mapInsert k v ((k1, v1) :: rest) = (k1, v1) :: mapInsert k v rest := by
        simp [mapInsert, h1, hk1]
      rw [e1, mapFind_cons, mapFind_cons, ih hk]
      by_cases hx : x = k
      · simp [hx, hk1]
      · simp [hx]

theorem mem_keys_mapInsert {α : Type} (k x : var_t) (v : α) (s : VarMap α)
    (hk : mapFind k s = none) : x ∈ keys (mapInsert k v s) ↔ x = k ∨ x ∈ keys s := by
  rw [← mapFind_isSome_iff, ← mapFind_isSome_iff, mapFind_mapInsert_of_none k x v s hk]
  split_ifs with h
  · simp [h]
  · simp [h]
/-! ### The dependence graph -/

theorem inDepends_set (d : List VarSet) (j : var_t) (s new : VarSet) (hj : d[j]? = some s)
    (x y : var_t) :
    inDepends (d.set j new) x y ↔ (x = j ∧ y ∈ new) ∨ (x ≠ j ∧ inDepends d x y) := by
  have hlt : j < d.length := by
    rcases List.getElem?_eq_some_iff.mp hj with ⟨h, _⟩
    exact h
  unfold inDepends
  by_cases hx : x = j
  · subst hx
    rw [List.getElem?_set_eq_of_lt _ hlt]
    constructor
    · rintro ⟨s1, h1, h2⟩
      cases h1
      exact Or.inl ⟨rfl, h2⟩
    · rintro (⟨_, h⟩ | ⟨h, _⟩)
      · exact ⟨new, rfl, h⟩
      · exact absurd rfl h
  · rw [List.getElem?_set_ne (fun h => hx h.symm)]
    constructor
    · intro h
      exact Or.inr ⟨hx, h⟩
    · rintro (⟨h, _⟩ | ⟨_, h⟩)
      · exact absurd h hx
      · exact h

theorem linkAll_spec (tmp : VarSet) (js : List var_t) (d d1 : List VarSet)
    (h : linkAll tmp js d = some d1) :
    d1.length = d.length ∧ (∀ j ∈ js, j < d.length) ∧
      ∀ x y, inDepends d1 x y ↔ inDepends d x y ∨ (x ∈ js ∧ y ∈ tmp) := by
  induction js generalizing d with
  | nil =>
    simp only [linkAll, Option.some.injEq] at h
    subst h
    simp
  | cons j rest ih =>
    rw [linkAll] at h
    cases hj : d[j]? with
    | none => simp [hj] at h
    | some s =>
      simp only [hj] at h
      obtain ⟨h1, h2, h3⟩ := ih _ h
      have hlt : j < d.length := by
        rcases List.getElem?_eq_some_iff.mp hj with ⟨hh, _⟩
        exact hh
      rw [List.length_set] at h1 h2
      refine ⟨h1, ?_, ?_⟩
      · intro i hi
        rcases List.mem_cons.mp hi with rfl | hi
        · exact hlt
        · exact h2 i hi
      · intro x y
        rw [h3, inDepends_set d j s _ hj, mem_setInsertAll, List.mem_cons]
        constructor
        · rintro ((⟨rfl, hy | hy⟩ | ⟨_, hd⟩) | ⟨hx, hy⟩)
          · exact Or.inr ⟨Or.inl rfl, hy⟩
          · exact Or.inl ⟨s, hj, hy⟩
          · exact Or.inl hd
          · exact Or.inr ⟨Or.inr hx, hy⟩
        · rintro (hd | ⟨rfl | hx, hy⟩)
          · by_cases hxj : x = j
            · subst hxj
              obtain ⟨s1, hs1, hy⟩ := hd
              rw [hj] at hs1
              cases hs1
              exact Or.inl (Or.inl ⟨rfl, Or.inr hy⟩)
            · exact Or.inl (Or.inr ⟨hxj, hd⟩)
          · exact Or.inl (Or.inl ⟨rfl, Or.inl hy⟩)
          · exact Or.inr ⟨hx, hy⟩

theorem buildDepends_spec (cs : List SymbolicPred) (d d1 : List VarSet)
    (h : buildDepends cs d = some d1) :
    d1.length = d.length ∧ (∀ p ∈ cs, ∀ x ∈ p.vars, x < d.length) ∧
      ∀ x y, inDepends d1 x y ↔ inDepends d x y ∨ coOccur cs x y := by
  induction cs generalizing d with
  | nil =>
    simp only [buildDepends, Option.some.injEq] at h
    subst h
    simp [coOccur]
  | cons p rest ih =>
    rw [buildDepends] at h
    cases hl : linkAll (p.AppendVars []) (p.AppendVars []) d with
    | none => simp [hl] at h
    | some d2 =>
      simp only [hl] at h
      obtain ⟨h1, h2, h3⟩ := ih _ h
      obtain ⟨l1, l2, l3⟩ := linkAll_spec _ _ _ _ hl
      rw [l1] at h1 h2
      refine ⟨h1, ?_, ?_⟩
      · intro q hq x hx
        rcases List.mem_cons.mp hq with rfl | hq
        · exact l2 x ((mem_AppendVars_nil _ x).mpr hx)
        · exact h2 q hq x hx
      · intro x y
        rw [h3, l3, mem_AppendVars_nil, mem_AppendVars_nil]
        unfold coOccur
        constructor
        · rintro ((hd | ⟨hx, hy⟩) | ⟨q, hq, hx, hy⟩)
          · exact Or.inl hd
          · exact Or.inr ⟨p, List.mem_cons_self _ _, hx, hy⟩
          · exact Or.inr ⟨q, List.mem_cons_of_mem _ hq, hx, hy⟩
        · rintro (hd | ⟨q, hq, hx, hy⟩)
          · exact Or.inl (Or.inl hd)
          · rcases List.mem_cons.mp hq with rfl | hq
            · exact Or.inl (Or.inr ⟨hx, hy⟩)
            · exact Or.inr ⟨q, hq, hx, hy⟩

theorem inDepends_replicate (n : ℕ) (x y : var_t) :
    ¬ inDepends (List.replicate n ([] : VarSet)) x y := by
  rintro ⟨s, hs, hy⟩
  rcases List.getElem?_eq_some_iff.mp hs with ⟨_, h2⟩
  rw [List.getElem_replicate] at h2
  subst h2
  simp at hy

/-- The graph built from empty sets: `depends[x]` holds exactly the variables
that occur together with `x` in a predicate, and every mentioned variable is an
index of `depends`. -/
theorem buildDepends_graph (cs : List SymbolicPred) (n : ℕ) (d : List VarSet)
    (h : buildDepends cs (List.replicate n []) = some d) :
    d.length = n ∧ (∀ p ∈ cs, ∀ x ∈ p.vars, x < n) ∧
      ∀ x y, inDepends d x y ↔ coOccur cs x y := by
  obtain ⟨h1, h2, h3⟩ := buildDepends_spec cs _ d h
  rw [List.length_replicate] at h1 h2
  refine ⟨h1, h2, fun x y => ?_⟩
  rw [h3]
  constructor
  · rintro (h | h)
    · exact absurd h (inDepends_replicate n x y)
    · exact h
  · exact Or.inr

/-- The graph loop has a defined outcome when every mentioned variable is an
index of `depends`. -/
theorem linkAll_isSome (tmp : VarSet) (js : List var_t) (d : List VarSet)
    (h : ∀ j ∈ js, j < d.length) : ∃ d1, linkAll tmp js d = some d1 := by
  induction js generalizing d with
  | nil => exact ⟨d, rfl⟩
  | cons j rest ih =>
    have hj : j < d.length := h j (List.mem_cons_self _ _)
    rw [linkAll, List.getElem?_eq_getElem hj]
    apply ih
    intro i hi
    rw [List.length_set]
    exact h i (List.mem_cons_of_mem _ hi)

theorem buildDepends_isSome (cs : List SymbolicPred) (d : List VarSet)
    (h : ∀ p ∈ cs, ∀ x ∈ p.vars, x < d.length) : ∃ d1, buildDepends cs d = some d1 := by
  induction cs generalizing d with
  | nil => exact ⟨d, rfl⟩
  | cons p rest ih =>
    obtain ⟨d2, hd2⟩ := linkAll_isSome (p.AppendVars []) (p.AppendVars []) d
      (fun j hj => h p (List.mem_cons_self _ _) j ((mem_AppendVars_nil p j).mp hj))
    rw [buildDepends, hd2]
    apply ih
    intro q hq x hx
    rw [(linkAll_spec _ _ _ _ hd2).1]
    exact h q (List.mem_cons_of_mem _ hq) x hx
/-! ### The search -/

theorem visit_spec (vars : VarMap type_t) (js : List var_t) (s s1 : BfsState)
    (h : visit vars js s = some s1) :
    ∃ new, s1.Q = s.Q ++ new ∧ s1.pushed = s.pushed ++ new ∧ new.Nodup ∧
      (∀ y ∈ new, y ∈ js ∧ y ∉ keys s.dependent_vars) ∧
      (∀ x, x ∈ keys s1.dependent_vars ↔ x ∈ keys s.dependent_vars ∨ x ∈ new) ∧
      (∀ y ∈ js, y ∈ keys s1.dependent_vars) ∧
      (∀ x t, mapFind x s1.dependent_vars = some t →
        mapFind x s.dependent_vars = some t ∨ mapFind x vars = some t) := by
  induction js generalizing s with
  | nil =>
    simp only [visit, Option.some.injEq] at h
    subst h
    exact ⟨[], by simp, by simp, List.nodup_nil, by simp, by simp, by simp,
      fun x t hx => Or.inl hx⟩
  | cons j rest ih =>
    rw [visit] at h
    by_cases hj : (mapFind j s.dependent_vars).isNone = true
    · rw [if_pos hj] at h
      have hjn : mapFind j s.dependent_vars = none := Option.isNone_iff_eq_none.mp hj
      cases hv : mapFind j vars with
      | none => simp [hv] at h
      | some t =>
        simp only [hv] at h
        obtain ⟨new, h1, h2, h3, h4, h5, h6, h7⟩ := ih _ h
        simp only at h1 h2 h4 h5 h7
        have hk := fun x => mem_keys_mapInsert j x t s.dependent_vars hjn
        refine ⟨j :: new, ?_, ?_, ?_, ?_, ?_, ?_, ?_⟩
        · rw [h1, List.append_assoc]
          rfl
        · rw [h2, List.append_assoc]
          rfl
        · refine List.nodup_cons.mpr ⟨fun hmem => ?_, h3⟩
          exact (h4 j hmem).2 ((hk j).mpr (Or.inl rfl))
        · intro y hy
          rcases List.mem_cons.mp hy with rfl | hy
          · exact ⟨List.mem_cons_self _ _, (mapFind_eq_none_iff _ _).mp hjn⟩
          · exact ⟨List.mem_cons_of_mem _ (h4 y hy).1,
              fun hmem => (h4 y hy).2 ((hk y).mpr (Or.inr hmem))⟩
        · intro x
          rw [h5, hk, List.mem_cons]
          tauto
        · intro y hy
          rcases List.mem_cons.mp hy with rfl | hy
          · exact (h5 y).mpr (Or.inl ((hk y).mpr (Or.inl rfl)))
          · exact h6 y hy
        · intro x t1 hx
          rcases h7 x t1 hx with h8 | h8
          · rw [mapFind_mapInsert_of_none j x t _ hjn] at h8
            split_ifs at h8 with hxj
            · cases h8
              exact Or.inr (hxj ▸ hv)
            · exact Or.inl h8
          · exact Or.inr h8
    · rw [if_neg hj] at h
      obtain ⟨new, h1, h2, h3, h4, h5, h6, h7⟩ := ih _ h
      refine ⟨new, h1, h2, h3, ?_, h5, ?_, h7⟩
      · intro y hy
        exact ⟨List.mem_cons_of_mem _ (h4 y hy).1, (h4 y hy).2⟩
      · intro y hy
        rcases List.mem_cons.mp hy with rfl | hy
        · apply (h5 y).mpr
          left
          rw [← mapFind_isSome_iff]
          cases hm : mapFind y s.dependent_vars with
          | none => simp [hm] at hj
          | some t => rfl
        · exact h6 y hy

theorem visit_isSome (vars : VarMap type_t) (js : List var_t) (s : BfsState)
    (h : ∀ j ∈ js, j ∈ keys vars) : ∃ s1, visit vars js s = some s1 := by
  induction js generalizing s with
  | nil => exact ⟨s, rfl⟩
  | cons j rest ih =>
    have hrest : ∀ i ∈ rest, i ∈ keys vars := fun i hi => h i (List.mem_cons_of_mem _ hi)
    rw [visit]
    split_ifs with hj
    · have hv := (mapFind_isSome_iff j vars).mpr (h j (List.mem_cons_self _ _))
      obtain ⟨t, ht⟩ := Option.isSome_iff_exists.mp hv
      rw [ht]
      exact ih _ hrest
    · exact ih _ hrest

theorem seed_spec (vars : VarMap type_t) (js : List var_t) (s s1 : BfsState)
    (hn : js.Nodup) (hd : ∀ j ∈ js, j ∉ keys s.dependent_vars)
    (h : seed vars js s = some s1) :
    s1.Q = s.Q ++ js ∧ s1.pushed = s.pushed ++ js ∧
      (∀ x, x ∈ keys s1.dependent_vars ↔ x ∈ keys s.dependent_vars ∨ x ∈ js) ∧
      (∀ x t, mapFind x s1.dependent_vars = some t →
        mapFind x s.dependent_vars = some t ∨ mapFind x vars = some t) := by
  induction js generalizing s with
  | nil =>
    simp only [seed, Option.some.injEq] at h
    subst h
    exact ⟨by simp, by simp, by simp, fun x t hx => Or.inl hx⟩
  | cons j rest ih =>
    rw [seed] at h
    have hjn : mapFind j s.dependent_vars = none :=
      (mapFind_eq_none_iff _ _).mpr (hd j (List.mem_cons_self _ _))
    obtain ⟨hj1, hj2⟩ := List.nodup_cons.mp hn
    cases hv : mapFind j vars with
    | none => simp [hv] at h
    | some t =>
      simp only [hv] at h
      have hd2 : ∀ i ∈ rest, i ∉ keys (mapInsert j t s.dependent_vars) := by
        intro i hi hmem
        rcases (mem_keys_mapInsert j i t _ hjn).mp hmem with rfl | h9
        · exact hj1 hi
        · exact hd i (List.mem_cons_of_mem _ hi) h9
      obtain ⟨h1, h2, h5, h7⟩ := ih _ hj2 hd2 h
      simp only at h1 h2 h5 h7
      refine ⟨?_, ?_, ?_, ?_⟩
      · rw [h1, List.append_assoc]
        rfl
      · rw [h2, List.append_assoc]
        rfl
      · intro x
        rw [h5, mem_keys_mapInsert j x t _ hjn, List.mem_cons]
        tauto
      · intro x t1 hx
        rcases h7 x t1 hx with h8 | h8
        · rw [mapFind_mapInsert_of_none j x t _ hjn] at h8
          split_ifs at h8 with hxj
          · cases h8
            exact Or.inr (hxj ▸ hv)
          · exact Or.inl h8
        · exact Or.inr h8

theorem seed_isSome (vars : VarMap type_t) (js : List var_t) (s : BfsState)
    (h : ∀ j ∈ js, j ∈ keys vars) : ∃ s1, seed vars js s = some s1 := by
  induction js generalizing s with
  | nil => exact ⟨s, rfl⟩
  | cons j rest ih =>
    have hv := (mapFind_isSome_iff j vars).mpr (h j (List.mem_cons_self _ _))
    obtain ⟨t, ht⟩ := Option.isSome_iff_exists.mp hv
    rw [seed, ht]
    exact ih _ (fun i hi => h i (List.mem_cons_of_mem _ hi))

/-- The state after seeding satisfies the invariant. -/
theorem seed_inv (vars : VarMap type_t) (depends : List VarSet) (js : List var_t)
    (s : BfsState) (hn : js.Nodup) (h : seed vars js ⟨[], [], []⟩ = some s) :
    BfsInv vars depends js s ∧ s.Q = js ∧ s.pushed = js := by
  obtain ⟨h1, h2, h3, h4⟩ := seed_spec vars js _ s hn (by simp [keys]) h
  simp only [List.nil_append] at h1 h2
  have h3a : ∀ x, x ∈ keys s.dependent_vars ↔ x ∈ js := by
    intro x
    rw [h3]
    simp [keys]
  refine ⟨⟨?_, ?_, ?_, ?_, ?_, ?_, ?_⟩, h1, h2⟩
  · rw [h2]
    exact hn
  · intro x
    rw [h2]
    exact h3a x
  · exact ⟨[], by rw [h1, h2]; rfl⟩
  · intro x t hx
    rcases h4 x t hx with h5 | h5
    · simp [mapFind] at h5
    · exact h5
  · intro x hx
    rw [h2] at hx
    exact ⟨x, hx, Relation.ReflTransGen.refl⟩
  · intro x hx
    rw [h2] at hx
    rw [h1]
    exact Or.inl hx
  · intro r hr
    rw [h2]
    exact hr
/-- One execution of the loop body keeps the invariant. -/
theorem bfs_step_inv (vars : VarMap type_t) (depends : List VarSet) (seeds : List var_t)
    (dv : VarMap type_t) (i : var_t) (Q pushed js : List var_t) (s : BfsState)
    (hinv : BfsInv vars depends seeds ⟨dv, i :: Q, pushed⟩) (hi : depends[i]? = some js)
    (hv : visit vars js ⟨dv, Q, pushed⟩ = some s) : BfsInv vars depends seeds s := by
  obtain ⟨new, h1, h2, h3, h4, h5, h6, h7⟩ := visit_spec vars js _ s hv
  simp only at h1 h2 h4 h5 h7
  obtain ⟨i1, i2, ⟨popped, i3⟩, i4, i5, i6, i7⟩ := hinv
  simp only at i1 i2 i3 i4 i5 i6 i7
  have hip : i ∈ pushed := by
    rw [i3]
    simp
  refine ⟨?_, ?_, ?_, ?_, ?_, ?_, ?_⟩
  · rw [h2]
    refine List.Nodup.append i1 h3 ?_
    intro x hx hx2
    exact (h4 x hx2).2 ((i2 x).mpr hx)
  · intro x
    rw [h5, h2, List.mem_append, i2]
  · refine ⟨popped ++ [i], ?_⟩
    rw [h1, h2, i3]
    simp
  · intro x t hx
    rcases h7 x t hx with h8 | h8
    · exact i4 x t h8
    · exact h8
  · intro x hx
    rw [h2, List.mem_append] at hx
    rcases hx with hx | hx
    · exact i5 x hx
    · obtain ⟨r, hr, hri⟩ := i5 i hip
      exact ⟨r, hr, hri.tail ⟨js, hi, (h4 x hx).1⟩⟩
  · intro x hx
    rw [h2, List.mem_append] at hx
    rw [h1, h2]
    rcases hx with hx | hx
    · rcases i6 x hx with h9 | h9
      · rcases List.mem_cons.mp h9 with rfl | h9
        · right
          rintro y ⟨js1, hjs1, hy⟩
          rw [hi] at hjs1
          cases hjs1
          have := (h5 y).mp (h6 y hy)
          rw [i2] at this
          exact List.mem_append.mpr this
        · exact Or.inl (List.mem_append_left _ h9)
      · right
        intro y hy
        exact List.mem_append_left _ (h9 y hy)
    · exact Or.inl (List.mem_append_right _ hx)
  · intro r hr
    rw [h2]
    exact List.mem_append_left _ (i7 r hr)

/-- When the loop exits, the invariant holds and the queue is empty. -/
theorem bfs_spec (vars : VarMap type_t) (depends : List VarSet) (seeds : List var_t)
    (fuel : ℕ) (s s1 : BfsState) (hinv : BfsInv vars depends seeds s)
    (h : bfs vars depends fuel s = some s1) : BfsInv vars depends seeds s1 ∧ s1.Q = [] := by
  induction fuel generalizing s with
  | zero =>
    obtain ⟨dv, Q, pushed⟩ := s
    cases Q with
    | nil =>
      simp only [bfs, Option.some.injEq] at h
      subst h
      exact ⟨hinv, rfl⟩
    | cons i Q => simp [bfs] at h
  | succ fuel ih =>
    obtain ⟨dv, Q, pushed⟩ := s
    cases Q with
    | nil =>
      simp only [bfs, Option.some.injEq] at h
      subst h
      exact ⟨hinv, rfl⟩
    | cons i Q =>
      rw [bfs] at h
      cases hi : depends[i]? with
      | none => simp [hi] at h
      | some js =>
        simp only [hi] at h
        cases hv : visit vars js ⟨dv, Q, pushed⟩ with
        | none => simp [hv] at h
        | some s2 =>
          simp only [hv] at h
          exact ih s2 (bfs_step_inv vars depends seeds dv i Q pushed js s2 hinv hi hv) h

theorem pushed_length_le (vars : VarMap type_t) (depends : List VarSet) (seeds : List var_t)
    (s : BfsState) (hinv : BfsInv vars depends seeds s) : s.pushed.length ≤ vars.length := by
  have hsub : s.pushed ⊆ keys vars := by
    intro x hx
    have hk := (hinv.keys_pushed x).mpr hx
    rw [← mapFind_isSome_iff] at hk
    obtain ⟨t, ht⟩ := Option.isSome_iff_exists.mp hk
    rw [← mapFind_isSome_iff, hinv.typed x t ht]
    rfl
  have := (List.subperm_of_subset hinv.nodup hsub).length_le
  simpa [keys] using this

/-- The loop exits within the executions of its body that are left when
`popped` variables have been taken out of the queue, provided every access
has a defined outcome: the keys of `vars` are indices of `depends` and the
elements of its sets are keys of `vars`. -/
theorem bfs_isSome (vars : VarMap type_t) (depends : List VarSet) (seeds : List var_t)
    (hidx : ∀ x ∈ keys vars, x < depends.length)
    (hfind : ∀ x y, inDepends depends x y → y ∈ keys vars)
    (fuel : ℕ) (s : BfsState) (popped : List var_t) (hinv : BfsInv vars depends seeds s)
    (hp : s.pushed = popped ++ s.Q) (hfuel : vars.length ≤ fuel + popped.length) :
    ∃ s1, bfs vars depends fuel s = some s1 := by
  induction fuel generalizing s popped with
  | zero =>
    obtain ⟨dv, Q, pushed⟩ := s
    cases Q with
    | nil => exact ⟨_, rfl⟩
    | cons i Q =>
      have h1 := pushed_length_le vars depends seeds _ hinv
      simp only at hp h1
      rw [hp, List.length_append, List.length_cons] at h1
      omega
  | succ fuel ih =>
    obtain ⟨dv, Q, pushed⟩ := s
    cases Q with
    | nil => exact ⟨_, rfl⟩
    | cons i Q =>
      simp only at hp
      have hip : i ∈ pushed := by
        rw [hp]
        simp
      have hik : i ∈ keys vars := by
        have hk := (hinv.keys_pushed i).mpr hip
        rw [← mapFind_isSome_iff] at hk
        obtain ⟨t, ht⟩ := Option.isSome_iff_exists.mp hk
        rw [← mapFind_isSome_iff, hinv.typed i t ht]
        rfl
      have hlt := hidx i hik
      obtain ⟨s2, hs2⟩ := visit_isSome vars (depends[i]) ⟨dv, Q, pushed⟩
        (fun j hj => hfind i j ⟨depends[i], List.getElem?_eq_getElem hlt, hj⟩)
      have hinv2 := bfs_step_inv vars depends seeds dv i Q pushed _ s2 hinv
        (List.getElem?_eq_getElem hlt) hs2
      obtain ⟨new, h1, h2, _⟩ := visit_spec vars _ _ s2 hs2
      simp only at h1 h2
      rw [bfs, List.getElem?_eq_getElem hlt]
      simp only [hs2]
      apply ih s2 (popped ++ [i]) hinv2
      · rw [h1, h2, hp]
        simp
      · rw [List.length_append, List.length_singleton]
        omega

/-- More executions of the body than the loop needs change nothing. -/
theorem bfs_mono (vars : VarMap type_t) (depends : List VarSet) (fuel : ℕ) (s s1 : BfsState)
    (h : bfs vars depends fuel s = some s1) (more : ℕ) :
    bfs vars depends (fuel + more) s = some s1 := by
  induction fuel generalizing s with
  | zero =>
    obtain ⟨dv, Q, pushed⟩ := s
    cases Q with
    | nil =>
      rw [← h]
      cases more <;> rfl
    | cons i Q => simp [bfs] at h
  | succ fuel ih =>
    obtain ⟨dv, Q, pushed⟩ := s
    cases Q with
    | nil =>
      rw [← h]
      cases hm : fuel + 1 + more <;> rfl
    | cons i Q =>
      rw [bfs] at h
      have e : fuel + 1 + more = (fuel + more) + 1 := by omega
      rw [e, bfs]
      cases hi : depends[i]? with
      | none => simp [hi] at h
      | some js =>
        simp only [hi] at h ⊢
        cases hv : visit vars js ⟨dv, Q, pushed⟩ with
        | none => simp [hv] at h
        | some s2 =>
          simp only [hv] at h ⊢
          exact ih s2 h

/-! ### The dependent variables -/

theorem searchState_spec (vars : VarMap type_t) (cs : List SymbolicPred) (s : BfsState)
    (h : searchState vars cs = some s) :
    ∃ d last s0, buildDepends cs (List.replicate vars.length []) = some d ∧
      cs.getLast? = some last ∧ seed vars (last.AppendVars []) ⟨[], [], []⟩ = some s0 ∧
      s0.Q = last.AppendVars [] ∧ s0.pushed = last.AppendVars [] ∧
      bfs vars d vars.length s0 = some s ∧ BfsInv vars d (last.AppendVars []) s ∧ s.Q = [] := by
  unfold searchState at h
  cases hd : buildDepends cs (List.replicate vars.length []) with
  | none => simp [hd] at h
  | some d =>
    cases hl : cs.getLast? with
    | none => simp [hd, hl] at h
    | some last =>
      cases hs : seed vars (last.AppendVars []) ⟨[], [], []⟩ with
      | none => simp [hd, hl, hs] at h
      | some s0 =>
        simp only [hd, hl, hs] at h
        obtain ⟨hinv0, hq0, hp0⟩ := seed_inv vars d _ s0 (nodup_AppendVars_nil last) hs
        obtain ⟨hinv, hq⟩ := bfs_spec vars d _ _ s0 s hinv0 h
        exact ⟨d, last, s0, rfl, rfl, hs, hq0, hp0, h, hinv, hq⟩

theorem getLast?_mem (cs : List SymbolicPred) (last : SymbolicPred)
    (h : cs.getLast? = some last) : last ∈ cs :=
  List.mem_of_getLast?_eq_some h

/-- When the search exits, the keys of `dependent_vars` are exactly the
variables connected to the last predicate, and each has its entry of `vars`. -/
theorem searchState_keys (vars : VarMap type_t) (cs : List SymbolicPred) (s : BfsState)
    (h : searchState vars cs = some s) :
    (∀ x, x ∈ keys s.dependent_vars ↔ connected cs x) ∧
      (∀ x t, mapFind x s.dependent_vars = some t → mapFind x vars = some t) := by
  obtain ⟨d, last, s0, hd, hl, _, _, _, _, hinv, hq⟩ := searchState_spec vars cs s h
  obtain ⟨_, _, hg⟩ := buildDepends_graph cs _ d hd
  have hrel : ∀ a b, Relation.ReflTransGen (inDepends d) a b ↔
      Relation.ReflTransGen (coOccur cs) a b := by
    intro a b
    constructor
    · exact Relation.ReflTransGen.mono (fun x y hxy => (hg x y).mp hxy)
    · exact Relation.ReflTransGen.mono (fun x y hxy => (hg x y).mpr hxy)
  refine ⟨fun x => ?_, hinv.typed⟩
  rw [hinv.keys_pushed]
  constructor
  · intro hx
    obtain ⟨r, hr, hrx⟩ := hinv.reached x hx
    exact ⟨last, hl, r, (mem_AppendVars_nil last r).mp hr, (hrel r x).mp hrx⟩
  · rintro ⟨last1, hl1, r, hr, hrx⟩
    rw [hl] at hl1
    cases hl1
    have hr0 : r ∈ s.pushed := hinv.seeded r ((mem_AppendVars_nil last r).mpr hr)
    induction hrx with
    | refl => exact hr0
    | tail _ hbc ih =>
      rcases hinv.closed _ ih with h1 | h1
      · rw [hq] at h1
        simp at h1
      · exact h1 _ ((hg _ _).mpr hbc)

/-- The search has a defined outcome when the list of predicates is not empty,
the keys of `vars` are below `vars.size()`, and every mentioned variable is a key
of `vars`. -/
theorem searchState_isSome (vars : VarMap type_t) (cs : List SymbolicPred) (hne : cs ≠ [])
    (hkeys : ∀ x ∈ keys vars, x < vars.length)
    (hdecl : ∀ p ∈ cs, ∀ x ∈ p.vars, x ∈ keys vars) : ∃ s, searchState vars cs = some s := by
  obtain ⟨d, hd⟩ := buildDepends_isSome cs (List.replicate vars.length [])
    (fun p hp x hx => by
      rw [List.length_replicate]
      exact hkeys x (hdecl p hp x hx))
  obtain ⟨hlen, _, hg⟩ := buildDepends_graph cs _ d hd
  obtain ⟨last, hl⟩ : ∃ last, cs.getLast? = some last := by
    cases hc : cs.getLast? with
    | none => exact absurd (List.getLast?_eq_none_iff.mp hc) hne
    | some last => exact ⟨last, rfl⟩
  have hlast := getLast?_mem cs last hl
  obtain ⟨s0, hs0⟩ := seed_isSome vars (last.AppendVars []) ⟨[], [], []⟩
    (fun j hj => hdecl last hlast j ((mem_AppendVars_nil last j).mp hj))
  obtain ⟨hinv0, hq0, hp0⟩ := seed_inv vars d _ s0 (nodup_AppendVars_nil last) hs0
  obtain ⟨s, hs⟩ := bfs_isSome vars d (last.AppendVars [])
    (fun x hx => by
      rw [hlen]
      exact hkeys x hx)
    (fun x y hxy => by
      obtain ⟨p, hp, _, hy⟩ := (hg x y).mp hxy
      exact hdecl p hp y hy)
    vars.length s0 [] hinv0 (by rw [hq0, hp0]; rfl) (by simp)
  refine ⟨s, ?_⟩
  unfold searchState
  simp only [hd, hl, hs0, hs]

/-- A connected variable is mentioned by a predicate. -/
theorem connected_referenced (cs : List SymbolicPred) (x : var_t) (h : connected cs x) :
    referenced cs x := by
  obtain ⟨last, hl, r, hr, hrx⟩ := h
  induction hrx with
  | refl => exact ⟨last, getLast?_mem cs last hl, hr⟩
  | tail _ hbc _ =>
    obtain ⟨p, hp, _, hy⟩ := hbc
    exact ⟨p, hp, hy⟩

/-- Variables that occur together are connected together. -/
theorem connected_coOccur (cs : List SymbolicPred) (x y : var_t) (h : connected cs x)
    (hxy : coOccur cs x y) : connected cs y := by
  obtain ⟨last, hl, r, hr, hrx⟩ := h
  exact ⟨last, hl, r, hr, hrx.tail hxy⟩

/-- The variables of the last predicate are connected. -/
theorem connected_last (cs : List SymbolicPred) (last : SymbolicPred)
    (hl : cs.getLast? = some last) (x : var_t) (hx : x ∈ last.vars) : connected cs x :=
  ⟨last, hl, x, hx, Relation.ReflTransGen.refl⟩

theorem DependsOn_iff (p : SymbolicPred) (dv : VarMap type_t) :
    p.DependsOn dv = true ↔ ∀ x ∈ p.vars, x ∈ keys dv := by
  unfold SymbolicPred.DependsOn
  rw [List.all_eq_true]
  constructor
  · intro h x hx
    exact (mapFind_isSome_iff x dv).mp (h x hx)
  · intro h x hx
    exact (mapFind_isSome_iff x dv).mpr (h x hx)

/-- A predicate of the list outside the slice mentions no dependent variable. -/
theorem not_DependsOn_disjoint (vars : VarMap type_t) (cs : List SymbolicPred) (s : BfsState)
    (h : searchState vars cs = some s) (p : SymbolicPred) (hp : p ∈ cs)
    (hdep : p.DependsOn s.dependent_vars = false) :
    ∀ y ∈ p.vars, y ∉ keys s.dependent_vars := by
  obtain ⟨hk, _⟩ := searchState_keys vars cs s h
  intro y hy hmem
  have hnot : ¬ (p.DependsOn s.dependent_vars = true) := by
    rw [hdep]
    simp
  apply hnot
  rw [DependsOn_iff]
  intro x hx
  exact (hk x).mpr (connected_coOccur cs y x ((hk y).mp hmem) ⟨p, hp, hy, hx⟩)
/-! ### The sliced call and the merge -/

theorem readModel_keys (Y : Yices) (model : var_t → ℚ) (vars : VarMap type_t)
    (s : VarMap value_t) (x : var_t) :
    x ∈ keys (readModel Y model vars s) ↔ x ∈ keys vars ∨ x ∈ keys s := by
  constructor
  · intro hx
    induction vars generalizing s with
    | nil => exact Or.inr hx
    | cons e rest ih =>
      obtain ⟨k, t⟩ := e
      rw [readModel] at hx
      rcases ih _ hx with h | h
      · exact Or.inl (List.mem_cons_of_mem _ h)
      · rw [← mapFind_isSome_iff] at h
        obtain ⟨w, hw⟩ := Option.isSome_iff_exists.mp h
        rcases mapFind_mapInsert_some _ _ _ _ _ hw with ⟨rfl, _⟩ | h2
        · exact Or.inl (List.mem_cons_self _ _)
        · right
          rw [← mapFind_isSome_iff, h2]
          rfl
  · intro hx
    rw [← mapFind_isSome_iff]
    apply (readModel_spec Y model vars s).1
    rcases hx with hx | hx
    · exact Or.inl hx
    · exact Or.inr ((mapFind_isSome_iff x s).mpr hx)

/-- A call of `Solve` that returns true leaves exactly one entry per variable
of `vars`. -/
theorem Solve_true_keys (Y : Yices) (L : ℕ) (vars : VarMap type_t) (cs : List SymbolicPred)
    (soln0 soln : VarMap value_t) (h : Solve Y L vars cs soln0 = some (true, soln)) (x : var_t) :
    x ∈ keys soln ↔ x ∈ keys vars := by
  obtain ⟨f, m, _, _, rfl⟩ := Solve_true Y L vars cs soln0 soln h
  rw [readModel_keys]
  simp [keys]

/-- A call of `Solve` that returns false leaves `*soln` as it was. -/
theorem Solve_false (Y : Yices) (L : ℕ) (vars : VarMap type_t) (cs : List SymbolicPred)
    (soln0 soln : VarMap value_t) (h : Solve Y L vars cs soln0 = some (false, soln)) :
    soln = soln0 := by
  rw [Solve] at h
  cases hf : buildFormula L vars cs with
  | none => simp [hf] at h
  | some f =>
    cases hm : Y.check_formula f with
    | none =>
      simp only [hf, hm, Option.some.injEq, Prod.mk.injEq, true_and] at h
      exact h.symm
    | some m => simp [hf, hm] at h

/-- The merge keeps every entry and gives each other variable of `tmp` its
element of `old_soln`. -/
theorem mergeOld_spec (old_soln : List value_t) (is : List var_t) (soln out : VarMap value_t)
    (h : mergeOld old_soln is soln = some out) (x : var_t) :
    mapFind x out =
      if (mapFind x soln).isSome then mapFind x soln
      else if x ∈ is then old_soln[x]? else none := by
  induction is generalizing soln with
  | nil =>
    simp only [mergeOld, Option.some.injEq] at h
    subst h
    cases mapFind x soln <;> simp
  | cons i rest ih =>
    rw [mergeOld] at h
    by_cases hi : (mapFind i soln).isNone = true
    · rw [if_pos hi] at h
      have hin : mapFind i soln = none := Option.isNone_iff_eq_none.mp hi
      cases ho : old_soln[i]? with
      | none => simp [ho] at h
      | some v =>
        simp only [ho] at h
        rw [ih _ h, mapFind_mapInsert_of_none i x v soln hin]
        by_cases hx : x = i
        · subst hx
          simp [hin, ho]
        · simp [hx]
    · rw [if_neg hi] at h
      rw [ih _ h]
      by_cases hx : x = i
      · subst hx
        have : (mapFind x soln).isSome = true := by
          cases hm : mapFind x soln with
          | none => simp [hm] at hi
          | some v => rfl
        simp [this]
      · simp [hx]

theorem mergeOld_isSome (old_soln : List value_t) (is : List var_t) (soln : VarMap value_t)
    (h : ∀ i ∈ is, i < old_soln.length) : ∃ out, mergeOld old_soln is soln = some out := by
  induction is generalizing soln with
  | nil => exact ⟨soln, rfl⟩
  | cons i rest ih =>
    have hrest : ∀ j ∈ rest, j < old_soln.length := fun j hj => h j (List.mem_cons_of_mem _ hj)
    rw [mergeOld]
    split_ifs with hi
    · rw [List.getElem?_eq_getElem (h i (List.mem_cons_self _ _))]
      exact ih _ hrest
    · exact ih _ hrest

theorem mem_foldl_AppendVars (cs : List SymbolicPred) (tmp : VarSet) (x : var_t) :
    x ∈ cs.foldl (fun acc p => p.AppendVars acc) tmp ↔ referenced cs x ∨ x ∈ tmp := by
  induction cs generalizing tmp with
  | nil => simp [referenced]
  | cons p rest ih =>
    rw [List.foldl_cons, ih, mem_AppendVars]
    unfold referenced
    constructor
    · rintro (⟨q, hq, hx⟩ | hx | hx)
      · exact Or.inl ⟨q, List.mem_cons_of_mem _ hq, hx⟩
      · exact Or.inl ⟨p, List.mem_cons_self _ _, hx⟩
      · exact Or.inr hx
    · rintro (⟨q, hq, hx⟩ | hx)
      · rcases List.mem_cons.mp hq with rfl | hq
        · exact Or.inr (Or.inl hx)
        · exact Or.inl ⟨q, hq, hx⟩
      · exact Or.inr (Or.inr hx)

/-- At the merge, `tmp` holds exactly the mentioned variables. -/
theorem mem_mergeVars (cs : List SymbolicPred) (x : var_t) :
    x ∈ mergeVars cs ↔ referenced cs x := by
  unfold mergeVars
  rw [mem_foldl_AppendVars]
  constructor
  · rintro (h | h)
    · exact h
    · cases hl : cs.getLast? with
      | none =>
        rw [hl] at h
        simp at h
      | some last =>
        rw [hl] at h
        exact ⟨last, getLast?_mem cs last hl, (mem_AppendVars_nil last x).mp h⟩
  · exact Or.inl

/-- The steps behind a defined outcome of `IncrementalSolve`. -/
theorem IncrementalSolve_spec (Y : Yices) (L : ℕ) (old_soln : List value_t)
    (vars : VarMap type_t) (cs : List SymbolicPred) (soln0 : VarMap value_t) (b : Bool)
    (out : VarMap value_t) (h : IncrementalSolve Y L old_soln vars cs soln0 = some (b, out)) :
    ∃ s solved, searchState vars cs = some s ∧
      Solve Y L s.dependent_vars (dependent_constraints s.dependent_vars cs) [] =
        some (b, solved) ∧
      (b = true → mergeOld old_soln (mergeVars cs) solved = some out) ∧
      (b = false → out = solved) := by
  unfold IncrementalSolve at h
  cases hs : searchState vars cs with
  | none => simp [hs] at h
  | some s =>
    simp only [hs] at h
    cases hv : Solve Y L s.dependent_vars (dependent_constraints s.dependent_vars cs) [] with
    | none => simp [hv] at h
    | some r =>
      obtain ⟨b1, solved⟩ := r
      cases b1 with
      | true =>
        simp only [hv] at h
        cases hm : mergeOld old_soln (mergeVars cs) solved with
        | none => simp [hm] at h
        | some merged =>
          simp only [hm, Option.map_some', Option.some.injEq, Prod.mk.injEq] at h
          obtain ⟨rfl, rfl⟩ := h
          exact ⟨s, solved, rfl, hv, fun _ => hm, fun hb => by simp at hb⟩
      | false =>
        simp only [hv, Option.some.injEq, Prod.mk.injEq] at h
        obtain ⟨rfl, rfl⟩ := h
        exact ⟨s, solved, rfl, hv, fun hb => by simp at hb, fun _ => rfl⟩
/-! ### The scenario -/

theorem makeYicesNum_neg100 : makeYicesNum (-100) = some (Term.num (-100)) := by
  have h := makeYicesNum_intCast (-100) (by norm_num)
  push_cast at h
  exact h

/-- The formula built for `y : INT` and the single predicate `y - 100 > 0`. -/
theorem buildFormula_y_gt_100 (longBits : ℕ) (hL : longBits = 32 ∨ longBits = 64) :
    buildFormula longBits [(1, type_t.INT)] [⟨ops.GT, ⟨-100, [(1, 1)]⟩⟩] =
      some [Atom.geq (Term.var 1) (Term.num (-2147483648)),
        Atom.leq (Term.var 1) (Term.num 2147483647),
        Atom.cmp0 Cmp0.gt0 (yices_sum [Term.num (-100), Term.mul (Term.var 1) (Term.num 1)])] := by
  have hm : mulTerms [(1, type_t.INT)] [(1, 1)] = some [Term.mul (Term.var 1) (Term.num 1)] :=
    mulTerms_cons _ _ _ _ _ _ (by simp) makeYicesNum_one (mulTerms_nil _)
  have hp : predAtom [(1, type_t.INT)] ⟨ops.GT, ⟨-100, [(1, 1)]⟩⟩ = some (Atom.cmp0 Cmp0.gt0
      (yices_sum [Term.num (-100), Term.mul (Term.var 1) (Term.num 1)])) :=
    predAtom_eq _ _ _ _ _ makeYicesNum_neg100 hm (by decide)
  exact buildFormula_eq _ _ _ _ _
    (declAtoms_cons _ _ _ _ _ _ _ (min_expr_INT longBits hL) (max_expr_INT longBits hL)
      (declAtoms_nil _))
    (predAtoms_cons _ _ _ _ _ hp (predAtoms_nil _))

/-- The search of the scenario visits `y` only. -/
theorem frame_searchState :
    searchState frameVars frameConstraints = some ⟨[(1, type_t.INT)], [], [1]⟩ := by
  decide

theorem frame_dependent_constraints :
    dependent_constraints [(1, type_t.INT)] frameConstraints = [⟨ops.GT, ⟨-100, [(1, 1)]⟩⟩] := by
  rfl

theorem frame_mergeVars : mergeVars frameConstraints = [0, 1] := by
  decide

theorem frame_Solve : Solve frameYices 32 [(1, type_t.INT)] [⟨ops.GT, ⟨-100, [(1, 1)]⟩⟩] [] =
    some (true, [(1, 101)]) := by
  rw [Solve, buildFormula_y_gt_100 32 (Or.inl rfl)]
  simp [frameYices, readModel, mapInsert]

theorem frame_Solve_unsat :
    Solve unsatYices 32 [(1, type_t.INT)] [⟨ops.GT, ⟨-100, [(1, 1)]⟩⟩] [] = some (false, []) := by
  rw [Solve, buildFormula_y_gt_100 32 (Or.inl rfl)]
  simp [unsatYices]

theorem frame_mergeOld : mergeOld frameOld [0, 1] [(1, 101)] = some [(0, 3), (1, 101)] := by
  simp [mergeOld, mapFind, mapInsert, frameOld]

/-- The unfolding of `IncrementalSolve` along given outcomes of its steps. -/
theorem IncrementalSolve_eq (Y : Yices) (L : ℕ) (old_soln : List value_t)
    (vars : VarMap type_t) (cs : List SymbolicPred) (soln0 : VarMap value_t) (s : BfsState)
    (dc : List SymbolicPred) (b : Bool) (solved : VarMap value_t)
    (hs : searchState vars cs = some s) (hdc : dependent_constraints s.dependent_vars cs = dc)
    (hv : Solve Y L s.dependent_vars dc [] = some (b, solved)) :
    IncrementalSolve Y L old_soln vars cs soln0 =
      if b then (mergeOld old_soln (mergeVars cs) solved).map fun merged => (true, merged)
      else some (false, solved) := by
  subst hdc
  unfold IncrementalSolve
  rw [hs]
  simp only
  rw [hv]
  cases b <;> simp

/-- The scenario evaluated: the call returns true with `x = 3` kept and
`y = 101` from the sliced call, whatever `*soln` held. -/
theorem frame_eval (soln0 : VarMap value_t) :
    IncrementalSolve frameYices 32 frameOld frameVars frameConstraints soln0 =
      some (true, [(0, 3), (1, 101)]) := by
  rw [IncrementalSolve_eq frameYices 32 frameOld frameVars frameConstraints soln0 _ _ _ _
    frame_searchState frame_dependent_constraints frame_Solve, frame_mergeVars, frame_mergeOld]
  rfl

/-- The scenario with a procedure that finds nothing satisfiable: the call
returns false with an empty map, whatever `*soln` held. -/
theorem frame_eval_unsat (soln0 : VarMap value_t) :
    IncrementalSolve unsatYices 32 frameOld frameVars frameConstraints soln0 =
      some (false, []) := by
  rw [IncrementalSolve_eq unsatYices 32 frameOld frameVars frameConstraints soln0 _ _ _ _
    frame_searchState frame_dependent_constraints frame_Solve_unsat]
  rfl

theorem frame_not_connected : ¬ connected frameConstraints 0 := by
  intro h
  have := ((searchState_keys frameVars frameConstraints _ frame_searchState).1 0).mpr h
  simp [keys] at this

/-! ### `IncrementalSolve`: further lemmas -/

/-- After the merge every variable of `tmp` has an entry. -/
theorem mergeOld_covers (old_soln : List value_t) (is : List var_t) (soln out : VarMap value_t)
    (h : mergeOld old_soln is soln = some out) (x : var_t) (hx : x ∈ is) :
    (mapFind x out).isSome = true := by
  induction is generalizing soln with
  | nil => simp at hx
  | cons i rest ih =>
    rw [mergeOld] at h
    by_cases hi : (mapFind i soln).isNone = true
    · rw [if_pos hi] at h
      have hin : mapFind i soln = none := Option.isNone_iff_eq_none.mp hi
      cases ho : old_soln[i]? with
      | none => simp [ho] at h
      | some v =>
        simp only [ho] at h
        rcases List.mem_cons.mp hx with rfl | hx
        · rw [mergeOld_spec old_soln rest _ out h x, mapFind_mapInsert_of_none x x v soln hin]
          simp
        · exact ih _ h hx
    · rw [if_neg hi] at h
      rcases List.mem_cons.mp hx with rfl | hx
      · have hsome : (mapFind x soln).isSome = true := by
          cases hm : mapFind x soln with
          | none => simp [hm] at hi
          | some v => rfl
        rw [mergeOld_spec old_soln rest _ out h x, if_pos hsome]
        exact hsome
      · exact ih _ h hx

theorem frame_old_holds : ∀ p ∈ frameConstraints.dropLast, p.holds (oldAssignment frameOld) := by
  intro p hp
  have : p = ⟨ops.EQ, ⟨-3, [(0, 1)]⟩⟩ := by
    simpa [frameConstraints] using hp
  subst this
  norm_num [SymbolicPred.holds, compareHolds, SymbolicExpr.eval, oldAssignment, frameOld, ops.EQ]

theorem frame_solved_holds :
    ∀ p ∈ dependent_constraints [(1, type_t.INT)] frameConstraints,
      p.holds (assignmentOf [(1, 101)]) := by
  intro p hp
  rw [frame_dependent_constraints] at hp
  have : p = ⟨ops.GT, ⟨-100, [(1, 1)]⟩⟩ := by
    simpa using hp
  subst this
  norm_num [SymbolicPred.holds, compareHolds, SymbolicExpr.eval, assignmentOf, mapFind, ops.EQ,
    ops.GT, ops.NEQ]

/-- The loop needs no more executions of its body than there are pushed
variables. -/
theorem bfs_exact (vars : VarMap type_t) (depends : List VarSet) (fuel : ℕ) (s s1 : BfsState)
    (popped : List var_t) (h : bfs vars depends fuel s = some s1)
    (hp : s.pushed = popped ++ s.Q) :
    popped.length ≤ s1.pushed.length ∧
      bfs vars depends (s1.pushed.length - popped.length) s = some s1 := by
  induction fuel generalizing s popped with
  | zero =>
    obtain ⟨dv, Q, pushed⟩ := s
    cases Q with
    | nil =>
      simp only [bfs, Option.some.injEq] at h
      subst h
      simp only [List.append_nil] at hp
      subst hp
      exact ⟨le_refl _, by rw [Nat.sub_self]; rfl⟩
    | cons i Q => simp [bfs] at h
  | succ fuel ih =>
    obtain ⟨dv, Q, pushed⟩ := s
    cases Q with
    | nil =>
      simp only [bfs, Option.some.injEq] at h
      subst h
      simp only [List.append_nil] at hp
      subst hp
      exact ⟨le_refl _, by rw [Nat.sub_self]; rfl⟩
    | cons i Q =>
      rw [bfs] at h
      cases hi : depends[i]? with
      | none => simp [hi] at h
      | some js =>
        simp only [hi] at h
        cases hv : visit vars js ⟨dv, Q, pushed⟩ with
        | none => simp [hv] at h
        | some s2 =>
          simp only [hv] at h
          obtain ⟨new, h1, h2, _⟩ := visit_spec vars js _ s2 hv
          simp only at h1 h2 hp
          obtain ⟨hle, hrun⟩ := ih s2 (popped ++ [i]) h (by rw [h1, h2, hp]; simp)
          rw [List.length_append, List.length_singleton] at hle hrun
          refine ⟨by omega, ?_⟩
          have e : s1.pushed.length - popped.length =
              (s1.pushed.length - (popped.length + 1)) + 1 := by omega
          rw [e, bfs]
          simp only [hi, hv]
          exact hrun

/-- The executions given to the loop body in `searchState` always suffice: a
run of the loop from a seeded state that ends with any number of executions
ends with `vars.size()` of them, in the same state. -/
theorem bfs_fuel_enough (vars : VarMap type_t) (depends : List VarSet) (js : List var_t)
    (hn : js.Nodup) (s0 s : BfsState) (fuel : ℕ) (h0 : seed vars js ⟨[], [], []⟩ = some s0)
    (h : bfs vars depends fuel s0 = some s) : bfs vars depends vars.length s0 = some s := by
  obtain ⟨hinv0, hq0, hp0⟩ := seed_inv vars depends js s0 hn h0
  obtain ⟨hinv, _⟩ := bfs_spec vars depends js fuel s0 s hinv0 h
  have hex := (bfs_exact vars depends fuel s0 s [] h (by rw [hq0, hp0]; rfl)).2
  simp only [List.length_nil, Nat.sub_zero] at hex
  have hle := pushed_length_le vars depends js s hinv
  have := bfs_mono vars depends _ s0 s hex (vars.length - s.pushed.length)
  rwa [Nat.add_sub_cancel' hle] at this

theorem yices_int64_none (n : ℤ) (h : 2 ^ 63 ≤ n) : yices_int64 (n : ℚ) = none := by
  unfold yices_int64 toIntegral
  rw [trunc_intCast, if_neg]
  · rfl
  · rintro ⟨_, h2⟩
    simp only [intMax, if_true] at h2
    omega

/-- Where `long` is 32 bits wide, the bound terms of the eight integer types up
to `long` are the numbers the text tables denote. -/
theorem bound_terms_narrow (t : type_t)
    (ht : t ∈ [type_t.U_CHAR, type_t.CHAR, type_t.U_SHORT, type_t.SHORT, type_t.U_INT,
      type_t.INT, type_t.U_LONG, type_t.LONG]) :
    min_expr 32 t = (minValueStr t).map Term.num ∧
      max_expr 32 t = (maxValueStr t).map Term.num := by
  have key : ∀ n : ℤ, -2 ^ 63 ≤ n → n ≤ 2 ^ 63 - 1 → yices_int64 (n : ℚ) = some (Term.num n) :=
    yices_int64_intCast
  have k1 := key 0 (by norm_num) (by norm_num)
  have k2 := key (-128) (by norm_num) (by norm_num)
  have k3 := key (-32768) (by norm_num) (by norm_num)
  have k4 := key (-2147483648) (by norm_num) (by norm_num)
  have k5 := key 255 (by norm_num) (by norm_num)
  have k6 := key 127 (by norm_num) (by norm_num)
  have k7 := key 65535 (by norm_num) (by norm_num)
  have k8 := key 32767 (by norm_num) (by norm_num)
  have k9 := key 4294967295 (by norm_num) (by norm_num)
  have k10 := key 2147483647 (by norm_num) (by norm_num)
  push_cast at k1 k2 k3 k4 k5 k6 k7 k8 k9 k10
  simp only [List.mem_cons, List.mem_singleton, List.not_mem_nil, or_false] at ht
  rw [minValueStr_eq, maxValueStr_eq]
  unfold min_expr max_expr minValue maxValue
  rw [kMinValue_32, kMaxValue_32]
  rcases ht with rfl | rfl | rfl | rfl | rfl | rfl | rfl | rfl <;>
    simp [type_t.toNat, minText, maxText, k1, k2, k3, k4, k5, k6, k7, k8, k9, k10]

/-! ### `IncrementalSolve`: the properties -/

/-- C11: whenever `IncrementalSolve` returns true, the returned solution has
an entry for every variable mentioned by any predicate of `constraints`. -/
theorem IncrementalSolve_covers (Y : Yices) (longBits : ℕ) (old_soln : List value_t)
    (vars : VarMap type_t) (constraints : List SymbolicPred) (soln0 out : VarMap value_t)
    (h : IncrementalSolve Y longBits old_soln vars constraints soln0 = some (true, out)) :
    ∀ p ∈ constraints, ∀ x ∈ p.vars, (mapFind x out).isSome = true := by
  obtain ⟨s, solved, _, _, hm, _⟩ := IncrementalSolve_spec Y longBits old_soln vars constraints
    soln0 true out h
  intro p hp x hx
  exact mergeOld_covers old_soln _ solved out (hm rfl) x
    ((mem_mergeVars constraints x).mpr ⟨p, hp, hx⟩)

theorem IncrementalSolve_covers_witness :
    IncrementalSolve frameYices 32 frameOld frameVars frameConstraints [] =
        some (true, [(0, 3), (1, 101)]) ∧
      ∀ p ∈ frameConstraints, ∀ x ∈ p.vars, (mapFind x ([(0, 3), (1, 101)] : VarMap value_t)).isSome = true :=
  ⟨frame_eval [], IncrementalSolve_covers frameYices 32 frameOld frameVars frameConstraints []
    [(0, 3), (1, 101)] (frame_eval [])⟩

/-- C12: whenever `IncrementalSolve` returns true, every variable mentioned in
`constraints` that is not connected to a variable of the last predicate has in
the returned solution exactly its element of `old_soln`, and every connected
variable has the value the sliced call of `Solve` left for it. -/
theorem IncrementalSolve_frame (Y : Yices) (longBits : ℕ) (old_soln : List value_t)
    (vars : VarMap type_t) (constraints : List SymbolicPred) (soln0 out : VarMap value_t)
    (h : IncrementalSolve Y longBits old_soln vars constraints soln0 = some (true, out)) :
    (∀ x, referenced constraints x → ¬ connected constraints x →
      ∃ v, old_soln[x]? = some v ∧ mapFind x out = some v) ∧
    ∃ s solved, searchState vars constraints = some s ∧
      Solve Y longBits s.dependent_vars (dependent_constraints s.dependent_vars constraints) [] =
        some (true, solved) ∧
      ∀ x, connected constraints x → ∃ v, mapFind x solved = some v ∧ mapFind x out = some v := by
  obtain ⟨s, solved, hs, hv, hm, _⟩ := IncrementalSolve_spec Y longBits old_soln vars
    constraints soln0 true out h
  have hm := hm rfl
  obtain ⟨hk, _⟩ := searchState_keys vars constraints s hs
  have hsk := Solve_true_keys Y longBits _ _ _ solved hv
  refine ⟨fun x hx hnc => ?_, s, solved, hs, hv, fun x hc => ?_⟩
  · have hnone : mapFind x solved = none := by
      rw [mapFind_eq_none_iff, hsk, hk]
      exact hnc
    have hcov := mergeOld_covers old_soln _ solved out hm x ((mem_mergeVars constraints x).mpr hx)
    have heq := mergeOld_spec old_soln _ solved out hm x
    rw [hnone] at heq
    simp only [Option.isSome_none, Bool.false_eq_true, if_false,
      if_pos ((mem_mergeVars constraints x).mpr hx)] at heq
    obtain ⟨v, hv1⟩ := Option.isSome_iff_exists.mp hcov
    exact ⟨v, by rw [← heq, hv1], hv1⟩
  · have hsome : (mapFind x solved).isSome = true := by
      rw [mapFind_isSome_iff, hsk, hk]
      exact hc
    obtain ⟨v, hv1⟩ := Option.isSome_iff_exists.mp hsome
    refine ⟨v, hv1, ?_⟩
    rw [mergeOld_spec old_soln _ solved out hm x, if_pos hsome, hv1]

theorem IncrementalSolve_frame_witness :
    IncrementalSolve frameYices 32 frameOld frameVars frameConstraints [] =
        some (true, [(0, 3), (1, 101)]) ∧
      referenced frameConstraints 0 ∧ ¬ connected frameConstraints 0 ∧
      ∃ v, frameOld[0]? = some v ∧ mapFind 0 ([(0, 3), (1, 101)] : VarMap value_t) = some v :=
  ⟨frame_eval [], ⟨⟨ops.EQ, ⟨-3, [(0, 1)]⟩⟩, by simp [frameConstraints], by simp [SymbolicPred.vars]⟩,
    frame_not_connected,
    (IncrementalSolve_frame frameYices 32 frameOld frameVars frameConstraints []
      [(0, 3), (1, 101)] (frame_eval [])).1 0
      ⟨⟨ops.EQ, ⟨-3, [(0, 1)]⟩⟩, by simp [frameConstraints], by simp [SymbolicPred.vars]⟩
      frame_not_connected⟩

/-- C13: if some predicate mentions a variable that is not connected to a
variable of the last predicate, the list of dependent constraints is strictly
shorter than `constraints`, and the keys of `dependent_vars` are a strict part
of the mentioned variables. -/
theorem slice_strictly_smaller (vars : VarMap type_t) (constraints : List SymbolicPred)
    (s : BfsState) (h : searchState vars constraints = some s)
    (hex : ∃ p ∈ constraints, ∃ x ∈ p.vars, ¬ connected constraints x) :
    (dependent_constraints s.dependent_vars constraints).length < constraints.length ∧
      (keys s.dependent_vars).toFinset ⊂ (mergeVars constraints).toFinset ∧
      (keys s.dependent_vars).toFinset.card < (mergeVars constraints).toFinset.card := by
  obtain ⟨hk, _⟩ := searchState_keys vars constraints s h
  obtain ⟨p, hp, x, hx, hnc⟩ := hex
  have hss : (keys s.dependent_vars).toFinset ⊂ (mergeVars constraints).toFinset := by
    rw [Finset.ssubset_iff_of_subset]
    · refine ⟨x, ?_, ?_⟩
      · rw [List.mem_toFinset, mem_mergeVars]
        exact ⟨p, hp, hx⟩
      · rw [List.mem_toFinset, hk]
        exact hnc
    · intro y hy
      rw [List.mem_toFinset] at hy ⊢
      rw [mem_mergeVars]
      exact connected_referenced constraints y ((hk y).mp hy)
  refine ⟨?_, hss, Finset.card_lt_card hss⟩
  unfold dependent_constraints
  rw [List.length_filter_lt_length_iff_exists]
  refine ⟨p, hp, ?_⟩
  rw [DependsOn_iff]
  intro hall
  exact hnc ((hk x).mp (hall x hx))

theorem slice_strictly_smaller_witness :
    searchState frameVars frameConstraints = some ⟨[(1, type_t.INT)], [], [1]⟩ ∧
      (∃ p ∈ frameConstraints, ∃ x ∈ p.vars, ¬ connected frameConstraints x) ∧
      (dependent_constraints [(1, type_t.INT)] frameConstraints).length <
        frameConstraints.length ∧
      (keys [(1, type_t.INT)]).toFinset ⊂ (mergeVars frameConstraints).toFinset ∧
      (keys [(1, type_t.INT)]).toFinset.card < (mergeVars frameConstraints).toFinset.card :=
  ⟨frame_searchState,
    ⟨⟨ops.EQ, ⟨-3, [(0, 1)]⟩⟩, by simp [frameConstraints], 0, by simp [SymbolicPred.vars],
      frame_not_connected⟩,
    slice_strictly_smaller frameVars frameConstraints _ frame_searchState
      ⟨⟨ops.EQ, ⟨-3, [(0, 1)]⟩⟩, by simp [frameConstraints], 0, by simp [SymbolicPred.vars],
        frame_not_connected⟩⟩

/-- C14: when the search loop has ended, the keys of `dependent_vars` are
exactly the variables reached from a variable of the last predicate by zero or
more co-occurrence edges, and each is mapped to its type in `vars`. -/
theorem dependent_vars_reachable (vars : VarMap type_t) (constraints : List SymbolicPred)
    (s : BfsState) (h : searchState vars constraints = some s) :
    (∀ x, x ∈ keys s.dependent_vars ↔ connected constraints x) ∧
      (∀ x t, mapFind x s.dependent_vars = some t → mapFind x vars = some t) ∧ s.Q = [] := by
  obtain ⟨h1, h2⟩ := searchState_keys vars constraints s h
  obtain ⟨_, _, _, _, _, _, _, _, _, _, hq⟩ := searchState_spec vars constraints s h
  exact ⟨h1, h2, hq⟩

theorem dependent_vars_reachable_witness :
    searchState frameVars frameConstraints = some ⟨[(1, type_t.INT)], [], [1]⟩ ∧
      (∀ x, x ∈ keys [(1, type_t.INT)] ↔ connected frameConstraints x) ∧
      (∀ x t, mapFind x [(1, type_t.INT)] = some t → mapFind x frameVars = some t) ∧
      ([] : List var_t) = [] :=
  ⟨frame_searchState, dependent_vars_reachable frameVars frameConstraints _ frame_searchState⟩

/-- C15: the list of dependent constraints is the sub-sequence of
`constraints`, in the original order, of the predicates whose every mentioned
variable is a key of `dependent_vars`; these are the predicates all of whose
variables are connected to the last predicate; the last predicate and every
predicate without a variable are among them. -/
theorem dependent_constraints_spec (vars : VarMap type_t) (constraints : List SymbolicPred)
    (s : BfsState) (h : searchState vars constraints = some s) :
    dependent_constraints s.dependent_vars constraints =
        constraints.filter (fun p => decide (∀ x ∈ p.vars, x ∈ keys s.dependent_vars)) ∧
      List.Sublist (dependent_constraints s.dependent_vars constraints) constraints ∧
      (∀ p, p ∈ dependent_constraints s.dependent_vars constraints ↔
        p ∈ constraints ∧ ∀ x ∈ p.vars, connected constraints x) ∧
      (∀ last, constraints.getLast? = some last →
        last ∈ dependent_constraints s.dependent_vars constraints) ∧
      (∀ p ∈ constraints, p.vars = [] →
        p ∈ dependent_constraints s.dependent_vars constraints) := by
  obtain ⟨hk, _⟩ := searchState_keys vars constraints s h
  have hmem : ∀ p, p ∈ dependent_constraints s.dependent_vars constraints ↔
      p ∈ constraints ∧ ∀ x ∈ p.vars, connected constraints x := by
    intro p
    unfold dependent_constraints
    rw [List.mem_filter, DependsOn_iff]
    constructor
    · rintro ⟨hp, hall⟩
      exact ⟨hp, fun x hx => (hk x).mp (hall x hx)⟩
    · rintro ⟨hp, hall⟩
      exact ⟨hp, fun x hx => (hk x).mpr (hall x hx)⟩
  refine ⟨?_, List.filter_sublist _, hmem, ?_, ?_⟩
  · unfold dependent_constraints
    apply List.filter_congr
    intro p _
    by_cases hd : p.DependsOn s.dependent_vars = true
    · rw [hd]
      exact (decide_eq_true ((DependsOn_iff p _).mp hd)).symm
    · have hd2 : ¬ ∀ x ∈ p.vars, x ∈ keys s.dependent_vars :=
        fun hall => hd ((DependsOn_iff p _).mpr hall)
      rw [Bool.not_eq_true] at hd
      rw [hd]
      exact (decide_eq_false hd2).symm
  · intro last hl
    exact (hmem last).mpr ⟨getLast?_mem constraints last hl,
      fun x hx => connected_last constraints last hl x hx⟩
  · intro p hp hv
    refine (hmem p).mpr ⟨hp, fun x hx => ?_⟩
    rw [hv] at hx
    simp at hx

theorem dependent_constraints_spec_witness :
    searchState frameVars frameConstraints = some ⟨[(1, type_t.INT)], [], [1]⟩ ∧
      dependent_constraints [(1, type_t.INT)] frameConstraints =
        frameConstraints.filter (fun p => decide (∀ x ∈ p.vars, x ∈ keys [(1, type_t.INT)])) ∧
      dependent_constraints [(1, type_t.INT)] frameConstraints =
        [⟨ops.GT, ⟨-100, [(1, 1)]⟩⟩] :=
  ⟨frame_searchState,
    (dependent_constraints_spec frameVars frameConstraints _ frame_searchState).1,
    frame_dependent_constraints⟩

/-- C16: if `old_soln` satisfies every predicate of `constraints` except
possibly the last, and the sliced call of `Solve` returns an assignment that
satisfies every dependent constraint, then the merged solution returned by
`IncrementalSolve` satisfies every predicate of `constraints`. -/
theorem slice_soundness (Y : Yices) (longBits : ℕ) (old_soln : List value_t)
    (vars : VarMap type_t) (constraints : List SymbolicPred) (soln0 out : VarMap value_t)
    (s : BfsState) (solved : VarMap value_t)
    (h : IncrementalSolve Y longBits old_soln vars constraints soln0 = some (true, out))
    (hs : searchState vars constraints = some s)
    (hv : Solve Y longBits s.dependent_vars
      (dependent_constraints s.dependent_vars constraints) [] = some (true, solved))
    (hold : ∀ p ∈ constraints.dropLast, p.holds (oldAssignment old_soln))
    (hsolved : ∀ p ∈ dependent_constraints s.dependent_vars constraints,
      p.holds (assignmentOf solved)) :
    ∀ p ∈ constraints, p.holds (assignmentOf out) := by
  obtain ⟨s1, solved1, hs1, hv1, hm, _⟩ := IncrementalSolve_spec Y longBits old_soln vars
    constraints soln0 true out h
  rw [hs] at hs1
  cases hs1
  rw [hv] at hv1
  cases hv1
  have hm := hm rfl
  have hsk := Solve_true_keys Y longBits _ _ _ solved hv
  obtain ⟨hk, _⟩ := searchState_keys vars constraints s hs
  intro p hp
  by_cases hd : p.DependsOn s.dependent_vars = true
  · have hin : p ∈ dependent_constraints s.dependent_vars constraints := by
      unfold dependent_constraints
      exact List.mem_filter.mpr ⟨hp, hd⟩
    refine (SymbolicPred.holds_congr p _ _ fun x hx => ?_).mpr (hsolved p hin)
    have hsome : (mapFind x solved).isSome = true := by
      rw [mapFind_isSome_iff, hsk]
      exact (DependsOn_iff p _).mp hd x hx
    unfold assignmentOf
    rw [mergeOld_spec old_soln _ solved out hm x, if_pos hsome]
  · rw [Bool.not_eq_true] at hd
    have hdis := not_DependsOn_disjoint vars constraints s hs p hp hd
    have hpold : p.holds (oldAssignment old_soln) := by
      apply hold
      cases hl : constraints.getLast? with
      | none =>
        rw [List.getLast?_eq_none_iff] at hl
        rw [hl] at hp
        simp at hp
      | some last =>
        have hlast : last.DependsOn s.dependent_vars = true := by
          rw [DependsOn_iff]
          intro x hx
          exact (hk x).mpr (connected_last constraints last hl x hx)
        have hne : p ≠ last := by
          intro he
          rw [he, hlast] at hd
          simp at hd
        have hsplit : constraints = constraints.dropLast ++ [last] := by
          have := List.dropLast_append_getLast? last hl
          exact this.symm
        rw [hsplit, List.mem_append] at hp
        rcases hp with hp | hp
        · exact hp
        · exact absurd (List.mem_singleton.mp hp) hne
    refine (SymbolicPred.holds_congr p _ _ fun x hx => ?_).mpr hpold
    have hnone : mapFind x solved = none := by
      rw [mapFind_eq_none_iff, hsk]
      exact hdis x hx
    unfold assignmentOf oldAssignment
    rw [mergeOld_spec old_soln _ solved out hm x, hnone]
    simp only [Option.isSome_none, Bool.false_eq_true, if_false]
    rw [if_pos ((mem_mergeVars constraints x).mpr ⟨p, hp, hx⟩)]

theorem slice_soundness_witness :
    IncrementalSolve frameYices 32 frameOld frameVars frameConstraints [] =
        some (true, [(0, 3), (1, 101)]) ∧
      (∀ p ∈ frameConstraints.dropLast, p.holds (oldAssignment frameOld)) ∧
      (∀ p ∈ dependent_constraints [(1, type_t.INT)] frameConstraints,
        p.holds (assignmentOf [(1, 101)])) ∧
      ∀ p ∈ frameConstraints, p.holds (assignmentOf [(0, 3), (1, 101)]) :=
  ⟨frame_eval [], frame_old_holds, frame_solved_holds,
    slice_soundness frameYices 32 frameOld frameVars frameConstraints [] [(0, 3), (1, 101)]
      ⟨[(1, type_t.INT)], [], [1]⟩ [(1, 101)] (frame_eval []) frame_searchState frame_Solve
      frame_old_holds frame_solved_holds⟩

/-- C17: the bound terms of the integer types as the code builds them.  The
entries of `kMaxValue` for `U_LONG_LONG` and `LONG_LONG` are `2 ^ 64` and
`2 ^ 63`, which `yices_int64` cannot take, so neither upper bound term is
determined, while the text table holds `18446744073709551615`; their lower
bound terms are `0` and `-2 ^ 63`; where `long` is 32 bits wide the terms of
the other eight integer types are the bounds the text tables denote. -/
theorem bound_terms_long_long (longBits : ℕ) :
    maxValue longBits type_t.U_LONG_LONG = 18446744073709551616 ∧
      max_expr longBits type_t.U_LONG_LONG = none ∧
      maxValueStr type_t.U_LONG_LONG = some 18446744073709551615 ∧
      maxValue longBits type_t.LONG_LONG = 9223372036854775808 ∧
      max_expr longBits type_t.LONG_LONG = none ∧
      min_expr longBits type_t.U_LONG_LONG = some (Term.num 0) ∧
      min_expr longBits type_t.LONG_LONG = some (Term.num (-9223372036854775808)) ∧
      ∀ t ∈ [type_t.U_CHAR, type_t.CHAR, type_t.U_SHORT, type_t.SHORT, type_t.U_INT,
          type_t.INT, type_t.U_LONG, type_t.LONG],
        min_expr 32 t = (minValueStr t).map Term.num ∧
          max_expr 32 t = (maxValueStr t).map Term.num := by
  have e64 := ofIntegral_max64
  have e63 := ofIntegral_max63
  have m63 := ofIntegral_pow63
  have hU : maxValue longBits type_t.U_LONG_LONG = 18446744073709551616 := by
    simp only [maxValue, kMaxValue, type_t.toNat, List.getD_cons_succ, List.getD_cons_zero,
      intMax, Bool.false_eq_true, if_false]
    norm_num at e64 ⊢
    exact e64
  have hS : maxValue longBits type_t.LONG_LONG = 9223372036854775808 := by
    simp only [maxValue, kMaxValue, type_t.toNat, List.getD_cons_succ, List.getD_cons_zero,
      intMax, if_true]
    norm_num at e63 ⊢
    exact e63
  have hU0 : minValue longBits type_t.U_LONG_LONG = 0 := by
    simp only [minValue, kMinValue, type_t.toNat, List.getD_cons_succ, List.getD_cons_zero,
      intMin, Bool.false_eq_true, if_false]
    exact_mod_cast ofIntegral_small 0 (by norm_num)
  have hS0 : minValue longBits type_t.LONG_LONG = -9223372036854775808 := by
    simp only [minValue, kMinValue, type_t.toNat, List.getD_cons_succ, List.getD_cons_zero,
      intMin, if_true]
    norm_num at m63 ⊢
    exact m63
  have n64 := yices_int64_none 18446744073709551616 (by norm_num)
  have n63 := yices_int64_none 9223372036854775808 (by norm_num)
  have p0 := yices_int64_intCast 0 (by norm_num) (by norm_num)
  have p63 := yices_int64_intCast (-9223372036854775808) (by norm_num) (by norm_num)
  push_cast at n64 n63 p0 p63
  refine ⟨hU, ?_, ?_, hS, ?_, ?_, ?_, bound_terms_narrow⟩
  · simp [max_expr, type_t.toNat, hU, n64]
  · rw [maxValueStr_eq]
    simp [maxText, type_t.toNat]
  · simp [max_expr, type_t.toNat, hS, n63]
  · simp [min_expr, type_t.toNat, hU0, p0]
  · simp [min_expr, type_t.toNat, hS0, p63]

/-- C18: whenever `IncrementalSolve` returns false the output map is empty,
whatever it held on entry; whenever it returns true the map holds the value
the sliced call of `Solve` left for every variable of the slice, and a value
for every mentioned variable. -/
theorem IncrementalSolve_no_partial (Y : Yices) (longBits : ℕ) (old_soln : List value_t)
    (vars : VarMap type_t) (constraints : List SymbolicPred) (soln0 : VarMap value_t)
    (b : Bool) (out : VarMap value_t)
    (h : IncrementalSolve Y longBits old_soln vars constraints soln0 = some (b, out)) :
    (b = false → out = []) ∧
    (b = true → ∃ s solved, searchState vars constraints = some s ∧
      Solve Y longBits s.dependent_vars (dependent_constraints s.dependent_vars constraints) [] =
        some (true, solved) ∧
      (∀ x ∈ keys s.dependent_vars, ∃ v, mapFind x solved = some v ∧ mapFind x out = some v) ∧
      (∀ x, referenced constraints x → (mapFind x out).isSome = true)) := by
  obtain ⟨s, solved, hs, hv, hm, hf⟩ := IncrementalSolve_spec Y longBits old_soln vars
    constraints soln0 b out h
  refine ⟨fun hb => ?_, fun hb => ?_⟩
  · subst hb
    rw [hf rfl]
    exact Solve_false Y longBits _ _ [] solved hv
  · subst hb
    have hm := hm rfl
    have hsk := Solve_true_keys Y longBits _ _ _ solved hv
    refine ⟨s, solved, hs, hv, fun x hx => ?_, fun x hx => ?_⟩
    · have hsome : (mapFind x solved).isSome = true := by
        rw [mapFind_isSome_iff, hsk]
        exact hx
      obtain ⟨v, hv1⟩ := Option.isSome_iff_exists.mp hsome
      refine ⟨v, hv1, ?_⟩
      rw [mergeOld_spec old_soln _ solved out hm x, if_pos hsome, hv1]
    · exact mergeOld_covers old_soln _ solved out hm x ((mem_mergeVars constraints x).mpr hx)

theorem IncrementalSolve_no_partial_witness :
    IncrementalSolve unsatYices 32 frameOld frameVars frameConstraints [(0, 9), (5, 9)] =
        some (false, []) ∧
      ((false = false → ([] : VarMap value_t) = []) ∧
      (false = true → ∃ s solved, searchState frameVars frameConstraints = some s ∧
        Solve unsatYices 32 s.dependent_vars
          (dependent_constraints s.dependent_vars frameConstraints) [] = some (true, solved) ∧
        (∀ x ∈ keys s.dependent_vars, ∃ v, mapFind x solved = some v ∧
          mapFind x ([] : VarMap value_t) = some v) ∧
        (∀ x, referenced frameConstraints x →
          (mapFind x ([] : VarMap value_t)).isSome = true))) :=
  ⟨frame_eval_unsat _, IncrementalSolve_no_partial unsatYices 32 frameOld frameVars
    frameConstraints [(0, 9), (5, 9)] false [] (frame_eval_unsat _)⟩

/-- C19: when `constraints` is not empty, the keys of `vars` are exactly
`0 .. vars.size()-1`, every mentioned variable is a key of `vars` and `old_soln`
has at least `vars.size()` elements, every access has a defined outcome: the
graph, the seeding and the search yield a state, the merge yields a map
whatever `Solve` left, and the call is without outcome only when the call of
`Solve` is. -/
theorem IncrementalSolve_safe (Y : Yices) (longBits : ℕ) (old_soln : List value_t)
    (vars : VarMap type_t) (constraints : List SymbolicPred) (soln0 : VarMap value_t)
    (hne : constraints ≠ []) (hkeys : ∀ x, x ∈ keys vars ↔ x < vars.length)
    (hdecl : ∀ p ∈ constraints, ∀ x ∈ p.vars, x ∈ keys vars)
    (hold : vars.length ≤ old_soln.length) :
    ∃ depends last s0 s, buildDepends constraints (List.replicate vars.length []) = some depends ∧
      constraints.getLast? = some last ∧
      seed vars (last.AppendVars []) ⟨[], [], []⟩ = some s0 ∧
      bfs vars depends vars.length s0 = some s ∧
      searchState vars constraints = some s ∧
      (∀ solved, ∃ out, mergeOld old_soln (mergeVars constraints) solved = some out) ∧
      (IncrementalSolve Y longBits old_soln vars constraints soln0 = none ↔
        Solve Y longBits s.dependent_vars
          (dependent_constraints s.dependent_vars constraints) [] = none) := by
  obtain ⟨s, hs⟩ := searchState_isSome vars constraints hne (fun x hx => (hkeys x).mp hx) hdecl
  obtain ⟨d, last, s0, hd, hl, hs0, _, _, hb, _, _⟩ := searchState_spec vars constraints s hs
  have hmerge : ∀ solved, ∃ out, mergeOld old_soln (mergeVars constraints) solved = some out := by
    intro solved
    apply mergeOld_isSome
    intro i hi
    obtain ⟨p, hp, hx⟩ := (mem_mergeVars constraints i).mp hi
    exact lt_of_lt_of_le ((hkeys i).mp (hdecl p hp i hx)) hold
  refine ⟨d, last, s0, s, hd, hl, hs0, hb, hs, hmerge, ?_⟩
  cases hv : Solve Y longBits s.dependent_vars
      (dependent_constraints s.dependent_vars constraints) [] with
  | none =>
    simp only [iff_true]
    unfold IncrementalSolve
    rw [hs]
    simp only [hv]
  | some r =>
    obtain ⟨b, solved⟩ := r
    rw [IncrementalSolve_eq Y longBits old_soln vars constraints soln0 s _ b solved hs rfl hv]
    obtain ⟨out, hout⟩ := hmerge solved
    cases b <;> simp [hout]

theorem IncrementalSolve_safe_witness :
    frameConstraints ≠ [] ∧ (∀ x, x ∈ keys frameVars ↔ x < frameVars.length) ∧
      (∀ p ∈ frameConstraints, ∀ x ∈ p.vars, x ∈ keys frameVars) ∧
      frameVars.length ≤ frameOld.length ∧
      ∃ depends last s0 s,
        buildDepends frameConstraints (List.replicate frameVars.length []) = some depends ∧
        frameConstraints.getLast? = some last ∧
        seed frameVars (last.AppendVars []) ⟨[], [], []⟩ = some s0 ∧
        bfs frameVars depends frameVars.length s0 = some s ∧
        searchState frameVars frameConstraints = some s ∧
        (∀ solved, ∃ out, mergeOld frameOld (mergeVars frameConstraints) solved = some out) ∧
        (IncrementalSolve frameYices 32 frameOld frameVars frameConstraints [] = none ↔
          Solve frameYices 32 s.dependent_vars
            (dependent_constraints s.dependent_vars frameConstraints) [] = none) :=
  have h1 : frameConstraints ≠ [] := by simp [frameConstraints]
  have h2 : ∀ x, x ∈ keys frameVars ↔ x < frameVars.length := by
    intro x
    have e : ∀ n : ℕ, (n = 0 ∨ n = 1) ↔ n < 2 := by
      intro n
      omega
    simpa [keys, frameVars] using e x
  have h3 : ∀ p ∈ frameConstraints, ∀ x ∈ p.vars, x ∈ keys frameVars := by
    intro p hp x hx
    simp only [frameConstraints, List.mem_cons, List.mem_singleton, List.not_mem_nil,
      or_false] at hp
    rcases hp with rfl | rfl <;> simp [SymbolicPred.vars] at hx <;> subst hx <;>
      simp [keys, frameVars]
  have h4 : frameVars.length ≤ frameOld.length := by decide
  ⟨h1, h2, h3, h4, IncrementalSolve_safe frameYices 32 frameOld frameVars frameConstraints []
    h1 h2 h3 h4⟩

/-- C20: when `constraints` is not empty, the keys of `vars` are exactly
`0 .. vars.size()-1` and every mentioned variable is a key of `vars`, the search
loop ends: it exits with an empty queue within `vars.size()` executions of its
body (more change nothing), one execution per pushed variable at most, and no
variable is pushed twice; the pushed variables are the keys of
`dependent_vars`. -/
theorem bfs_terminates (vars : VarMap type_t) (constraints : List SymbolicPred)
    (hne : constraints ≠ []) (hkeys : ∀ x, x ∈ keys vars ↔ x < vars.length)
    (hdecl : ∀ p ∈ constraints, ∀ x ∈ p.vars, x ∈ keys vars) :
    ∃ depends last s0 s, buildDepends constraints (List.replicate vars.length []) = some depends ∧
      constraints.getLast? = some last ∧
      seed vars (last.AppendVars []) ⟨[], [], []⟩ = some s0 ∧
      bfs vars depends vars.length s0 = some s ∧
      (∀ more, bfs vars depends (vars.length + more) s0 = some s) ∧
      bfs vars depends s.pushed.length s0 = some s ∧
      s.Q = [] ∧ s.pushed.Nodup ∧ s.pushed.length ≤ vars.length ∧
      ∀ x, x ∈ s.pushed ↔ x ∈ keys s.dependent_vars := by
  obtain ⟨s, hs⟩ := searchState_isSome vars constraints hne (fun x hx => (hkeys x).mp hx) hdecl
  obtain ⟨d, last, s0, hd, hl, hs0, hq0, hp0, hb, hinv, hq⟩ :=
    searchState_spec vars constraints s hs
  have hex := (bfs_exact vars d _ s0 s [] hb (by rw [hq0, hp0]; rfl)).2
  simp only [List.length_nil, Nat.sub_zero] at hex
  exact ⟨d, last, s0, s, hd, hl, hs0, hb, fun more => bfs_mono vars d _ s0 s hb more, hex, hq,
    hinv.nodup, pushed_length_le vars d _ s hinv, fun x => (hinv.keys_pushed x).symm⟩

theorem bfs_terminates_witness :
    frameConstraints ≠ [] ∧ (∀ x, x ∈ keys frameVars ↔ x < frameVars.length) ∧
      (∀ p ∈ frameConstraints, ∀ x ∈ p.vars, x ∈ keys frameVars) ∧
      ∃ depends last s0 s,
        buildDepends frameConstraints (List.replicate frameVars.length []) = some depends ∧
        frameConstraints.getLast? = some last ∧
        seed frameVars (last.AppendVars []) ⟨[], [], []⟩ = some s0 ∧
        bfs frameVars depends frameVars.length s0 = some s ∧
        (∀ more, bfs frameVars depends (frameVars.length + more) s0 = some s) ∧
        bfs frameVars depends s.pushed.length s0 = some s ∧
        s.Q = [] ∧ s.pushed.Nodup ∧ s.pushed.length ≤ frameVars.length ∧
        ∀ x, x ∈ s.pushed ↔ x ∈ keys s.dependent_vars :=
  have h1 : frameConstraints ≠ [] := by simp [frameConstraints]
  have h2 : ∀ x, x ∈ keys frameVars ↔ x < frameVars.length := by
    intro x
    have e : ∀ n : ℕ, (n = 0 ∨ n = 1) ↔ n < 2 := by
      intro n
      omega
    simpa [keys, frameVars] using e x
  have h3 : ∀ p ∈ frameConstraints, ∀ x ∈ p.vars, x ∈ keys frameVars := by
    intro p hp x hx
    simp only [frameConstraints, List.mem_cons, List.mem_singleton, List.not_mem_nil,
      or_false] at hp
    rcases hp with rfl | rfl <;> simp [SymbolicPred.vars] at hx <;> subst hx <;>
      simp [keys, frameVars]
  ⟨h1, h2, h3, bfs_terminates frameVars frameConstraints h1 h2 h3⟩

/-! ### Further properties of the code -/

theorem fmt_lf_small : fmt_lf (1 / 2 ^ 24) = ['0', '.', '0', '0', '0', '0', '0', '0'] := by
  have hr : roundHalfEven (|(1 / 2 ^ 24 : ℚ)| * 10 ^ 6) = 0 := by
    rw [roundHalfEven_eval _ 0 (by rw [Int.floor_eq_iff]; norm_num [abs_of_pos])]
    norm_num [abs_of_pos]
  unfold fmt_lf
  rw [hr]
  norm_num [natToDigits, frac6]
  decide

theorem makeYicesNum_of_text (v : value_t) (cs : List Char) (d : Decimal) (q : ℚ)
    (h1 : (fmt_lf v).take 31 = cs) (h2 : parseDecimal cs = some d) (h3 : d.toRat = q) :
    makeYicesNum v = some (Term.num q) := by
  unfold makeYicesNum yices_parse_float snprintf
  show Option.map Term.num (Option.map Decimal.toRat (parseDecimal (List.take (32 - 1) _))) = _
  rw [show 32 - 1 = 31 from rfl, h1, h2, Option.map_some', h3, Option.map_some']

theorem natToDigits_2p110 : natToDigits (2 ^ 110) =
    ['1', '2', '9', '8', '0', '7', '4', '2', '1', '4', '6', '3', '3', '7', '0', '6', '9', '0',
      '7', '1', '3', '2', '6', '2', '4', '0', '8', '2', '3', '0', '5', '0', '2', '4'] := by
  have h : Nat.digits 10 (2 ^ 110) = [4, 2, 0, 5, 0, 3, 2, 8, 0, 4, 2, 6, 2, 3, 1, 7, 0, 9, 6,
      0, 7, 3, 3, 6, 4, 1, 2, 4, 7, 0, 8, 9, 2, 1] := by norm_num
  unfold natToDigits
  rw [if_neg (by norm_num), h]
  decide

/-- Extra: `makeYicesNum` hands every integer of at most 23 digits to Yices
exactly. -/
theorem makeYicesNum_exact_on_integers (n : ℤ) (h : |n| < 10 ^ 23) :
    makeYicesNum (n : ℚ) = some (Term.num (n : ℚ)) :=
  makeYicesNum_intCast n h

theorem makeYicesNum_exact_on_integers_witness :
    makeYicesNum (((-2147483648 : ℤ) : ℚ)) = some (Term.num (((-2147483648 : ℤ) : ℚ))) :=
  makeYicesNum_exact_on_integers (-2147483648) (by norm_num)

/-- Extra: `makeYicesNum` does not pass every `double` exactly: `"%lf"` keeps
six decimals, so `2^-24` reaches Yices as 0; the buffer keeps 31 characters,
so `2^110` (34 digits) reaches Yices as its first 31 digits. -/
theorem makeYicesNum_loses_digits :
    isDouble (1 / 2 ^ 24) ∧ makeYicesNum (1 / 2 ^ 24) = some (Term.num 0) ∧
      isDouble (2 ^ 110) ∧
      makeYicesNum (2 ^ 110) = some (Term.num 1298074214633706907132624082305) := by
  refine ⟨?_, ?_, ?_, ?_⟩
  · have := roundNE_grid 53 (by norm_num) (-1074) 1 (-24) (by norm_num) (by norm_num)
    refine ⟨?_, by unfold DBL_MAX; norm_num [abs_of_pos]⟩
    unfold roundDouble
    norm_num at this ⊢
    exact this
  · exact makeYicesNum_of_text _ ['0', '.', '0', '0', '0', '0', '0', '0'] ⟨false, 0, 0, 6, 0⟩ 0
      (by rw [fmt_lf_small]; rfl) (by decide) (by norm_num [Decimal.toRat])
  · have := roundNE_grid 53 (by norm_num) (-1074) 1 110 (by norm_num) (by norm_num)
    refine ⟨?_, by unfold DBL_MAX; norm_num [abs_of_pos]⟩
    unfold roundDouble
    norm_num at this ⊢
    exact this
  · have hf := fmt_lf_intCast (2 ^ 110)
    have hn : (2 ^ 110 : ℤ).natAbs = 2 ^ 110 := by norm_num
    rw [hn, natToDigits_2p110, show (((2 : ℤ) ^ 110 : ℤ) : ℚ) = 2 ^ 110 by norm_num] at hf
    refine makeYicesNum_of_text _
      ['1', '2', '9', '8', '0', '7', '4', '2', '1', '4', '6', '3', '3', '7', '0', '6', '9', '0',
        '7', '1', '3', '2', '6', '2', '4', '0', '8', '2', '3', '0', '5']
      ⟨false, 1298074214633706907132624082305, 0, 0, 0⟩ _ ?_ (by decide)
      (by norm_num [Decimal.toRat])
    rw [hf]
    simp

/-- Extra: the numeric lower bounds of `FLOAT` and `DOUBLE` are the smallest
positive normal numbers (`2^-126` and `2^-1022`), while the textual lower bounds
are the negated largest numbers. -/
theorem float_lower_bounds (longBits : ℕ) :
    (minValue longBits type_t.FLOAT = FLT_MIN ∧ 0 < FLT_MIN) ∧
      (minValue longBits type_t.DOUBLE = DBL_MIN ∧ 0 < DBL_MIN) ∧
      minValueStr type_t.FLOAT = some (-(3402823466 * 10 ^ 29)) ∧
      minValueStr type_t.DOUBLE = some (-(17976931348623158 * 10 ^ 292)) := by
  refine ⟨⟨rfl, by unfold FLT_MIN; positivity⟩, ⟨rfl, by unfold DBL_MIN; positivity⟩, ?_, ?_⟩
  · rw [minValueStr_eq]; norm_num [minText, type_t.toNat]
  · rw [minValueStr_eq]; norm_num [minText, type_t.toNat]

/-- No `double` lies strictly between `2^53` and `2^53 + 2`. -/
theorem no_double_between (v : ℚ) (hv : isDouble v) (h1 : 9007199254740992 < v)
    (h2 : v < 9007199254740994) : False := by
  have hpos : 0 < v := lt_trans (by norm_num) h1
  have hfix : roundNE 53 (-1074) v = v := hv.1
  rw [roundNE_eval 53 (-1074) v 53 1 (by rw [abs_of_pos hpos]; norm_num; linarith)
    (by rw [abs_of_pos hpos]; norm_num; linarith) (by norm_num)] at hfix
  have e1 : (9007199254740992 : ℚ) < (roundHalfEven (v / 2 ^ (1 : ℤ)) : ℤ) * 2 ^ (1 : ℤ) := by
    rw [hfix]; exact h1
  have e2 : ((roundHalfEven (v / 2 ^ (1 : ℤ)) : ℤ) : ℚ) * 2 ^ (1 : ℤ) < 9007199254740994 := by
    rw [hfix]; exact h2
  have k1 : (4503599627370496 : ℤ) < roundHalfEven (v / 2 ^ (1 : ℤ)) := by
    have : ((4503599627370496 : ℤ) : ℚ) < (roundHalfEven (v / 2 ^ (1 : ℤ)) : ℤ) := by
      push_cast
      norm_num at e1 ⊢
      linarith
    exact_mod_cast this
  have k2 : roundHalfEven (v / 2 ^ (1 : ℤ)) < (4503599627370497 : ℤ) := by
    have : ((roundHalfEven (v / 2 ^ (1 : ℤ)) : ℤ) : ℚ) < ((4503599627370497 : ℤ) : ℚ) := by
      push_cast
      norm_num at e2 ⊢
      linarith
    exact_mod_cast this
  omega

/-- Extra: for `x : DOUBLE` with the predicates `x - 2^53 > 0` and
`(2^53 + 2) - x > 0`, whatever model the decision procedure answers and however
its values are converted to a `double`, a true answer of `Solve` comes with an
assignment under which one of the two predicates is false. -/
theorem Solve_between_unsound (Y : Yices) (longBits : ℕ) (soln0 soln : VarMap value_t)
    (hdbl : ∀ q, isDouble (Y.get_double_value q))
    (hres : Solve Y longBits [(0, type_t.DOUBLE)]
      [⟨ops.GT, ⟨-9007199254740992, [(0, 1)]⟩⟩, ⟨ops.GT, ⟨9007199254740994, [(0, -1)]⟩⟩]
      soln0 = some (true, soln)) :
    ¬ ((⟨ops.GT, ⟨-9007199254740992, [(0, 1)]⟩⟩ : SymbolicPred).holds
          (fun x => (mapFind x soln).getD 0) ∧
       (⟨ops.GT, ⟨9007199254740994, [(0, -1)]⟩⟩ : SymbolicPred).holds
          (fun x => (mapFind x soln).getD 0)) := by
  obtain ⟨f, m, -, -, rfl⟩ := Solve_true Y longBits _ _ soln0 soln hres
  have hfind : mapFind 0 (readModel Y m [(0, type_t.DOUBLE)] []) =
      some (Y.get_double_value (m 0)) := readModel_find Y m _ 0 (by simp)
  rintro ⟨p1, p2⟩
  simp only [SymbolicPred.holds, compareHolds_GT, SymbolicExpr.eval, List.map_cons,
    List.map_nil, List.sum_cons, List.sum_nil, hfind, Option.getD_some] at p1 p2
  exact no_double_between _ (hdbl (m 0)) (by linarith) (by linarith)

theorem Solve_between_unsound_witness :
    ¬ ((⟨ops.GT, ⟨-9007199254740992, [(0, 1)]⟩⟩ : SymbolicPred).holds
          (fun x => (mapFind x [((0 : var_t), (9007199254740992 : value_t))]).getD 0) ∧
       (⟨ops.GT, ⟨9007199254740994, [(0, -1)]⟩⟩ : SymbolicPred).holds
          (fun x => (mapFind x [((0 : var_t), (9007199254740992 : value_t))]).getD 0)) :=
  Solve_between_unsound ⟨fun _ => some fun _ => 9007199254740993, fun _ => 9007199254740992⟩ 32
    [] [(0, 9007199254740992)]
    (fun _ => by simpa using isDouble_intCast 9007199254740992 (by norm_num))
    (by
      rw [Solve, buildFormula_between 32]
      simp [readModel, mapInsert])

end crest
